import Mathlib

/-!
# Verification development for the evmos auctions / erc20 genesis codec

Part I  (namespace `Auctions`): the rolling auction engine.  The repository
snapshot holds only the gRPC service declarations (`MsgServer`) and the
`Keeper` record; the engine behind them is modelled from the specification.

Part II (namespace `Erc20Genesis`): the generated protobuf codec of
`x/erc20/types/genesis.pb.go`, embedded from the source.
-/

namespace Auctions

/-! ## Data model -/

abbrev Account := Nat
abbrev Denom := Nat

/-- Modelled from the spec: one coin of a `Bid` or `DepositCoin` message, a
denomination and an amount; the message types are not part of the sources. The
amount is an integer, so that the zero and negative amounts of the error
taxonomy can be stated. -/
structure Coin where
  denom : Denom
  amount : Int
deriving DecidableEq, Repr

abbrev Coins := List Coin

/-- Modelled from the spec: the error taxonomy of the engine (section 7), which
the sources do not declare. `BidTooLow` surfaces the competing highest bid
amount. -/
inductive AuctionError where
  | Disabled
  | InvalidAmount
  | BidTooLow (current : Nat)
  | InsufficientFunds
  | Unauthorized
deriving DecidableEq, Repr

/-- Modelled from the spec: the Parameter Store contents (section 3); the
parameter message type is not part of the sources. `roundDuration` is a
positive integer. -/
structure Params where
  enabled : Bool
  roundDuration : PNat
deriving DecidableEq

/-- Modelled from the spec: the highest bid of a round, amount in the bid asset
plus bidder identity. -/
structure Bid where
  amount : Nat
  bidder : Account
deriving DecidableEq, Repr

/-- Modelled from the spec: Round State (section 3). The pot is kept as the list
of entries deposited so far; its denotation as a mapping is `amountOf`. -/
structure Round where
  number : Nat
  endHeight : Nat
  pot : List (Denom × Nat)
  highestBid : Option Bid
deriving DecidableEq

/-- Modelled from the spec: owners of balances in the ledger, user accounts and
the module-owned escrow account (section 2). -/
inductive Holder where
  | user (a : Account)
  | escrow
deriving DecidableEq, Repr

/-- Modelled from the spec: the ledger capability (section 6), balances per
holder and denomination plus the supply removed by disposal. -/
structure Ledger where
  balance : Holder → Denom → Nat
  disposed : Denom → Nat

/-- Modelled from the spec: the explicit context object of the engine (section 9)
holding the Parameter Store, the ledger and the Round State, together with the
`authority` field of `Keeper` (keeper.go) and the configured bid asset. -/
structure AuctionState where
  params : Params
  round : Round
  ledger : Ledger
  authority : Account
  bidDenom : Denom

/-- Total amount of denomination `d` in a list of entries. -/
def amountOf : List (Denom × Nat) → Denom → Nat
  | [], _ => 0
  | (d', a) :: rest, d => (if d' = d then a else 0) + amountOf rest d

/-- Total (signed) amount of denomination `d` requested by a message. -/
def coinsAmount : Coins → Denom → Int
  | [], _ => 0
  | c :: rest, d => (if c.denom = d then c.amount else 0) + coinsAmount rest d

/-- Entries stored for validated (positive) message coins. -/
def toEntries (coins : Coins) : List (Denom × Nat) :=
  coins.map (fun c => (c.denom, c.amount.toNat))

/-- Point update of a balance table. -/
def setBal (bal : Holder → Denom → Nat) (h : Holder) (d : Denom) (v : Nat) :
    Holder → Denom → Nat :=
  fun h' d' => if h' = h ∧ d' = d then v else bal h' d'

/-- Balance table after debiting `amt` of `d` from `src` and crediting it to `dst`. -/
def moveBal (bal : Holder → Denom → Nat) (src dst : Holder) (d : Denom) (amt : Nat) :
    Holder → Denom → Nat :=
  let b1 := setBal bal src d (bal src d - amt)
  setBal b1 dst d (b1 dst d + amt)

/-! ## Ledger capability -/

/-- Modelled from the spec: `Transfer(from, to, amount)` of the ledger capability;
a transfer the source balance cannot cover is rejected with `InsufficientFunds`
and moves nothing. -/
def Ledger.Transfer (l : Ledger) (src dst : Holder) (d : Denom) (amt : Nat) :
    Except AuctionError Ledger :=
  if l.balance src d < amt then .error .InsufficientFunds
  else .ok { l with balance := moveBal l.balance src dst d amt }

/-- Modelled from the spec: transfer of a multi-asset amount, entry by entry; any
failing entry rejects the whole transfer. -/
def Ledger.TransferCoins (src dst : Holder) : List (Denom × Nat) → Ledger →
    Except AuctionError Ledger
  | [], l => .ok l
  | (d, a) :: rest, l =>
    match l.Transfer src dst d a with
    | .error e => .error e
    | .ok l1 => Ledger.TransferCoins src dst rest l1

/-- Modelled from the spec: `Dispose(amount)` of the ledger capability (burn):
the amount leaves the holder and is returned to nobody. -/
def Ledger.Dispose (l : Ledger) (src : Holder) (d : Denom) (amt : Nat) :
    Except AuctionError Ledger :=
  if l.balance src d < amt then .error .InsufficientFunds
  else
    .ok { balance := setBal l.balance src d (l.balance src d - amt)
          disposed := fun x => if x = d then l.disposed x + amt else l.disposed x }

/-! ## Engine operations -/

/-- Modelled from the spec: `PlaceBid(bidder, amount)` (section 4.1), the engine
behind `MsgServer.Bid`, whose implementation is not part of the sources. All
validation precedes any mutation: disabled auctions, then denomination and
positivity, then the strict raise over the current highest bid, then the
bidder's balance (checked by the ledger on the lock). On success the new amount
is locked in escrow and the previous highest bidder is refunded. -/
def PlaceBid (s : AuctionState) (bidder : Account) (amount : Coin) :
    Except AuctionError AuctionState :=
  if s.params.enabled = false then .error .Disabled
  else if amount.denom ≠ s.bidDenom ∨ amount.amount ≤ 0 then .error .InvalidAmount
  else
    match s.round.highestBid with
    | some hb =>
      if amount.amount ≤ (hb.amount : Int) then .error (.BidTooLow hb.amount)
      else
        match s.ledger.Transfer (.user bidder) .escrow s.bidDenom amount.amount.toNat with
        | .error e => .error e
        | .ok l1 =>
          match l1.Transfer .escrow (.user hb.bidder) s.bidDenom hb.amount with
          | .error e => .error e
          | .ok l2 =>
            .ok { s with
                  ledger := l2
                  round := { s.round with
                             highestBid := some ⟨amount.amount.toNat, bidder⟩ } }
    | none =>
      match s.ledger.Transfer (.user bidder) .escrow s.bidDenom amount.amount.toNat with
      | .error e => .error e
      | .ok l1 =>
        .ok { s with
              ledger := l1
              round := { s.round with
                         highestBid := some ⟨amount.amount.toNat, bidder⟩ } }

/-- Modelled from the spec: the precondition of a deposit (section 4.2), a
non-empty multi-asset amount with every entry positive. -/
def validCoins (coins : Coins) : Bool :=
  !coins.isEmpty && coins.all (fun c => decide (0 < c.amount))

/-- Modelled from the spec: `DepositCoin(depositor, coins)` (section 4.2), the
engine behind `MsgServer.DepositCoin`, whose implementation is not part of the
sources. -/
def DepositCoin (s : AuctionState) (depositor : Account) (coins : Coins) :
    Except AuctionError AuctionState :=
  if s.params.enabled = false then .error .Disabled
  else if validCoins coins = false then .error .InvalidAmount
  else
    match Ledger.TransferCoins (.user depositor) .escrow (toEntries coins) s.ledger with
    | .error e => .error e
    | .ok l1 =>
      .ok { s with
            ledger := l1
            round := { s.round with pot := s.round.pot ++ toEntries coins } }

/-- Modelled from the spec: `UpdateParams(caller, newParams)` (section 4.4), the
engine behind `MsgServer.UpdateParams`, whose implementation is not part of the
sources; the authority check compares the caller with `Keeper.authority`. -/
def UpdateParams (s : AuctionState) (caller : Account) (newParams : Params) :
    Except AuctionError AuctionState :=
  if caller ≠ s.authority then .error .Unauthorized
  else .ok { s with params := newParams }

/-- Modelled from the spec: the Round Scheduler (section 4.3), run once per block
at `height`; the scheduler is not part of the sources. While auctions are
disabled or the end height is not reached it does nothing; otherwise it settles
the round and opens the next one. -/
def EndBlock (s : AuctionState) (height : Nat) : Except AuctionError AuctionState :=
  if s.params.enabled = false ∨ height < s.round.endHeight then .ok s
  else
    match s.round.highestBid with
    | some hb =>
      match Ledger.TransferCoins .escrow (.user hb.bidder) s.round.pot s.ledger with
      | .error e => .error e
      | .ok l1 =>
        match l1.Dispose .escrow s.bidDenom hb.amount with
        | .error e => .error e
        | .ok l2 =>
          .ok { s with
                ledger := l2
                round := { number := s.round.number + 1
                           endHeight := height + s.params.roundDuration
                           pot := []
                           highestBid := none } }
    | none =>
      .ok { s with
            round := { number := s.round.number + 1
                       endHeight := height + s.params.roundDuration
                       pot := s.round.pot
                       highestBid := none } }

/-- Modelled from the spec: the state at module activation (section 3, lifecycle):
a first round with no bid, an empty pot and an empty escrow account. -/
def genesis (params : Params) (authority : Account) (bidDenom : Denom) (height : Nat)
    (userBalance : Account → Denom → Nat) : AuctionState :=
  { params := params
    round := { number := 1
               endHeight := height + params.roundDuration
               pot := []
               highestBid := none }
    ledger := { balance := fun h d =>
                  match h with
                  | .user a => userBalance a d
                  | .escrow => 0
                disposed := fun _ => 0 }
    authority := authority
    bidDenom := bidDenom }

/-- Operations applied to the engine. -/
inductive Msg where
  | bid (bidder : Account) (amount : Coin)
  | deposit (depositor : Account) (coins : Coins)
  | updateParams (caller : Account) (newParams : Params)
  | endBlock (height : Nat)

/-- Result of an operation, rejected or not. -/
def run (s : AuctionState) : Msg → Except AuctionError AuctionState
  | .bid b a => PlaceBid s b a
  | .deposit d c => DepositCoin s d c
  | .updateParams c p => UpdateParams s c p
  | .endBlock h => EndBlock s h

/-- State after an operation: a rejected operation leaves the state as it was. -/
def step (s : AuctionState) (m : Msg) : AuctionState :=
  match run s m with
  | .ok s' => s'
  | .error _ => s

/-- States reachable from module activation through any sequence of operations. -/
inductive Reachable : AuctionState → Prop where
  | init (params : Params) (authority : Account) (bidDenom : Denom) (height : Nat)
      (userBalance : Account → Denom → Nat) :
      Reachable (genesis params authority bidDenom height userBalance)
  | next (s : AuctionState) (m : Msg) (h : Reachable s) : Reachable (step s m)

/-- Amount of denomination `d` that the escrow account holds beyond the pot,
that is, the amount locked for bids. -/
def lockedForBids (s : AuctionState) (d : Denom) : Int :=
  (s.ledger.balance .escrow d : Int) - (amountOf s.round.pot d : Int)

/-- Amount of denomination `d` that the current highest bid accounts for. -/
def highestBidAmount (s : AuctionState) (d : Denom) : Nat :=
  match s.round.highestBid with
  | some hb => if d = s.bidDenom then hb.amount else 0
  | none => 0

/-- The escrow account holds exactly the pot plus the current highest bid. -/
def EscrowBacked (s : AuctionState) : Prop :=
  ∀ d, s.ledger.balance .escrow d = amountOf s.round.pot d + highestBidAmount s d

/-- Requirement on the raise of a bid of amount `x`: strictly above the current
highest bid, or positive when there is none. -/
def raises (s : AuctionState) (x : Int) : Prop :=
  match s.round.highestBid with
  | some hb => (hb.amount : Int) < x
  | none => 0 < x

/-- Sample state: auctions enabled, round opened at height 1000 for 100 blocks,
every account funded with 1000 of denominations 0 (the bid asset) and 1. -/
def sampleGenesis : AuctionState :=
  genesis ⟨true, 100⟩ 9 0 1000 (fun _ d => if d ≤ 1 then 1000 else 0)

/-- Sample state after account 1 bid 50 and account 3 deposited 700 of
denomination 1. -/
def sampleAfterBid : AuctionState :=
  step (step sampleGenesis (.bid 1 ⟨0, 50⟩)) (.deposit 3 [⟨1, 700⟩])

end Auctions

namespace Erc20Genesis

/-! ## Machine integers and byte buffers -/

abbrev Byte := Fin 256
abbrev Bytes := List Byte

/-- Conversion `uint8(x)`: the low eight bits. -/
def toByte (n : Nat) : Byte := ⟨n % 256, Nat.mod_lt n (by decide)⟩

/-- Conversion `uint64(x)` of a signed integer: the value modulo 2^64. -/
def toUint64 (x : Int) : Nat := (x % 2 ^ 64).toNat

/-- Conversion `int(x)` of a `uint64` on a 64-bit platform (two's complement). -/
def toInt64 (n : Nat) : Int :=
  if n % 2 ^ 64 < 2 ^ 63 then ((n % 2 ^ 64 : Nat) : Int) else ((n % 2 ^ 64 : Nat) : Int) - 2 ^ 64

/-- Result of `int` arithmetic on a 64-bit platform: wrap-around into
[-2^63, 2^63). -/
def wrapInt64 (x : Int) : Int := (x + 2 ^ 63) % 2 ^ 64 - 2 ^ 63

/-- Conversion `int32(x)` of a `uint64`: the low 32 bits, two's complement. -/
def toInt32 (n : Nat) : Int :=
  if n % 2 ^ 32 < 2 ^ 31 then ((n % 2 ^ 32 : Nat) : Int) else ((n % 2 ^ 32 : Nat) : Int) - 2 ^ 32

/-- Outcomes other than a normal return. `panic` is a Go run-time panic (index or
slice bounds out of range); `outOfFuel` is the exhaustion of the iteration
budget of a loop of this embedding and corresponds to no Go outcome; the others
are the error values of genesis.pb.go. -/
inductive Err where
  | panic
  | outOfFuel
  | ErrUnexpectedEOF
  | ErrInvalidLengthGenesis
  | ErrIntOverflowGenesis
  | ErrUnexpectedEndOfGroupGenesis
  | wiretypeEndGroup
  | illegalTag (fieldNum : Int) (wire : Nat)
  | wrongWireType (wireType : Nat) (fieldNum : Nat)
  | illegalWireType (wireType : Nat)
  | tokenPair (code : Nat)
deriving DecidableEq, Repr

instance instDecidableEqExcept {α : Type} [DecidableEq α] : DecidableEq (Except Err α) :=
  fun a b =>
    match a, b with
    | .ok x, .ok y => if h : x = y then isTrue (by rw [h]) else isFalse (by intro e; cases e; exact h rfl)
    | .error x, .error y =>
      if h : x = y then isTrue (by rw [h]) else isFalse (by intro e; cases e; exact h rfl)
    | .ok _, .error _ => isFalse (by intro e; cases e)
    | .error _, .ok _ => isFalse (by intro e; cases e)

/-- Assignment `dAtA[i] = b`; an index out of range panics. -/
def setByte (dAtA : Bytes) (i : Int) (b : Byte) : Except Err Bytes :=
  if 0 ≤ i ∧ i < dAtA.length then .ok (dAtA.set i.toNat b) else .error .panic

/-- Statement `copy(dAtA[i:], src)`; slicing out of range panics, and `copy`
moves as many bytes as fit. -/
def copyAt (dAtA : Bytes) (i : Int) (src : Bytes) : Except Err Bytes :=
  if 0 ≤ i ∧ i ≤ dAtA.length then
    .ok (dAtA.take i.toNat ++ src.take (dAtA.length - i.toNat) ++
      dAtA.drop (i.toNat + min (dAtA.length - i.toNat) src.length))
  else .error .panic

/-- Slice expression `dAtA[:i]`; out of range panics. -/
def sliceTo (dAtA : Bytes) (i : Int) : Except Err Bytes :=
  if 0 ≤ i ∧ i ≤ dAtA.length then .ok (dAtA.take i.toNat) else .error .panic

/-- Slice expression `dAtA[lo:hi]`; out of range panics. -/
def slice (dAtA : Bytes) (lo hi : Int) : Except Err Bytes :=
  if 0 ≤ lo ∧ lo ≤ hi ∧ hi ≤ dAtA.length then
    .ok ((dAtA.drop lo.toNat).take (hi.toNat - lo.toNat))
  else .error .panic

/-- Number of binary digits of `x`, by halving; `x` halvings always reach zero. -/
def lenLoop : Nat → Nat → Nat
  | 0, _ => 0
  | fuel + 1, x => if x = 0 then 0 else lenLoop fuel (x / 2) + 1

/-- Function `bits.Len64` of the Go standard library: the minimum number of bits
required to represent `x`, and 0 for `x = 0`. -/
def Len64 (x : Nat) : Nat := lenLoop x x

/-- Function `sovGenesis`. -/
def sovGenesis (x : Nat) : Nat := (Len64 (x ||| 1) + 6) / 7

/-! ## Messages -/

/-- Message `Params`. -/
structure Params where
  EnableErc20 : Bool
deriving DecidableEq, Repr

/-- Message `Precompiles`; a Go string is a sequence of bytes. -/
structure Precompiles where
  Native : List Bytes
  Dynamic : List Bytes
deriving DecidableEq, Repr

/-- Codec of message `TokenPair`, generated into another file of the package:
its `Size`, its `MarshalToSizedBuffer` (resulting buffer and returned count) and
its `Unmarshal` into a zero-valued `TokenPair`. -/
structure TokenPairCodec (TP : Type) where
  Size : TP → Int
  MarshalToSizedBuffer : TP → Bytes → Except Err (Bytes × Int)
  Unmarshal : Bytes → Except Err TP

/-- Message `GenesisState`, over the type of token pairs. -/
structure GenesisState (TP : Type) where
  Params : Params
  TokenPairs : List TP
  Precompiles : Precompiles

/-! ## Marshal -/

/-- Loop and final store of `encodeVarintGenesis`. A `uint64` has at most ten
groups of seven bits, so ten iterations are the budget. -/
def encodeVarintLoop : Nat → Bytes → Int → Nat → Except Err Bytes
  | 0, _, _, _ => .error .outOfFuel
  | fuel + 1, dAtA, offset, v =>
    if v ≥ 1 <<< 7 then
      (setByte dAtA offset (toByte (v &&& 0x7f ||| 0x80))).bind fun dAtA1 =>
        encodeVarintLoop fuel dAtA1 (offset + 1) (v >>> 7)
    else setByte dAtA offset (toByte v)

/-- Function `encodeVarintGenesis`: resulting buffer and returned `base`. -/
def encodeVarintGenesis (dAtA : Bytes) (offset : Int) (v : Nat) : Except Err (Bytes × Int) :=
  let offset := offset - sovGenesis v
  let base := offset
  (encodeVarintLoop 10 dAtA offset v).bind fun dAtA1 => .ok (dAtA1, base)

/-- Method `Params.Size`. -/
def Params.Size (m : Params) : Int :=
  if m.EnableErc20 then 0 + 2 else 0

/-- Method `Params.MarshalToSizedBuffer`: resulting buffer and returned count. -/
def Params.MarshalToSizedBuffer (m : Params) (dAtA : Bytes) : Except Err (Bytes × Int) :=
  let i : Int := dAtA.length
  if m.EnableErc20 then
    let i := i - 1
    (setByte dAtA i (if m.EnableErc20 then 1 else 0)).bind fun dAtA1 =>
      let i := i - 1
      (setByte dAtA1 i 0x8).bind fun dAtA2 =>
        .ok (dAtA2, (dAtA2.length : Int) - i)
  else .ok (dAtA, (dAtA.length : Int) - i)

/-- Method `Params.Marshal`. -/
def Params.Marshal (m : Params) : Except Err Bytes :=
  let size := m.Size
  let dAtA : Bytes := List.replicate size.toNat 0
  (sliceTo dAtA size).bind fun buf =>
    (m.MarshalToSizedBuffer buf).bind fun r =>
      sliceTo (r.1 ++ dAtA.drop size.toNat) r.2

/-- Body of the two loops of `Precompiles.MarshalToSizedBuffer`, over the strings
in the order the loop visits them (last to first), for the given tag byte. -/
def marshalStrings (tag : Byte) : List Bytes → Bytes → Int → Except Err (Bytes × Int)
  | [], dAtA, i => .ok (dAtA, i)
  | s :: rest, dAtA, i =>
    let i := i - s.length
    (copyAt dAtA i s).bind fun dAtA1 =>
      (encodeVarintGenesis dAtA1 i (toUint64 s.length)).bind fun r =>
        let i := r.2 - 1
        (setByte r.1 i tag).bind fun dAtA2 =>
          marshalStrings tag rest dAtA2 i

/-- Method `Precompiles.MarshalToSizedBuffer`: resulting buffer and returned count. -/
def Precompiles.MarshalToSizedBuffer (m : Precompiles) (dAtA : Bytes) :
    Except Err (Bytes × Int) :=
  let i : Int := dAtA.length
  (if m.Dynamic.length > 0 then marshalStrings 0x12 m.Dynamic.reverse dAtA i
    else .ok (dAtA, i)).bind fun r1 =>
  (if m.Native.length > 0 then marshalStrings 0xa m.Native.reverse r1.1 r1.2
    else .ok r1).bind fun r2 =>
  .ok (r2.1, (r2.1.length : Int) - r2.2)

/-- Sum of `1 + l + sovGenesis(uint64(l))` over the lengths `l` of the strings. -/
def sizeStrings : List Bytes → Int → Int
  | [], n => n
  | s :: rest, n =>
    let l : Int := s.length
    sizeStrings rest (n + (1 + l + sovGenesis (toUint64 l)))

/-- Method `Precompiles.Size`. -/
def Precompiles.Size (m : Precompiles) : Int :=
  let n := 0
  let n := if m.Native.length > 0 then sizeStrings m.Native n else n
  let n := if m.Dynamic.length > 0 then sizeStrings m.Dynamic n else n
  n

/-- Method `Precompiles.Marshal`. -/
def Precompiles.Marshal (m : Precompiles) : Except Err Bytes :=
  let size := m.Size
  let dAtA : Bytes := List.replicate size.toNat 0
  (sliceTo dAtA size).bind fun buf =>
    (m.MarshalToSizedBuffer buf).bind fun r =>
      sliceTo (r.1 ++ dAtA.drop size.toNat) r.2

/-- The block that `GenesisState.MarshalToSizedBuffer` repeats for each nested
message: the callee `f` (a `MarshalToSizedBuffer`) writes into `dAtA[:i]`, which
shares its storage with `dAtA`; then `i -= size`, the length varint and the tag
byte are stored in front. Returns the buffer and the new `i`. -/
def marshalNested (f : Bytes → Except Err (Bytes × Int)) (tag : Byte) (dAtA : Bytes)
    (i : Int) : Except Err (Bytes × Int) :=
  (sliceTo dAtA i).bind fun buf =>
    (f buf).bind fun r =>
      let dAtA1 := r.1 ++ dAtA.drop i.toNat
      let size := r.2
      let i := i - size
      (encodeVarintGenesis dAtA1 i (toUint64 size)).bind fun r2 =>
        let i := r2.2 - 1
        (setByte r2.1 i tag).bind fun dAtA2 => .ok (dAtA2, i)

/-- Token pair loop of `GenesisState.MarshalToSizedBuffer`, over the token pairs
in the order the loop visits them (last to first). -/
def marshalTokenPairs {TP : Type} (c : TokenPairCodec TP) :
    List TP → Bytes → Int → Except Err (Bytes × Int)
  | [], dAtA, i => .ok (dAtA, i)
  | e :: rest, dAtA, i =>
    (marshalNested (c.MarshalToSizedBuffer e) 0x12 dAtA i).bind fun r =>
      marshalTokenPairs c rest r.1 r.2

/-- Method `GenesisState.MarshalToSizedBuffer`: resulting buffer and returned count. -/
def GenesisState.MarshalToSizedBuffer {TP : Type} (c : TokenPairCodec TP)
    (m : GenesisState TP) (dAtA : Bytes) : Except Err (Bytes × Int) :=
  let i : Int := dAtA.length
  (marshalNested m.Precompiles.MarshalToSizedBuffer 0x1a dAtA i).bind fun r1 =>
  (if m.TokenPairs.length > 0 then marshalTokenPairs c m.TokenPairs.reverse r1.1 r1.2
    else .ok r1).bind fun r2 =>
  (marshalNested m.Params.MarshalToSizedBuffer 0xa r2.1 r2.2).bind fun r3 =>
  .ok (r3.1, (r3.1.length : Int) - r3.2)

/-- Sum of `1 + l + sovGenesis(uint64(l))` over the sizes `l` of the token pairs. -/
def sizeTokenPairs {TP : Type} (c : TokenPairCodec TP) : List TP → Int → Int
  | [], n => n
  | e :: rest, n =>
    let l := c.Size e
    sizeTokenPairs c rest (n + (1 + l + sovGenesis (toUint64 l)))

/-- Method `GenesisState.Size`. -/
def GenesisState.Size {TP : Type} (c : TokenPairCodec TP) (m : GenesisState TP) : Int :=
  let n := 0
  let l := m.Params.Size
  let n := n + (1 + l + sovGenesis (toUint64 l))
  let n := if m.TokenPairs.length > 0 then sizeTokenPairs c m.TokenPairs n else n
  let l := m.Precompiles.Size
  let n := n + (1 + l + sovGenesis (toUint64 l))
  n

/-- Method `GenesisState.Marshal`. -/
def GenesisState.Marshal {TP : Type} (c : TokenPairCodec TP) (m : GenesisState TP) :
    Except Err Bytes :=
  let size := GenesisState.Size c m
  let dAtA : Bytes := List.replicate size.toNat 0
  (sliceTo dAtA size).bind fun buf =>
    (GenesisState.MarshalToSizedBuffer c m buf).bind fun r =>
      sliceTo (r.1 ++ dAtA.drop size.toNat) r.2

/-! ## Unmarshal -/

/-- The varint loop that genesis.pb.go inlines at every tag, length and value:
`for shift := uint(0); ; shift += 7`, accumulating `uint64(b&0x7F) << shift`
into a 64-bit word. The loop leaves with `ErrIntOverflowGenesis` once
`shift >= 64`, which is the eleventh iteration, so the budget of ten iterations
is never the reason to stop. Returns the word and the index after the varint. -/
def readVarint (dAtA : Bytes) : Nat → Nat → Nat → Nat → Except Err (Nat × Nat)
  | 0, _, _, _ => .error .ErrIntOverflowGenesis
  | fuel + 1, shift, iNdEx, acc =>
    if shift ≥ 64 then .error .ErrIntOverflowGenesis
    else if iNdEx ≥ dAtA.length then .error .ErrUnexpectedEOF
    else
      match dAtA[iNdEx]? with
      | none => .error .panic
      | some b =>
        let acc1 := (acc ||| ((b.val &&& 0x7F) <<< shift)) % 2 ^ 64
        if b.val < 0x80 then .ok (acc1, iNdEx + 1)
        else readVarint dAtA fuel (shift + 7) (iNdEx + 1) acc1

/-- The varint loop of wire type 0 in `skipGenesis`, which only advances the
index. -/
def skipVarint (dAtA : Bytes) : Nat → Nat → Nat → Except Err Nat
  | 0, _, _ => .error .ErrIntOverflowGenesis
  | fuel + 1, shift, iNdEx =>
    if shift ≥ 64 then .error .ErrIntOverflowGenesis
    else if iNdEx ≥ dAtA.length then .error .ErrUnexpectedEOF
    else
      match dAtA[iNdEx + 1 - 1]? with
      | none => .error .panic
      | some b =>
        if b.val < 0x80 then .ok (iNdEx + 1)
        else skipVarint dAtA fuel (shift + 7) (iNdEx + 1)

/-- Check `if iNdEx < 0` at the end of an iteration of `skipGenesis`, then the
test of `depth`; `k` continues the loop. -/
def skipAdvance (iNdEx : Int) (depth : Nat) (k : Nat → Except Err Int) : Except Err Int :=
  if iNdEx < 0 then .error .ErrInvalidLengthGenesis
  else if depth = 0 then .ok iNdEx
  else k iNdEx.toNat

/-- Loop of `skipGenesis`. Every iteration consumes at least the tag byte, so
`len(dAtA)` iterations are the budget. -/
def skipGenesisLoop (dAtA : Bytes) : Nat → Nat → Nat → Except Err Int
  | 0, iNdEx, _ =>
    if iNdEx < dAtA.length then .error .outOfFuel else .error .ErrUnexpectedEOF
  | fuel + 1, iNdEx, depth =>
    if iNdEx < dAtA.length then
      (readVarint dAtA 10 0 iNdEx 0).bind fun r =>
        let wire := r.1
        let iNdEx := r.2
        let wireType := wire &&& 0x7
        match wireType with
        | 0 =>
          (skipVarint dAtA 10 0 iNdEx).bind fun iNdEx =>
            skipAdvance iNdEx depth (fun i => skipGenesisLoop dAtA fuel i depth)
        | 1 =>
          skipAdvance (wrapInt64 (iNdEx + 8)) depth (fun i => skipGenesisLoop dAtA fuel i depth)
        | 2 =>
          (readVarint dAtA 10 0 iNdEx 0).bind fun r2 =>
            let length := toInt64 r2.1
            let iNdEx := r2.2
            if length < 0 then .error .ErrInvalidLengthGenesis
            else
              skipAdvance (wrapInt64 (iNdEx + length)) depth
                (fun i => skipGenesisLoop dAtA fuel i depth)
        | 3 =>
          skipAdvance iNdEx (depth + 1) (fun i => skipGenesisLoop dAtA fuel i (depth + 1))
        | 4 =>
          if depth = 0 then .error .ErrUnexpectedEndOfGroupGenesis
          else skipAdvance iNdEx (depth - 1) (fun i => skipGenesisLoop dAtA fuel i (depth - 1))
        | 5 =>
          skipAdvance (wrapInt64 (iNdEx + 4)) depth (fun i => skipGenesisLoop dAtA fuel i depth)
        | w => .error (.illegalWireType w)
    else .error .ErrUnexpectedEOF

/-- Function `skipGenesis`. -/
def skipGenesis (dAtA : Bytes) : Except Err Int :=
  skipGenesisLoop dAtA dAtA.length 0 0

/-- The `default` case of the field switch of the three `Unmarshal` methods:
skip the field that starts at `preIndex`; returns the index after it. -/
def skipField (dAtA : Bytes) (preIndex : Nat) : Except Err Nat :=
  let iNdEx := preIndex
  (slice dAtA iNdEx dAtA.length).bind fun rest =>
    (skipGenesis rest).bind fun skippy =>
      if skippy < 0 ∨ wrapInt64 (iNdEx + skippy) < 0 then .error .ErrInvalidLengthGenesis
      else if wrapInt64 (iNdEx + skippy) > dAtA.length then .error .ErrUnexpectedEOF
      else .ok (wrapInt64 (iNdEx + skippy)).toNat

/-- Tag at the head of a field, as the three `Unmarshal` methods decode it:
`fieldNum := int32(wire >> 3)` and `wireType := int(wire & 0x7)`, rejected when
the wire type is 4 or the field number is not positive. Returns the field
number, the wire type and the index after the tag. -/
def readTag (dAtA : Bytes) (iNdEx : Nat) : Except Err (Int × Nat × Nat) :=
  (readVarint dAtA 10 0 iNdEx 0).bind fun r =>
    let wire := r.1
    let fieldNum := toInt32 (wire >>> 3)
    let wireType := wire &&& 0x7
    if wireType = 4 then .error .wiretypeEndGroup
    else if fieldNum ≤ 0 then .error (.illegalTag fieldNum wire)
    else .ok (fieldNum, wireType, r.2)

/-- Length of a length-delimited field and the bounds of its payload, as the
`Unmarshal` methods compute them: the varint read as `int`, `postIndex :=
iNdEx + msglen`, rejected when negative or beyond the input. Returns the index
of the payload and `postIndex`. -/
def readLength (dAtA : Bytes) (iNdEx : Nat) : Except Err (Nat × Nat) :=
  (readVarint dAtA 10 0 iNdEx 0).bind fun r =>
    let msglen := toInt64 r.1
    let iNdEx := r.2
    if msglen < 0 then .error .ErrInvalidLengthGenesis
    else
      let postIndex := wrapInt64 (iNdEx + msglen)
      if postIndex < 0 then .error .ErrInvalidLengthGenesis
      else if postIndex > dAtA.length then .error .ErrUnexpectedEOF
      else .ok (iNdEx, postIndex.toNat)

/-- Exit of the loop of an `Unmarshal` method. -/
def finish {α : Type} (dAtA : Bytes) (iNdEx : Nat) (m : α) : Except Err α :=
  if iNdEx > dAtA.length then .error .ErrUnexpectedEOF else .ok m

/-- Loop of `Params.Unmarshal`. Every iteration consumes at least one byte, so
`len(dAtA)` iterations are the budget. -/
def Params.unmarshalLoop (dAtA : Bytes) : Nat → Nat → Params → Except Err Params
  | 0, iNdEx, m => if iNdEx < dAtA.length then .error .outOfFuel else finish dAtA iNdEx m
  | fuel + 1, iNdEx, m =>
    if iNdEx < dAtA.length then
      let preIndex := iNdEx
      (readTag dAtA iNdEx).bind fun t =>
        let fieldNum := t.1
        let wireType := t.2.1
        let iNdEx := t.2.2
        match fieldNum with
        | 1 =>
          if wireType ≠ 0 then .error (.wrongWireType wireType 1)
          else
            (readVarint dAtA 10 0 iNdEx 0).bind fun r =>
              let v := toInt64 r.1
              Params.unmarshalLoop dAtA fuel r.2 { m with EnableErc20 := decide (v ≠ 0) }
        | _ =>
          (skipField dAtA preIndex).bind fun iNdEx =>
            Params.unmarshalLoop dAtA fuel iNdEx m
    else finish dAtA iNdEx m

/-- Method `Params.Unmarshal`, decoding into the receiver `m`. -/
def Params.Unmarshal (m : Params) (dAtA : Bytes) : Except Err Params :=
  Params.unmarshalLoop dAtA dAtA.length 0 m

/-- Loop of `Precompiles.Unmarshal`. Every iteration consumes at least one byte,
so `len(dAtA)` iterations are the budget. -/
def Precompiles.unmarshalLoop (dAtA : Bytes) : Nat → Nat → Precompiles → Except Err Precompiles
  | 0, iNdEx, m => if iNdEx < dAtA.length then .error .outOfFuel else finish dAtA iNdEx m
  | fuel + 1, iNdEx, m =>
    if iNdEx < dAtA.length then
      let preIndex := iNdEx
      (readTag dAtA iNdEx).bind fun t =>
        let fieldNum := t.1
        let wireType := t.2.1
        let iNdEx := t.2.2
        match fieldNum with
        | 1 =>
          if wireType ≠ 2 then .error (.wrongWireType wireType 1)
          else
            (readLength dAtA iNdEx).bind fun r =>
              (slice dAtA r.1 r.2).bind fun s =>
                Precompiles.unmarshalLoop dAtA fuel r.2 { m with Native := m.Native ++ [s] }
        | 2 =>
          if wireType ≠ 2 then .error (.wrongWireType wireType 2)
          else
            (readLength dAtA iNdEx).bind fun r =>
              (slice dAtA r.1 r.2).bind fun s =>
                Precompiles.unmarshalLoop dAtA fuel r.2 { m with Dynamic := m.Dynamic ++ [s] }
        | _ =>
          (skipField dAtA preIndex).bind fun iNdEx =>
            Precompiles.unmarshalLoop dAtA fuel iNdEx m
    else finish dAtA iNdEx m

/-- Method `Precompiles.Unmarshal`, decoding into the receiver `m`. -/
def Precompiles.Unmarshal (m : Precompiles) (dAtA : Bytes) : Except Err Precompiles :=
  Precompiles.unmarshalLoop dAtA dAtA.length 0 m

/-- Loop of `GenesisState.Unmarshal`. Every iteration consumes at least one byte,
so `len(dAtA)` iterations are the budget. -/
def GenesisState.unmarshalLoop {TP : Type} (c : TokenPairCodec TP) (dAtA : Bytes) :
    Nat → Nat → GenesisState TP → Except Err (GenesisState TP)
  | 0, iNdEx, m => if iNdEx < dAtA.length then .error .outOfFuel else finish dAtA iNdEx m
  | fuel + 1, iNdEx, m =>
    if iNdEx < dAtA.length then
      let preIndex := iNdEx
      (readTag dAtA iNdEx).bind fun t =>
        let fieldNum := t.1
        let wireType := t.2.1
        let iNdEx := t.2.2
        match fieldNum with
        | 1 =>
          if wireType ≠ 2 then .error (.wrongWireType wireType 1)
          else
            (readLength dAtA iNdEx).bind fun r =>
              (slice dAtA r.1 r.2).bind fun sub =>
                (m.Params.Unmarshal sub).bind fun p =>
                  GenesisState.unmarshalLoop c dAtA fuel r.2 { m with Params := p }
        | 2 =>
          if wireType ≠ 2 then .error (.wrongWireType wireType 2)
          else
            (readLength dAtA iNdEx).bind fun r =>
              (slice dAtA r.1 r.2).bind fun sub =>
                (c.Unmarshal sub).bind fun e =>
                  GenesisState.unmarshalLoop c dAtA fuel r.2
                    { m with TokenPairs := m.TokenPairs ++ [e] }
        | 3 =>
          if wireType ≠ 2 then .error (.wrongWireType wireType 3)
          else
            (readLength dAtA iNdEx).bind fun r =>
              (slice dAtA r.1 r.2).bind fun sub =>
                (m.Precompiles.Unmarshal sub).bind fun p =>
                  GenesisState.unmarshalLoop c dAtA fuel r.2 { m with Precompiles := p }
        | _ =>
          (skipField dAtA preIndex).bind fun iNdEx =>
            GenesisState.unmarshalLoop c dAtA fuel iNdEx m
    else finish dAtA iNdEx m

/-- Method `GenesisState.Unmarshal`, decoding into the receiver `m`. -/
def GenesisState.Unmarshal {TP : Type} (c : TokenPairCodec TP) (m : GenesisState TP)
    (dAtA : Bytes) : Except Err (GenesisState TP) :=
  GenesisState.unmarshalLoop c dAtA dAtA.length 0 m

/-! ## Wire format, written front to back -/

/-- Base-128 varint of `v`, least significant group first. -/
def varintEnc (v : Nat) : Bytes :=
  if v < 128 then [toByte v] else toByte (v % 128 + 128) :: varintEnc (v / 128)
termination_by v
decreasing_by omega

/-- One length-delimited field: tag byte, varint of the payload length, payload. -/
def encField (tag : Byte) (payload : Bytes) : Bytes :=
  tag :: (varintEnc payload.length ++ payload)

/-- Length-delimited fields of one tag, in list order. -/
def encFields (tag : Byte) : List Bytes → Bytes
  | [] => []
  | s :: rest => encField tag s ++ encFields tag rest

/-- Wire form of `Params`. -/
def Params.enc (m : Params) : Bytes := if m.EnableErc20 then [0x8, 1] else []

/-- Wire form of `Precompiles`. -/
def Precompiles.enc (m : Precompiles) : Bytes :=
  encFields 0xa m.Native ++ encFields 0x12 m.Dynamic

/-- Assumption on the `TokenPair` codec: `Size()` is a count of bytes; on a buffer
whose last `Size()` bytes are free, `MarshalToSizedBuffer` writes exactly those
bytes, leaves the bytes in front as they were and returns `Size()`; and
`Unmarshal` of the bytes written yields the token pair again. -/
def TokenPairCodec.Lawful {TP : Type} (c : TokenPairCodec TP) : Prop :=
  ∀ (e : TP), 0 ≤ c.Size e ∧
    ∀ (P X : Bytes), (X.length : Int) = c.Size e →
      ∃ Y : Bytes, Y.length = X.length ∧
        c.MarshalToSizedBuffer e (P ++ X) = .ok (P ++ Y, c.Size e) ∧
        c.Unmarshal Y = .ok e

/-- Bytes that the token pairs take in the wire form of `GenesisState`. -/
def tpLen {TP : Type} (c : TokenPairCodec TP) : List TP → Nat
  | [] => 0
  | e :: rest => (1 + sovGenesis (c.Size e).toNat + (c.Size e).toNat) + tpLen c rest

/-- Relation between a token pair and the bytes written for it. -/
def Written {TP : Type} (c : TokenPairCodec TP) (e : TP) (Y : Bytes) : Prop :=
  (Y.length : Int) = c.Size e ∧ c.Unmarshal Y = .ok e

/-- Wire form of `GenesisState`, given the bytes written for the token pairs. -/
def GenesisState.enc {TP : Type} (m : GenesisState TP) (Ys : List Bytes) : Bytes :=
  encField 0xa m.Params.enc ++ encFields 0x12 Ys ++ encField 0x1a m.Precompiles.enc

/-- The zero value of `GenesisState`. -/
def GenesisState.zero (TP : Type) : GenesisState TP :=
  { Params := ⟨false⟩, TokenPairs := [], Precompiles := ⟨[], []⟩ }

/-- The codec of `Params`, packaged as a codec of nested messages. -/
def paramsCodec : TokenPairCodec Params :=
  { Size := Params.Size
    MarshalToSizedBuffer := Params.MarshalToSizedBuffer
    Unmarshal := Params.Unmarshal ⟨false⟩ }

/-- A call ends normally or with one of the errors of genesis.pb.go: it does not
panic, and the iteration budget of the embedding is not what stops it. -/
def NoPanic {α : Type} (r : Except Err α) : Prop :=
  r ≠ .error .panic ∧ r ≠ .error .outOfFuel

/-- Assumption on the `TokenPair` codec for the size of the output alone:
`Size()` is a count of bytes, and on a buffer whose last `Size()` bytes are free
`MarshalToSizedBuffer` writes exactly those bytes, leaves the bytes in front as
they were and returns `Size()`. -/
def TokenPairCodec.WritesSize {TP : Type} (c : TokenPairCodec TP) : Prop :=
  ∀ (e : TP), 0 ≤ c.Size e ∧
    ∀ (P X : Bytes), (X.length : Int) = c.Size e →
      ∃ Y : Bytes, Y.length = X.length ∧
        c.MarshalToSizedBuffer e (P ++ X) = .ok (P ++ Y, c.Size e)

/-- Relation between a token pair and bytes of its size. -/
def Sized {TP : Type} (c : TokenPairCodec TP) (e : TP) (Y : Bytes) : Prop :=
  (Y.length : Int) = c.Size e

/-! ## Forward encoding, fields and iterations of the decoding loops -/

/-- Value of a base-128 varint: the low seven bits of each byte, least
significant group first. -/
def varintValue : Bytes → Nat
  | [] => 0
  | b :: rest => b.val % 128 + 128 * varintValue rest

/-- The continuation bit (0x80) is set on every byte of a varint but the last. -/
def varintShape : Bytes → Bool
  | [] => false
  | [b] => decide (b.val < 128)
  | b :: rest => decide (128 ≤ b.val) && varintShape rest

/-- Reference encoding of `Precompiles`, front to back as the protobuf field tags
declare it (`bytes=1` for `native`, `bytes=2` for `dynamic`, both repeated): for
each native entry in list order the byte 0x0a, the varint of the length of the
entry and the bytes of the entry, then the same for each dynamic entry with the
byte 0x12. -/
def Precompiles.reference (m : Precompiles) : Bytes :=
  (m.Native.map fun s => [0x0a] ++ varintEnc s.length ++ s).flatten ++
    (m.Dynamic.map fun s => [0x12] ++ varintEnc s.length ++ s).flatten

/-- A varint as the decoders accept it: at most ten bytes, the continuation bit
on every byte but the last. -/
def IsVarint (T : Bytes) : Prop := varintShape T = true ∧ T.length ≤ 10

/-- The 64-bit word that the decoders read from a varint. -/
def varintWord (T : Bytes) : Nat := varintValue T % 2 ^ 64

/-- One complete field of the protobuf wire format with field number `fieldNum`
and wire type varint (0), fixed64 (1), length-delimited (2) or fixed32 (5): the
varint of the tag `fieldNum << 3 | wireType`, followed by a varint, by eight
bytes, by the varint of a length and that many bytes, or by four bytes. -/
def WellFormedField (fieldNum : Nat) (F : Bytes) : Prop :=
  ∃ T rest : Bytes, F = T ++ rest ∧ IsVarint T ∧ varintWord T >>> 3 = fieldNum ∧
    ((varintWord T &&& 0x7 = 0 ∧ IsVarint rest) ∨
     (varintWord T &&& 0x7 = 1 ∧ rest.length = 8) ∨
     (varintWord T &&& 0x7 = 2 ∧
        ∃ L body : Bytes, rest = L ++ body ∧ IsVarint L ∧ varintWord L = body.length) ∨
     (varintWord T &&& 0x7 = 5 ∧ rest.length = 4))

/-- The field written with varints in their shortest form: tag, then the varint
`v`, or the bytes `bs` behind the varint of their count (wire type 2), or the
bytes `bs` alone (wire types 1 and 5). -/
def fieldEnc (fieldNum wireType v : Nat) (bs : Bytes) : Bytes :=
  varintEnc (fieldNum * 8 + wireType) ++
    (if wireType = 0 then varintEnc v
     else if wireType = 2 then varintEnc bs.length ++ bs
     else bs)

/-- The switch on the wire type in `skipGenesis`, after the tag has been read:
`iNdEx` is the index after the tag, `x8` and `x4` are the indices `iNdEx + 8` and
`iNdEx + 4` as `int`, and `fuel` is the budget of the rest of the loop. -/
def skipBody (dAtA : Bytes) (fuel depth iNdEx : Nat) (x8 x4 : Int) (wireType : Nat) :
    Except Err Int :=
  match wireType with
  | 0 =>
    (skipVarint dAtA 10 0 iNdEx).bind fun iNdEx =>
      skipAdvance iNdEx depth (fun i => skipGenesisLoop dAtA fuel i depth)
  | 1 => skipAdvance x8 depth (fun i => skipGenesisLoop dAtA fuel i depth)
  | 2 =>
    (readVarint dAtA 10 0 iNdEx 0).bind fun r2 =>
      if toInt64 r2.1 < 0 then .error .ErrInvalidLengthGenesis
      else
        skipAdvance (wrapInt64 (r2.2 + toInt64 r2.1)) depth
          (fun i => skipGenesisLoop dAtA fuel i depth)
  | 3 => skipAdvance iNdEx (depth + 1) (fun i => skipGenesisLoop dAtA fuel i (depth + 1))
  | 4 =>
    if depth = 0 then .error .ErrUnexpectedEndOfGroupGenesis
    else skipAdvance iNdEx (depth - 1) (fun i => skipGenesisLoop dAtA fuel i (depth - 1))
  | 5 => skipAdvance x4 depth (fun i => skipGenesisLoop dAtA fuel i depth)
  | w => .error (.illegalWireType w)

/-- The payload of a length-delimited field as the `Unmarshal` methods take it:
the length is read at `iNdEx`, the payload is sliced out of the input; returns
the index after the payload and the payload. -/
def readPayload (dAtA : Bytes) (iNdEx : Nat) : Except Err (Nat × Bytes) :=
  (readLength dAtA iNdEx).bind fun r =>
    (slice dAtA r.1 r.2).bind fun s => .ok (r.2, s)

/-- One iteration of the loop of `Params.Unmarshal`: the field at `iNdEx` is
decoded into `m`; returns the index after the field and the message. -/
def Params.step (dAtA : Bytes) (iNdEx : Nat) (m : Params) : Except Err (Nat × Params) :=
  let preIndex := iNdEx
  (readTag dAtA iNdEx).bind fun t =>
    let fieldNum := t.1
    let wireType := t.2.1
    let iNdEx := t.2.2
    match fieldNum with
    | 1 =>
      if wireType ≠ 0 then .error (.wrongWireType wireType 1)
      else
        (readVarint dAtA 10 0 iNdEx 0).bind fun r =>
          let v := toInt64 r.1
          .ok (r.2, { m with EnableErc20 := decide (v ≠ 0) })
    | _ =>
      (skipField dAtA preIndex).bind fun iNdEx => .ok (iNdEx, m)

/-- One iteration of the loop of `Precompiles.Unmarshal`. -/
def Precompiles.step (dAtA : Bytes) (iNdEx : Nat) (m : Precompiles) :
    Except Err (Nat × Precompiles) :=
  let preIndex := iNdEx
  (readTag dAtA iNdEx).bind fun t =>
    let fieldNum := t.1
    let wireType := t.2.1
    let iNdEx := t.2.2
    match fieldNum with
    | 1 =>
      if wireType ≠ 2 then .error (.wrongWireType wireType 1)
      else
        (readLength dAtA iNdEx).bind fun r =>
          (slice dAtA r.1 r.2).bind fun s =>
            .ok (r.2, { m with Native := m.Native ++ [s] })
    | 2 =>
      if wireType ≠ 2 then .error (.wrongWireType wireType 2)
      else
        (readLength dAtA iNdEx).bind fun r =>
          (slice dAtA r.1 r.2).bind fun s =>
            .ok (r.2, { m with Dynamic := m.Dynamic ++ [s] })
    | _ =>
      (skipField dAtA preIndex).bind fun iNdEx => .ok (iNdEx, m)

/-- One iteration of the loop of `GenesisState.Unmarshal`. -/
def GenesisState.step {TP : Type} (c : TokenPairCodec TP) (dAtA : Bytes) (iNdEx : Nat)
    (m : GenesisState TP) : Except Err (Nat × GenesisState TP) :=
  let preIndex := iNdEx
  (readTag dAtA iNdEx).bind fun t =>
    let fieldNum := t.1
    let wireType := t.2.1
    let iNdEx := t.2.2
    match fieldNum with
    | 1 =>
      if wireType ≠ 2 then .error (.wrongWireType wireType 1)
      else
        (readLength dAtA iNdEx).bind fun r =>
          (slice dAtA r.1 r.2).bind fun sub =>
            (m.Params.Unmarshal sub).bind fun p =>
              .ok (r.2, { m with Params := p })
    | 2 =>
      if wireType ≠ 2 then .error (.wrongWireType wireType 2)
      else
        (readLength dAtA iNdEx).bind fun r =>
          (slice dAtA r.1 r.2).bind fun sub =>
            (c.Unmarshal sub).bind fun e =>
              .ok (r.2, { m with TokenPairs := m.TokenPairs ++ [e] })
    | 3 =>
      if wireType ≠ 2 then .error (.wrongWireType wireType 3)
      else
        (readLength dAtA iNdEx).bind fun r =>
          (slice dAtA r.1 r.2).bind fun sub =>
            (m.Precompiles.Unmarshal sub).bind fun p =>
              .ok (r.2, { m with Precompiles := p })
    | _ =>
      (skipField dAtA preIndex).bind fun iNdEx => .ok (iNdEx, m)

/-- The state `(index, message)` after `n` iterations of a decoding loop. -/
def iterate {M : Type} (step : Nat → M → Except Err (Nat × M)) :
    Nat → Nat → M → Except Err (Nat × M)
  | 0, i, m => .ok (i, m)
  | n + 1, i, m => (step i m).bind fun r => iterate step n r.1 r.2

/-- Index `b` is a field boundary of the input for a decoding loop that starts
with message `m0`: some number of iterations from index 0 ends at `b`, with
message `m1` decoded so far. -/
def IsFieldBoundary {M : Type} (step : Nat → M → Except Err (Nat × M)) (m0 : M) (b : Nat)
    (m1 : M) : Prop :=
  ∃ n, iterate step n 0 m0 = .ok (b, m1)

/-- What relates a decoding loop to its iteration: the loop with budget runs the
iteration while the index is inside the input; an iteration advances the index
and stays inside the input; and an iteration that ends inside a window `X` of
the input does the same with other bytes in front of and behind the window. -/
structure LoopLaws {M : Type} (loop : Bytes → Nat → Nat → M → Except Err M)
    (step : Bytes → Nat → M → Except Err (Nat × M)) : Prop where
  loop_zero : ∀ (d : Bytes) (i : Nat) (m : M),
    loop d 0 i m = if i < d.length then .error .outOfFuel else finish d i m
  loop_succ : ∀ (d : Bytes) (f i : Nat) (m : M),
    loop d (f + 1) i m =
      if i < d.length then (step d i m).bind fun r => loop d f r.1 r.2 else finish d i m
  adv : ∀ (d : Bytes), d.length < 2 ^ 63 → ∀ (i : Nat) (m : M) (j : Nat) (m1 : M),
    step d i m = .ok (j, m1) → i < j ∧ j ≤ d.length
  ctx : ∀ (P X S P2 S2 : Bytes) (k : Nat) (m : M) (j : Nat) (m1 : M),
    (P ++ X ++ S).length < 2 ^ 63 → (P2 ++ X ++ S2).length < 2 ^ 63 →
    step (P ++ X ++ S) (P.length + k) m = .ok (j, m1) → j ≤ P.length + X.length →
    ∃ k1, j = P.length + k1 ∧ step (P2 ++ X ++ S2) (P2.length + k) m = .ok (P2.length + k1, m1)

/-- The wire type that a message declares for its field `fieldNum`. -/
def Params.declared (fieldNum : Int) : Option Nat := if fieldNum = 1 then some 0 else none

/-- The wire type that `Precompiles` declares for its fields. -/
def Precompiles.declared (fieldNum : Int) : Option Nat :=
  if fieldNum = 1 ∨ fieldNum = 2 then some 2 else none

/-- The wire type that `GenesisState` declares for its fields. -/
def GenesisState.declared (fieldNum : Int) : Option Nat :=
  if fieldNum = 1 ∨ fieldNum = 2 ∨ fieldNum = 3 then some 2 else none

/-- A tag word is malformed for a message: wire type 4 (end group), a field
number that is not positive, or a field of the message with a wire type other
than the declared one. -/
def malformedTag (declared : Int → Option Nat) (wire : Nat) : Bool :=
  decide (wire &&& 0x7 = 4) || decide (toInt32 (wire >>> 3) ≤ 0) ||
    (match declared (toInt32 (wire >>> 3)) with
      | some wt => decide (wire &&& 0x7 ≠ wt)
      | none => false)

/-- The error values of a malformed tag. -/
def IsTagError (e : Err) : Prop :=
  e = .wiretypeEndGroup ∨ (∃ f w, e = .illegalTag f w) ∨ ∃ w f, e = .wrongWireType w f

end Erc20Genesis

namespace Auctionsv1

/-! ## Service layer of evmos/auctions/v1 (tx_grpc.pb.go, query_grpc.pb.go) -/

abbrev Context := Nat

/-- Status codes of google.golang.org/grpc/codes that the files use. -/
inductive Code where
  | Unimplemented
  | Other (n : Nat)
deriving DecidableEq, Repr

/-- Go `error` values: a gRPC status error, or any other error. -/
inductive GoError where
  | status (code : Code) (message : String)
  | other (id : Nat)
deriving DecidableEq, Repr

/-- Function `status.Errorf(c, format)` called without arguments on a format
without verbs: a status error with code `c` and the format as message. -/
def status_Errorf (c : Code) (format : String) : GoError := .status c format

/-- Content of a message struct; the structs are generated into files that are
not part of the sources, so the fields are kept as encoded content. -/
abbrev Fields := List Nat

structure MsgBid where
  fields : Fields
deriving DecidableEq, Repr

structure MsgBidResponse where
  fields : Fields
deriving DecidableEq, Repr

structure MsgDepositCoin where
  fields : Fields
deriving DecidableEq, Repr

structure MsgDepositCoinResponse where
  fields : Fields
deriving DecidableEq, Repr

structure MsgUpdateParams where
  fields : Fields
deriving DecidableEq, Repr

structure MsgUpdateParamsResponse where
  fields : Fields
deriving DecidableEq, Repr

structure QueryCurrentAuctionInfoRequest where
  fields : Fields
deriving DecidableEq, Repr

structure QueryCurrentAuctionInfoResponse where
  fields : Fields
deriving DecidableEq, Repr

structure QueryParamsRequest where
  fields : Fields
deriving DecidableEq, Repr

structure QueryParamsResponse where
  fields : Fields
deriving DecidableEq, Repr

/-- Values of type `interface{}` that pass through the handlers: the untyped
nil, or a pointer (possibly nil) to one of the message structs. -/
inductive Any where
  | nil
  | MsgBid (p : Option MsgBid)
  | MsgBidResponse (p : Option MsgBidResponse)
  | MsgDepositCoin (p : Option MsgDepositCoin)
  | MsgDepositCoinResponse (p : Option MsgDepositCoinResponse)
  | MsgUpdateParams (p : Option MsgUpdateParams)
  | MsgUpdateParamsResponse (p : Option MsgUpdateParamsResponse)
  | QueryCurrentAuctionInfoRequest (p : Option QueryCurrentAuctionInfoRequest)
  | QueryCurrentAuctionInfoResponse (p : Option QueryCurrentAuctionInfoResponse)
  | QueryParamsRequest (p : Option QueryParamsRequest)
  | QueryParamsResponse (p : Option QueryParamsResponse)
  | other (id : Nat)
deriving DecidableEq, Repr

/-- How a call ends: it returns `(resp, err)`, or it panics (a failed type
assertion). -/
inductive Outcome where
  | ret (resp : Any) (err : Option GoError)
  | panic
deriving DecidableEq, Repr

/-- A call, as a function of the state of the process. -/
abbrev Comp (σ : Type) := σ → Outcome × σ

/-- Interface `MsgServer`. -/
structure MsgServer (σ : Type) where
  Bid : Context → Option MsgBid → σ → (Option MsgBidResponse × Option GoError) × σ
  DepositCoin : Context → Option MsgDepositCoin → σ →
    (Option MsgDepositCoinResponse × Option GoError) × σ
  UpdateParams : Context → Option MsgUpdateParams → σ →
    (Option MsgUpdateParamsResponse × Option GoError) × σ

/-- Interface `QueryServer`. -/
structure QueryServer (σ : Type) where
  AuctionInfo : Context → Option QueryCurrentAuctionInfoRequest → σ →
    (Option QueryCurrentAuctionInfoResponse × Option GoError) × σ
  Params : Context → Option QueryParamsRequest → σ →
    (Option QueryParamsResponse × Option GoError) × σ

/-- The argument `srv interface{}` of a handler. -/
inductive AnyServer (σ : Type) where
  | msg (s : MsgServer σ)
  | query (s : QueryServer σ)
  | other (id : Nat)

/-- Struct `grpc.UnaryServerInfo`. -/
structure UnaryServerInfo (σ : Type) where
  Server : AnyServer σ
  FullMethod : String

/-- Type `grpc.UnaryHandler`. -/
abbrev UnaryHandler (σ : Type) := Context → Any → Comp σ

/-- Type `grpc.UnaryServerInterceptor`. -/
abbrev UnaryServerInterceptor (σ : Type) :=
  Context → Any → UnaryServerInfo σ → UnaryHandler σ → Comp σ

def Msg_Bid_FullMethodName : String := "/evmos.auctions.v1.Msg/Bid"
def Msg_DepositCoin_FullMethodName : String := "/evmos.auctions.v1.Msg/DepositCoin"
def Msg_UpdateParams_FullMethodName : String := "/evmos.auctions.v1.Msg/UpdateParams"
def Query_AuctionInfo_FullMethodName : String := "/evmos.auctions.v1.Query/AuctionInfo"
def Query_Params_FullMethodName : String := "/evmos.auctions.v1.Query/Params"

/-! ### Unimplemented servers -/

/-- Value `UnimplementedMsgServer{}`; each method returns a nil response and a
status error. -/
def UnimplementedMsgServer (σ : Type) : MsgServer σ :=
  { Bid := fun _ _ st =>
      ((none, some (status_Errorf .Unimplemented "method Bid not implemented")), st)
    DepositCoin := fun _ _ st =>
      ((none, some (status_Errorf .Unimplemented "method DepositCoin not implemented")), st)
    UpdateParams := fun _ _ st =>
      ((none, some (status_Errorf .Unimplemented "method UpdateParams not implemented")), st) }

/-- Value `UnimplementedQueryServer{}`. -/
def UnimplementedQueryServer (σ : Type) : QueryServer σ :=
  { AuctionInfo := fun _ _ st =>
      ((none, some (status_Errorf .Unimplemented "method AuctionInfo not implemented")), st)
    Params := fun _ _ st =>
      ((none, some (status_Errorf .Unimplemented "method Params not implemented")), st) }

/-! ### Handlers -/

/-- Expression `srv.(MsgServer).Bid(ctx, x)`, returned as `(interface{}, error)`;
the type assertion panics when `srv` is not a `MsgServer`. -/
def callBid {σ : Type} (srv : AnyServer σ) (ctx : Context) (x : Option MsgBid) : Comp σ :=
  fun st =>
    match srv with
    | .msg s => let r := s.Bid ctx x st; (.ret (.MsgBidResponse r.1.1) r.1.2, r.2)
    | _ => (.panic, st)

/-- Expression `srv.(MsgServer).DepositCoin(ctx, x)`. -/
def callDepositCoin {σ : Type} (srv : AnyServer σ) (ctx : Context)
    (x : Option MsgDepositCoin) : Comp σ :=
  fun st =>
    match srv with
    | .msg s => let r := s.DepositCoin ctx x st; (.ret (.MsgDepositCoinResponse r.1.1) r.1.2, r.2)
    | _ => (.panic, st)

/-- Expression `srv.(MsgServer).UpdateParams(ctx, x)`. -/
def callUpdateParams {σ : Type} (srv : AnyServer σ) (ctx : Context)
    (x : Option MsgUpdateParams) : Comp σ :=
  fun st =>
    match srv with
    | .msg s =>
      let r := s.UpdateParams ctx x st; (.ret (.MsgUpdateParamsResponse r.1.1) r.1.2, r.2)
    | _ => (.panic, st)

/-- Expression `srv.(QueryServer).AuctionInfo(ctx, x)`. -/
def callAuctionInfo {σ : Type} (srv : AnyServer σ) (ctx : Context)
    (x : Option QueryCurrentAuctionInfoRequest) : Comp σ :=
  fun st =>
    match srv with
    | .query s =>
      let r := s.AuctionInfo ctx x st
      (.ret (.QueryCurrentAuctionInfoResponse r.1.1) r.1.2, r.2)
    | _ => (.panic, st)

/-- Expression `srv.(QueryServer).Params(ctx, x)`. -/
def callParams {σ : Type} (srv : AnyServer σ) (ctx : Context)
    (x : Option QueryParamsRequest) : Comp σ :=
  fun st =>
    match srv with
    | .query s => let r := s.Params ctx x st; (.ret (.QueryParamsResponse r.1.1) r.1.2, r.2)
    | _ => (.panic, st)

/-- Function `_Msg_Bid_Handler`. The decoder `dec` is applied to the pointer
`in := new(MsgBid)`: it returns its error and the content it left in `in`. -/
def _Msg_Bid_Handler {σ : Type} (srv : AnyServer σ) (ctx : Context)
    (dec : MsgBid → Option GoError × MsgBid)
    (interceptor : Option (UnaryServerInterceptor σ)) : Comp σ :=
  let r := dec ⟨[]⟩
  match r.1 with
  | some err => fun st => (.ret .nil (some err), st)
  | none =>
    let req := r.2
    match interceptor with
    | none => callBid srv ctx (some req)
    | some f =>
      let info : UnaryServerInfo σ := { Server := srv, FullMethod := Msg_Bid_FullMethodName }
      let handler : UnaryHandler σ := fun ctx req =>
        match req with
        | .MsgBid p => callBid srv ctx p
        | _ => fun st => (.panic, st)
      f ctx (.MsgBid (some req)) info handler

/-- Function `_Msg_DepositCoin_Handler`. -/
def _Msg_DepositCoin_Handler {σ : Type} (srv : AnyServer σ) (ctx : Context)
    (dec : MsgDepositCoin → Option GoError × MsgDepositCoin)
    (interceptor : Option (UnaryServerInterceptor σ)) : Comp σ :=
  let r := dec ⟨[]⟩
  match r.1 with
  | some err => fun st => (.ret .nil (some err), st)
  | none =>
    let req := r.2
    match interceptor with
    | none => callDepositCoin srv ctx (some req)
    | some f =>
      let info : UnaryServerInfo σ :=
        { Server := srv, FullMethod := Msg_DepositCoin_FullMethodName }
      let handler : UnaryHandler σ := fun ctx req =>
        match req with
        | .MsgDepositCoin p => callDepositCoin srv ctx p
        | _ => fun st => (.panic, st)
      f ctx (.MsgDepositCoin (some req)) info handler

/-- Function `_Msg_UpdateParams_Handler`. -/
def _Msg_UpdateParams_Handler {σ : Type} (srv : AnyServer σ) (ctx : Context)
    (dec : MsgUpdateParams → Option GoError × MsgUpdateParams)
    (interceptor : Option (UnaryServerInterceptor σ)) : Comp σ :=
  let r := dec ⟨[]⟩
  match r.1 with
  | some err => fun st => (.ret .nil (some err), st)
  | none =>
    let req := r.2
    match interceptor with
    | none => callUpdateParams srv ctx (some req)
    | some f =>
      let info : UnaryServerInfo σ :=
        { Server := srv, FullMethod := Msg_UpdateParams_FullMethodName }
      let handler : UnaryHandler σ := fun ctx req =>
        match req with
        | .MsgUpdateParams p => callUpdateParams srv ctx p
        | _ => fun st => (.panic, st)
      f ctx (.MsgUpdateParams (some req)) info handler

/-- Function `_Query_AuctionInfo_Handler`. -/
def _Query_AuctionInfo_Handler {σ : Type} (srv : AnyServer σ) (ctx : Context)
    (dec : QueryCurrentAuctionInfoRequest → Option GoError × QueryCurrentAuctionInfoRequest)
    (interceptor : Option (UnaryServerInterceptor σ)) : Comp σ :=
  let r := dec ⟨[]⟩
  match r.1 with
  | some err => fun st => (.ret .nil (some err), st)
  | none =>
    let req := r.2
    match interceptor with
    | none => callAuctionInfo srv ctx (some req)
    | some f =>
      let info : UnaryServerInfo σ :=
        { Server := srv, FullMethod := Query_AuctionInfo_FullMethodName }
      let handler : UnaryHandler σ := fun ctx req =>
        match req with
        | .QueryCurrentAuctionInfoRequest p => callAuctionInfo srv ctx p
        | _ => fun st => (.panic, st)
      f ctx (.QueryCurrentAuctionInfoRequest (some req)) info handler

/-- Function `_Query_Params_Handler`. -/
def _Query_Params_Handler {σ : Type} (srv : AnyServer σ) (ctx : Context)
    (dec : QueryParamsRequest → Option GoError × QueryParamsRequest)
    (interceptor : Option (UnaryServerInterceptor σ)) : Comp σ :=
  let r := dec ⟨[]⟩
  match r.1 with
  | some err => fun st => (.ret .nil (some err), st)
  | none =>
    let req := r.2
    match interceptor with
    | none => callParams srv ctx (some req)
    | some f =>
      let info : UnaryServerInfo σ := { Server := srv, FullMethod := Query_Params_FullMethodName }
      let handler : UnaryHandler σ := fun ctx req =>
        match req with
        | .QueryParamsRequest p => callParams srv ctx p
        | _ => fun st => (.panic, st)
      f ctx (.QueryParamsRequest (some req)) info handler

/-! ### Service descriptors -/

/-- The handler functions, as the descriptors refer to them. -/
inductive HandlerName where
  | _Msg_Bid_Handler
  | _Msg_DepositCoin_Handler
  | _Msg_UpdateParams_Handler
  | _Query_AuctionInfo_Handler
  | _Query_Params_Handler
deriving DecidableEq, Repr

/-- Struct `grpc.MethodDesc`. -/
structure MethodDesc where
  MethodName : String
  Handler : HandlerName
deriving DecidableEq, Repr

/-- Struct `grpc.StreamDesc`; the files declare none. -/
structure StreamDesc where
  StreamName : String
deriving DecidableEq, Repr

/-- Struct `grpc.ServiceDesc` (the `HandlerType` field is a nil interface
pointer and is left out). -/
structure ServiceDesc where
  ServiceName : String
  Methods : List MethodDesc
  Streams : List StreamDesc
  Metadata : String
deriving DecidableEq, Repr

/-- Variable `Msg_ServiceDesc`. -/
def Msg_ServiceDesc : ServiceDesc :=
  { ServiceName := "evmos.auctions.v1.Msg"
    Methods :=
      [ { MethodName := "Bid", Handler := ._Msg_Bid_Handler },
        { MethodName := "DepositCoin", Handler := ._Msg_DepositCoin_Handler },
        { MethodName := "UpdateParams", Handler := ._Msg_UpdateParams_Handler } ]
    Streams := []
    Metadata := "evmos/auctions/v1/tx.proto" }

/-- Variable `Query_ServiceDesc`. -/
def Query_ServiceDesc : ServiceDesc :=
  { ServiceName := "evmos.auctions.v1.Query"
    Methods :=
      [ { MethodName := "AuctionInfo", Handler := ._Query_AuctionInfo_Handler },
        { MethodName := "Params", Handler := ._Query_Params_Handler } ]
    Streams := []
    Metadata := "evmos/auctions/v1/query.proto" }

/-- The full-method-name constant that each handler puts into
`grpc.UnaryServerInfo.FullMethod`. -/
def fullMethodOf : HandlerName → String
  | ._Msg_Bid_Handler => Msg_Bid_FullMethodName
  | ._Msg_DepositCoin_Handler => Msg_DepositCoin_FullMethodName
  | ._Msg_UpdateParams_Handler => Msg_UpdateParams_FullMethodName
  | ._Query_AuctionInfo_Handler => Query_AuctionInfo_FullMethodName
  | ._Query_Params_Handler => Query_Params_FullMethodName

/-- A handler is a dispatch adapter for the method `method` of the servers
`server s`, under the name `fullMethod`. A failed decode is returned as
`(nil, err)` with the state untouched, whatever the server and the interceptor.
After a successful decode: without interceptor the handler returns the response
and the error of `method s` on the decoded request, and leaves the state that
this call leaves; with an interceptor `f` it returns what `f` returns on the
decoded request, an info record with the server and `fullMethod`, and a
continuation `k` that returns the response, error and state of `method s` on
the request it is given (and panics on a value of another type); and an
interceptor that only calls its continuation changes nothing. -/
def IsDispatchAdapter (σ : Type) {Req Resp Srv : Type}
    (handler : AnyServer σ → Context → (Req → Option GoError × Req) →
      Option (UnaryServerInterceptor σ) → Comp σ)
    (zero : Req) (wrap : Option Req → Any) (wrapResp : Option Resp → Any)
    (server : Srv → AnyServer σ)
    (method : Srv → Context → Option Req → σ → (Option Resp × Option GoError) × σ)
    (fullMethod : String) : Prop :=
  ∀ (ctx : Context) (dec : Req → Option GoError × Req),
    (∀ err, (dec zero).1 = some err →
      ∀ (srv : AnyServer σ) (ic : Option (UnaryServerInterceptor σ)) (st : σ),
        handler srv ctx dec ic st = (.ret .nil (some err), st)) ∧
    ((dec zero).1 = none →
      ∀ s : Srv,
        (∀ st, handler (server s) ctx dec none st
          = (.ret (wrapResp (method s ctx (some (dec zero).2) st).1.1)
                (method s ctx (some (dec zero).2) st).1.2,
              (method s ctx (some (dec zero).2) st).2)) ∧
        (∀ f : UnaryServerInterceptor σ, ∃ k : UnaryHandler σ,
          handler (server s) ctx dec (some f)
            = f ctx (wrap (some (dec zero).2))
                { Server := server s, FullMethod := fullMethod } k ∧
          (∀ ctx' p st, k ctx' (wrap p) st
            = (.ret (wrapResp (method s ctx' p st).1.1) (method s ctx' p st).1.2,
                (method s ctx' p st).2)) ∧
          (∀ ctx' a st, (∀ p, a ≠ wrap p) → k ctx' a st = (.panic, st))) ∧
        handler (server s) ctx dec (some (fun c r _ h => h c r))
          = handler (server s) ctx dec none)

/-- Sample `MsgServer` over a log of the calls made: every method appends its
name and the content of the request to the log, and answers with that content
behind a marker of its own. -/
def sampleMsgServer : MsgServer (List (String × Fields)) :=
  { Bid := fun _ req st =>
      match req with
      | some r => ((some ⟨1 :: r.fields⟩, none), st ++ [("Bid", r.fields)])
      | none => ((none, some (.other 1)), st ++ [("Bid", [])])
    DepositCoin := fun _ req st =>
      match req with
      | some r => ((some ⟨2 :: r.fields⟩, none), st ++ [("DepositCoin", r.fields)])
      | none => ((none, some (.other 2)), st ++ [("DepositCoin", [])])
    UpdateParams := fun _ req st =>
      match req with
      | some r => ((some ⟨3 :: r.fields⟩, none), st ++ [("UpdateParams", r.fields)])
      | none => ((none, some (.other 3)), st ++ [("UpdateParams", [])]) }

/-- Sample `QueryServer` over a log of the calls made. -/
def sampleQueryServer : QueryServer (List (String × Fields)) :=
  { AuctionInfo := fun _ req st =>
      match req with
      | some r => ((some ⟨4 :: r.fields⟩, none), st ++ [("AuctionInfo", r.fields)])
      | none => ((none, some (.other 4)), st ++ [("AuctionInfo", [])])
    Params := fun _ req st =>
      match req with
      | some r => ((some ⟨5 :: r.fields⟩, none), st ++ [("Params", r.fields)])
      | none => ((none, some (.other 5)), st ++ [("Params", [])]) }

/-- Sample interceptor: it records the full method name of the info record in
the log and then calls its continuation on the request it was given. -/
def sampleInterceptor : UnaryServerInterceptor (List (String × Fields)) :=
  fun ctx req info handler st => handler ctx req (st ++ [(info.FullMethod, [])])

end Auctionsv1

namespace V16

/-! ## Upgrade utilities (app/upgrades/v16/utils.go) -/

/-- Type `common.Address` of go-ethereum: the bytes of an Ethereum address. -/
structure Address where
  bytes : List Nat
deriving DecidableEq, Repr

/-- Type `sdk.AccAddress`: the bytes of a Cosmos address. -/
structure AccAddress where
  bytes : List Nat
deriving DecidableEq, Repr

/-- Type `sdk.Coin`. -/
structure Coin where
  Denom : String
  Amount : Int
deriving DecidableEq, Repr

/-- Type `sdk.Coins`. -/
abbrev Coins := List Coin

/-- Method `Coins.IsZero` of the Cosmos SDK: no coin has a non-zero amount. -/
def Coins.IsZero (coins : Coins) : Bool := coins.all (fun c => decide (c.Amount = 0))

/-- Amount of a denomination in a set of coins. -/
def amountOf : Coins → String → Int
  | [], _ => 0
  | c :: rest, d => (if c.Denom = d then c.Amount else 0) + amountOf rest d

/-- Go `error` values met in utils.go: the error built by `WithdrawWEVMOS`, or an
error returned by a keeper. -/
inductive GoError where
  | failedToGetBalance (account : Address)
  | keeper (id : Nat)
deriving DecidableEq, Repr

/-- Type `evmtypes.MsgEthereumTxResponse`, declared outside the sources; utils.go
reads only `VmError`. -/
structure MsgEthereumTxResponse where
  VmError : String
  rest : List Nat
deriving DecidableEq, Repr

/-- Type `evmostypes.EthAccount`, declared outside the sources; utils.go reads
only the result of its method `EthAddress`. -/
structure EthAccount where
  EthAddress : Address
deriving DecidableEq, Repr

/-- Interface `authtypes.AccountI`, by dynamic type: an `*evmostypes.EthAccount`
or an account of another type. -/
inductive AccountI where
  | EthAccount (a : EthAccount)
  | other (id : Nat)
deriving DecidableEq, Repr

/-- Type `erc20types.TokenPair`, declared outside the sources; utils.go reads
only the results of its methods `IsNativeCoin` and `GetERC20Contract`. -/
structure TokenPair where
  IsNativeCoin : Bool
  GetERC20Contract : Address
deriving DecidableEq, Repr

/-- Message built by `erc20types.NewMsgConvertERC20(amount, receiver, contract,
sender)`, with the arguments in that order. -/
structure MsgConvertERC20 where
  amount : Int
  receiver : AccAddress
  contract : Address
  sender : Address
deriving DecidableEq, Repr

/-- Calls that leave utils.go, in the order they are made. -/
inductive Event where
  | BalanceOf (contract account : Address)
  | CallEVMWithData (sender contract : Address) (data : List Nat) (commit : Bool)
  | ConvertERC20 (msg : MsgConvertERC20)
  | GetAllBalances (addr : AccAddress)
  | BurnCoins (moduleName : String) (amt : Coins)
  | Println (text : String)
  | Debug (msg : String) (account : Address)
deriving DecidableEq, Repr

/-- What utils.go takes from outside: the chain id of the context, helpers of
other packages, and the account, erc20 and bank keepers, as functions of the
chain state `σ`. `accounts` and `tokenPairs` are the sequences that
`IterateAccounts` and `IterateTokenPairs` visit. `BalanceOf` returns `none` for
a nil `*big.Int`. -/
structure Env (σ : Type) where
  ChainID : String
  IsMainnet : String → Bool
  IsTestnet : String → Bool
  HexToAddress : String → Address
  ModuleName : String
  NewModuleAddress : String → AccAddress
  accounts : σ → List AccountI
  tokenPairs : σ → List TokenPair
  BalanceOf : σ → Address → Address → Option Int
  CallEVMWithData : σ → Address → Address → List Nat → Bool →
    (Option MsgEthereumTxResponse × Option GoError) × σ
  ConvertERC20 : σ → MsgConvertERC20 → Option GoError × σ
  GetAllBalances : σ → AccAddress → Coins
  BurnCoins : σ → String → Coins → Option GoError × σ

/-- Chain state together with the calls made so far. -/
structure World (σ : Type) where
  state : σ
  trace : List Event

/-- Record one call. -/
def World.log {σ : Type} (w : World σ) (e : Event) : World σ :=
  { w with trace := w.trace ++ [e] }

def WEVMOSContractMainnet : String := "0xD4949664cD82660AaE99bEdc034a0deA8A0bd517"
def WEVMOSContractTestnet : String := "0xcc491f589b45d4a3c679016195b3fb87d7848210"

/-- Function `WithdrawWEVMOS`; `none` in the first component is a nil
`*big.Int`. -/
def WithdrawWEVMOS {σ : Type} (env : Env σ) (w : World σ) (sender wevmosContract : Address) :
    (Option Int × Option MsgEthereumTxResponse × Option GoError) × World σ :=
  let balance := env.BalanceOf w.state wevmosContract sender
  let w := w.log (.BalanceOf wevmosContract sender)
  match balance with
  | none => ((none, none, some (.failedToGetBalance sender)), w)
  | some b =>
    -- only execute the withdrawal if balance is positive
    if b ≤ 0 then ((none, none, none), w)
    else
      -- call withdraw method from the account
      let data : List Nat := []
      let r := env.CallEVMWithData w.state sender wevmosContract data true
      ((some b, r.1.1, r.1.2),
        { state := r.2, trace := w.trace ++ [.CallEVMWithData sender wevmosContract data true] })

/-- Function `ConvertERC20Token`. The result `none` is a panic: `balance.Cmp` on
the nil `*big.Int` that `BalanceOf` may return dereferences a nil pointer. -/
def ConvertERC20Token {σ : Type} (env : Env σ) (w : World σ) (sender contract : Address)
    (receiver : AccAddress) : Option (Option GoError × World σ) :=
  let balance := env.BalanceOf w.state contract sender
  let w := w.log (.BalanceOf contract sender)
  match balance with
  | none => none
  | some b =>
    if b ≤ 0 then some (none, w)
    else
      let msg : MsgConvertERC20 :=
        { amount := b, receiver := receiver, contract := contract, sender := sender }
      let r := env.ConvertERC20 w.state msg
      some (r.1, { state := r.2, trace := w.trace ++ [.ConvertERC20 msg] })

/-- The callback that `ConvertERC20Coins` passes to `IterateTokenPairs`, run over
the token pairs in order; the callback never asks to stop. -/
def convertTokenPairs {σ : Type} (env : Env σ) (ethAddress : Address)
    (cosmosAddress : AccAddress) : List TokenPair → World σ → Option (World σ)
  | [], w => some w
  | tokenPair :: rest, w =>
    if !tokenPair.IsNativeCoin then convertTokenPairs env ethAddress cosmosAddress rest w
    else
      let contract := tokenPair.GetERC20Contract
      match ConvertERC20Token env w ethAddress contract cosmosAddress with
      | none => none
      | some (err, w1) =>
        let w2 :=
          match err with
          | some _ => w1.log (.Debug "failed to convert ERC20 to native Coin" ethAddress)
          | none => w1
        convertTokenPairs env ethAddress cosmosAddress rest w2

/-- The logging that follows the call of `WithdrawWEVMOS` in the account
callback. -/
def logWithdraw {σ : Type} (w : World σ) (ethAddress : Address)
    (res : Option MsgEthereumTxResponse) (err : Option GoError) : World σ :=
  match err with
  | some _ =>
    (w.log (.Println "Error withdrawing WEVMOS")).log (.Debug "failed to withdraw WEVMOS" ethAddress)
  | none =>
    match res with
    | some r =>
      if r.VmError ≠ "" then
        (w.log (.Println "VM error while withdrawing WEVMOS")).log
          (.Debug "withdraw WEVMOS reverted" ethAddress)
      else w.log (.Println "no error occurred")
    | none => w.log (.Println "no error occurred")

/-- The callback that `ConvertERC20Coins` passes to `IterateAccounts`, run over
the accounts in order; the callback never asks to stop. -/
def convertAccounts {σ : Type} (env : Env σ) (wrappedContractAddr : Address) :
    List AccountI → World σ → Option (World σ)
  | [], w => some w
  | account :: rest, w =>
    match account with
    | .other _ => convertAccounts env wrappedContractAddr rest w
    | .EthAccount ethAccount =>
      let ethAddress := ethAccount.EthAddress
      let cosmosAddress : AccAddress := ⟨ethAddress.bytes⟩
      let r := WithdrawWEVMOS env w ethAddress wrappedContractAddr
      let w1 := logWithdraw r.2 ethAddress r.1.2.1 r.1.2.2
      match convertTokenPairs env ethAddress cosmosAddress (env.tokenPairs w1.state) w1 with
      | none => none
      | some w2 => convertAccounts env wrappedContractAddr rest w2

/-- The WEVMOS contract address that `ConvertERC20Coins` selects by chain id; the
zero address when the chain is neither mainnet nor testnet. -/
def wrappedContractAddr {σ : Type} (env : Env σ) : Address :=
  if env.IsMainnet env.ChainID then env.HexToAddress WEVMOSContractMainnet
  else if env.IsTestnet env.ChainID then env.HexToAddress WEVMOSContractTestnet
  else ⟨List.replicate 20 0⟩

/-- Function `ConvertERC20Coins`: the returned error and the world after the
call, or `none` when the call panics. -/
def ConvertERC20Coins {σ : Type} (env : Env σ) (w : World σ) :
    Option (Option GoError × World σ) :=
  -- iterate over all the accounts and convert the tokens to native coins
  match convertAccounts env (wrappedContractAddr env) (env.accounts w.state) w with
  | none => none
  | some w1 =>
    let erc20ModuleAccountAddress := env.NewModuleAddress env.ModuleName
    let balances := env.GetAllBalances w1.state erc20ModuleAccountAddress
    let w2 := w1.log (.GetAllBalances erc20ModuleAccountAddress)
    if balances.IsZero then some (none, w2)
    else
      -- burn all the coins left in the module account
      let r := env.BurnCoins w2.state env.ModuleName balances
      some (r.1, { state := r.2, trace := w2.trace ++ [.BurnCoins env.ModuleName balances] })

/-- Assumption on the bank keeper of the Cosmos SDK: a `BurnCoins` that returns
nil has removed exactly the burned coins from the module account. -/
def BurnLaw {σ : Type} (env : Env σ) : Prop :=
  ∀ (s s' : σ) (amt : Coins), env.BurnCoins s env.ModuleName amt = (none, s') →
    ∀ d, amountOf (env.GetAllBalances s' (env.NewModuleAddress env.ModuleName)) d
      = amountOf (env.GetAllBalances s (env.NewModuleAddress env.ModuleName)) d - amountOf amt d

/-- Call data of `withdraw(uint256)` for an amount below 2^256, by the contract
ABI: the selector 0x2e1a7d4d followed by the amount as 32 big-endian bytes. -/
def withdrawCallData (amount : Nat) : List Nat :=
  [0x2e, 0x1a, 0x7d, 0x4d] ++ (List.range 32).map (fun i => amount / 256 ^ (31 - i) % 256)

/-- Sample chain state: the balance of WEVMOS of every account, and the coins of
the erc20 module account. -/
structure SampleState where
  wevmos : Int
  moduleCoins : Coins
deriving DecidableEq, Repr

/-- Sample environment: one Ethereum account and one account of another type, no
token pairs; an EVM call succeeds and leaves the state as it is; burning the
exact holdings of the module account succeeds and empties it. -/
def sampleEnv : Env SampleState :=
  { ChainID := "evmos_9001-2"
    IsMainnet := fun c => c.startsWith "evmos_9001"
    IsTestnet := fun c => c.startsWith "evmos_9000"
    HexToAddress := fun s => ⟨s.toList.map Char.toNat⟩
    ModuleName := "erc20"
    NewModuleAddress := fun s => ⟨s.toList.map Char.toNat⟩
    accounts := fun _ => [.EthAccount ⟨⟨[1, 2, 3]⟩⟩, .other 7]
    tokenPairs := fun _ => []
    BalanceOf := fun s _ _ => some s.wevmos
    CallEVMWithData := fun s _ _ _ _ => ((some ⟨"", []⟩, none), s)
    ConvertERC20 := fun s _ => (none, s)
    GetAllBalances := fun s _ => s.moduleCoins
    BurnCoins := fun s _ amt =>
      if amt = s.moduleCoins then (none, { s with moduleCoins := [] }) else (some (.keeper 1), s) }

/-- Sample world: every account holds 5 WEVMOS and the module account 9 of one
denomination. -/
def sampleWorld : World SampleState :=
  { state := { wevmos := 5, moduleCoins := [⟨"aevmos", 9⟩] }, trace := [] }

/-! ### Reference for the conversions -/

end V16

/-! # Theorems: the auction engine -/

namespace Auctions

theorem setBal_apply (bal : Holder → Denom → Nat) (h : Holder) (d : Denom) (v : Nat)
    (h' : Holder) (d' : Denom) :
    setBal bal h d v h' d' = if h' = h ∧ d' = d then v else bal h' d' := rfl

theorem moveBal_apply (bal : Holder → Denom → Nat) (src dst : Holder) (d : Denom) (amt : Nat)
    (h : Holder) (x : Denom) :
    moveBal bal src dst d amt h x =
      if h = dst ∧ x = d then (if dst = src then bal src d - amt else bal dst d) + amt
      else if h = src ∧ x = d then bal src d - amt
      else bal h x := by
  simp only [moveBal, setBal_apply]
  by_cases h1 : h = dst <;> by_cases h2 : x = d <;> by_cases h3 : dst = src <;>
    simp [h1, h2, h3]

theorem Transfer_inv (l l' : Ledger) (src dst : Holder) (d : Denom) (amt : Nat)
    (h : l.Transfer src dst d amt = .ok l') :
    amt ≤ l.balance src d ∧ l'.disposed = l.disposed ∧
    l'.balance = moveBal l.balance src dst d amt := by
  unfold Ledger.Transfer at h
  by_cases hlt : l.balance src d < amt
  · rw [if_pos hlt] at h
    cases h
  · rw [if_neg hlt] at h
    cases h
    exact ⟨by omega, rfl, rfl⟩

theorem Transfer_ok_of_le (l : Ledger) (src dst : Holder) (d : Denom) (amt : Nat)
    (hle : amt ≤ l.balance src d) :
    l.Transfer src dst d amt = .ok { l with balance := moveBal l.balance src dst d amt } := by
  unfold Ledger.Transfer
  rw [if_neg (by omega)]

/-- Effect of a successful multi-asset transfer between two distinct holders. -/
theorem TransferCoins_inv (src dst : Holder) (hne : src ≠ dst) (coins : List (Denom × Nat)) :
    ∀ (l l' : Ledger), Ledger.TransferCoins src dst coins l = .ok l' →
      l'.disposed = l.disposed ∧
      (∀ x, l'.balance src x + amountOf coins x = l.balance src x) ∧
      (∀ x, l'.balance dst x = l.balance dst x + amountOf coins x) ∧
      (∀ h x, h ≠ src → h ≠ dst → l'.balance h x = l.balance h x) := by
  induction coins with
  | nil =>
    intro l l' h
    simp only [Ledger.TransferCoins] at h
    cases h
    simp [amountOf]
  | cons c rest ih =>
    intro l l' h
    obtain ⟨d, a⟩ := c
    simp only [Ledger.TransferCoins] at h
    cases h1 : l.Transfer src dst d a with
    | error e => rw [h1] at h; cases h
    | ok l1 =>
      rw [h1] at h
      obtain ⟨hle, hd, hb⟩ := Transfer_inv l l1 src dst d a h1
      obtain ⟨ihd, ihs, iht, iho⟩ := ih l1 l' h
      have hne' : dst ≠ src := fun e => hne e.symm
      refine ⟨by rw [ihd, hd], ?_, ?_, ?_⟩
      · intro x
        have := ihs x
        rw [hb, moveBal_apply] at this
        simp only [amountOf]
        by_cases hx : d = x
        · subst hx
          simp [hne, hne'] at this ⊢
          omega
        · have hx' : ¬ x = d := fun e => hx e.symm
          simp [hx, hx'] at this ⊢
          omega
      · intro x
        have := iht x
        rw [hb, moveBal_apply] at this
        simp only [amountOf]
        by_cases hx : d = x
        · subst hx
          simp [hne, hne'] at this ⊢
          omega
        · have hx' : ¬ x = d := fun e => hx e.symm
          simp [hx, hx'] at this ⊢
          omega
      · intro h x h1' h2'
        rw [iho h x h1' h2', hb, moveBal_apply]
        simp [h1', h2']

/-- A multi-asset transfer between distinct holders succeeds when the source
covers the total of every denomination. -/
theorem TransferCoins_ok (src dst : Holder) (hne : src ≠ dst) (coins : List (Denom × Nat)) :
    ∀ (l : Ledger), (∀ x, amountOf coins x ≤ l.balance src x) →
      ∃ l', Ledger.TransferCoins src dst coins l = .ok l' := by
  induction coins with
  | nil => intro l _; exact ⟨l, rfl⟩
  | cons c rest ih =>
    intro l hcov
    obtain ⟨d, a⟩ := c
    have hle : a ≤ l.balance src d := by
      have := hcov d
      simp only [amountOf, if_true] at this
      omega
    simp only [Ledger.TransferCoins, Transfer_ok_of_le l src dst d a hle]
    apply ih
    intro x
    have := hcov x
    simp only [amountOf] at this
    have hne' : dst ≠ src := fun e => hne e.symm
    simp only [moveBal_apply]
    by_cases hx : d = x
    · subst hx
      simp [hne, hne'] at this ⊢
      omega
    · have hx' : ¬ x = d := fun e => hx e.symm
      simp [hx, hx'] at this ⊢
      omega


theorem Dispose_inv (l l' : Ledger) (src : Holder) (d : Denom) (amt : Nat)
    (h : l.Dispose src d amt = .ok l') :
    amt ≤ l.balance src d ∧
    l'.balance = setBal l.balance src d (l.balance src d - amt) ∧
    l'.disposed = fun x => if x = d then l.disposed x + amt else l.disposed x := by
  unfold Ledger.Dispose at h
  by_cases hlt : l.balance src d < amt
  · rw [if_pos hlt] at h
    cases h
  · rw [if_neg hlt] at h
    cases h
    exact ⟨by omega, rfl, rfl⟩

theorem Dispose_ok_of_le (l : Ledger) (src : Holder) (d : Denom) (amt : Nat)
    (hle : amt ≤ l.balance src d) :
    l.Dispose src d amt =
      .ok { balance := setBal l.balance src d (l.balance src d - amt)
            disposed := fun x => if x = d then l.disposed x + amt else l.disposed x } := by
  unfold Ledger.Dispose
  rw [if_neg (by omega)]

theorem amountOf_append (p q : List (Denom × Nat)) (d : Denom) :
    amountOf (p ++ q) d = amountOf p d + amountOf q d := by
  induction p with
  | nil => simp [amountOf]
  | cons c rest ih =>
    obtain ⟨d', a⟩ := c
    have e : amountOf ((d', a) :: rest ++ q) d =
        (if d' = d then a else 0) + amountOf (rest ++ q) d := rfl
    rw [e, ih]
    simp only [amountOf]
    omega

theorem amountOf_toEntries (coins : Coins)
    (hpos : coins.all (fun c => decide (0 < c.amount)) = true) (d : Denom) :
    (amountOf (toEntries coins) d : Int) = coinsAmount coins d := by
  induction coins with
  | nil => simp [toEntries, amountOf, coinsAmount]
  | cons c rest ih =>
    simp only [List.all_cons, Bool.and_eq_true, decide_eq_true_eq] at hpos
    have ih' := ih hpos.2
    simp only [toEntries, List.map_cons, amountOf, coinsAmount] at ih' ⊢
    by_cases hd : c.denom = d
    · simp only [hd, if_true]
      push_cast
      rw [ih', Int.toNat_of_nonneg (by omega)]
    · simp only [hd, if_false]
      push_cast
      rw [ih']

/-- Shape of an accepted bid when a previous highest bid exists. -/
theorem PlaceBid_some_inv (s s' : AuctionState) (bidder : Account) (amount : Coin) (hb : Bid)
    (hprev : s.round.highestBid = some hb) (h : PlaceBid s bidder amount = .ok s') :
    s.params.enabled = true ∧ amount.denom = s.bidDenom ∧ (hb.amount : Int) < amount.amount ∧
    ∃ l1 l2, s.ledger.Transfer (.user bidder) .escrow s.bidDenom amount.amount.toNat = .ok l1 ∧
      l1.Transfer .escrow (.user hb.bidder) s.bidDenom hb.amount = .ok l2 ∧
      s' = { s with ledger := l2
                    round := { s.round with highestBid := some ⟨amount.amount.toNat, bidder⟩ } } := by
  unfold PlaceBid at h
  split at h
  · cases h
  · split at h
    · cases h
    · rename_i hen hval
      rw [hprev] at h
      simp only at h
      split at h
      · cases h
      · rename_i hgt
        cases h1 : s.ledger.Transfer (.user bidder) .escrow s.bidDenom amount.amount.toNat with
        | error e => rw [h1] at h; cases h
        | ok l1 =>
          rw [h1] at h
          simp only at h
          cases h2 : l1.Transfer .escrow (.user hb.bidder) s.bidDenom hb.amount with
          | error e => rw [h2] at h; cases h
          | ok l2 =>
            rw [h2] at h
            simp only [Except.ok.injEq] at h
            refine ⟨by simpa using hen, ?_, by omega, l1, l2, rfl, h2, h.symm⟩
            by_contra hne
            exact hval (Or.inl hne)

/-- Shape of an accepted bid when no highest bid exists. -/
theorem PlaceBid_none_inv (s s' : AuctionState) (bidder : Account) (amount : Coin)
    (hprev : s.round.highestBid = none) (h : PlaceBid s bidder amount = .ok s') :
    s.params.enabled = true ∧ amount.denom = s.bidDenom ∧ 0 < amount.amount ∧
    ∃ l1, s.ledger.Transfer (.user bidder) .escrow s.bidDenom amount.amount.toNat = .ok l1 ∧
      s' = { s with ledger := l1
                    round := { s.round with highestBid := some ⟨amount.amount.toNat, bidder⟩ } } := by
  unfold PlaceBid at h
  split at h
  · cases h
  · split at h
    · cases h
    · rename_i hen hval
      rw [hprev] at h
      simp only at h
      cases h1 : s.ledger.Transfer (.user bidder) .escrow s.bidDenom amount.amount.toNat with
      | error e => rw [h1] at h; cases h
      | ok l1 =>
        rw [h1] at h
        simp only [Except.ok.injEq] at h
        refine ⟨by simpa using hen, ?_, ?_, l1, rfl, h.symm⟩
        · by_contra hne
          exact hval (Or.inl hne)
        · by_contra hne
          exact hval (Or.inr (by omega))

/-- Shape of an accepted deposit. -/
theorem DepositCoin_inv (s s' : AuctionState) (depositor : Account) (coins : Coins)
    (h : DepositCoin s depositor coins = .ok s') :
    s.params.enabled = true ∧ validCoins coins = true ∧
    ∃ l1, Ledger.TransferCoins (.user depositor) .escrow (toEntries coins) s.ledger = .ok l1 ∧
      s' = { s with ledger := l1
                    round := { s.round with pot := s.round.pot ++ toEntries coins } } := by
  unfold DepositCoin at h
  split at h
  · cases h
  · split at h
    · cases h
    · rename_i hen hval
      cases h1 : Ledger.TransferCoins (.user depositor) .escrow (toEntries coins) s.ledger with
      | error e => rw [h1] at h; cases h
      | ok l1 =>
        rw [h1] at h
        simp only [Except.ok.injEq] at h
        exact ⟨by simpa using hen, by simpa using hval, l1, rfl, h.symm⟩

theorem highestBidAmount_some (s : AuctionState) (hb : Bid) (d : Denom)
    (h : s.round.highestBid = some hb) :
    highestBidAmount s d = if d = s.bidDenom then hb.amount else 0 := by
  simp [highestBidAmount, h]

theorem highestBidAmount_none (s : AuctionState) (d : Denom)
    (h : s.round.highestBid = none) : highestBidAmount s d = 0 := by
  simp [highestBidAmount, h]

theorem escrowBacked_genesis (params : Params) (authority : Account) (bidDenom : Denom)
    (height : Nat) (userBalance : Account → Denom → Nat) :
    EscrowBacked (genesis params authority bidDenom height userBalance) := by
  intro d
  simp [genesis, amountOf, highestBidAmount]

theorem escrowBacked_PlaceBid (s s' : AuctionState) (bidder : Account) (amount : Coin)
    (hinv : EscrowBacked s) (h : PlaceBid s bidder amount = .ok s') : EscrowBacked s' := by
  intro d
  have hi := hinv d
  cases hprev : s.round.highestBid with
  | none =>
    obtain ⟨_, _, hpos, l1, h1, rfl⟩ := PlaceBid_none_inv s s' bidder amount hprev h
    obtain ⟨_, _, hb1⟩ := Transfer_inv _ _ _ _ _ _ h1
    rw [highestBidAmount_none s d hprev] at hi
    simp only [highestBidAmount, hb1, moveBal_apply]
    by_cases hd : d = s.bidDenom
    · subst hd
      simp at hi ⊢
      omega
    · simp [hd] at hi ⊢
      omega
  | some hb =>
    obtain ⟨_, _, hgt, l1, l2, h1, h2, rfl⟩ := PlaceBid_some_inv s s' bidder amount hb hprev h
    obtain ⟨_, _, hb1⟩ := Transfer_inv _ _ _ _ _ _ h1
    obtain ⟨hle2, _, hb2⟩ := Transfer_inv _ _ _ _ _ _ h2
    rw [highestBidAmount_some s hb d hprev] at hi
    rw [hb1, moveBal_apply] at hle2
    simp only [highestBidAmount, hb2, hb1, moveBal_apply]
    by_cases hd : d = s.bidDenom
    · subst hd
      simp at hi hle2 ⊢
      omega
    · simp [hd] at hi ⊢
      omega

theorem escrowBacked_DepositCoin (s s' : AuctionState) (depositor : Account) (coins : Coins)
    (hinv : EscrowBacked s) (h : DepositCoin s depositor coins = .ok s') : EscrowBacked s' := by
  intro d
  have hi := hinv d
  obtain ⟨_, _, l1, h1, rfl⟩ := DepositCoin_inv s s' depositor coins h
  obtain ⟨_, _, hdst, _⟩ := TransferCoins_inv (.user depositor) .escrow (by simp) _ _ _ h1
  have e : highestBidAmount { s with ledger := l1, round := { s.round with
      pot := s.round.pot ++ toEntries coins } } d = highestBidAmount s d := rfl
  rw [e]
  simp only [hdst d, amountOf_append]
  omega

theorem escrowBacked_UpdateParams (s s' : AuctionState) (caller : Account) (p : Params)
    (hinv : EscrowBacked s) (h : UpdateParams s caller p = .ok s') : EscrowBacked s' := by
  unfold UpdateParams at h
  split at h
  · cases h
  · cases h
    exact hinv

/-- Settlement of a backed state with a highest bid succeeds. -/
theorem EndBlock_some_ok (s : AuctionState) (height : Nat) (hb : Bid) (hinv : EscrowBacked s)
    (hen : s.params.enabled = true) (hh : s.round.endHeight ≤ height)
    (hbid : s.round.highestBid = some hb) :
    ∃ l1 l2, Ledger.TransferCoins .escrow (.user hb.bidder) s.round.pot s.ledger = .ok l1 ∧
      l1.Dispose .escrow s.bidDenom hb.amount = .ok l2 ∧
      EndBlock s height = .ok { s with
        ledger := l2
        round := { number := s.round.number + 1
                   endHeight := height + s.params.roundDuration
                   pot := []
                   highestBid := none } } := by
  have hcov : ∀ x, amountOf s.round.pot x ≤ s.ledger.balance .escrow x := by
    intro x
    have := hinv x
    omega
  obtain ⟨l1, h1⟩ := TransferCoins_ok .escrow (.user hb.bidder) (by simp) s.round.pot s.ledger hcov
  obtain ⟨_, hsrc, _, _⟩ := TransferCoins_inv .escrow (.user hb.bidder) (by simp) _ _ _ h1
  have hle : hb.amount ≤ l1.balance .escrow s.bidDenom := by
    have h1' := hsrc s.bidDenom
    have h2' := hinv s.bidDenom
    rw [highestBidAmount_some s hb _ hbid] at h2'
    simp at h2'
    omega
  refine ⟨l1, _, h1, Dispose_ok_of_le l1 .escrow s.bidDenom hb.amount hle, ?_⟩
  unfold EndBlock
  rw [if_neg (by simp [hen]; omega), hbid]
  simp only [h1, Dispose_ok_of_le l1 .escrow s.bidDenom hb.amount hle]

theorem EndBlock_none_eq (s : AuctionState) (height : Nat)
    (hen : s.params.enabled = true) (hh : s.round.endHeight ≤ height)
    (hbid : s.round.highestBid = none) :
    EndBlock s height = .ok { s with
        round := { number := s.round.number + 1
                   endHeight := height + s.params.roundDuration
                   pot := s.round.pot
                   highestBid := none } } := by
  unfold EndBlock
  rw [if_neg (by simp [hen]; omega), hbid]

theorem EndBlock_noop (s : AuctionState) (height : Nat)
    (h : s.params.enabled = false ∨ height < s.round.endHeight) :
    EndBlock s height = .ok s := by
  unfold EndBlock
  rw [if_pos h]

theorem escrowBacked_EndBlock (s s' : AuctionState) (height : Nat)
    (hinv : EscrowBacked s) (h : EndBlock s height = .ok s') : EscrowBacked s' := by
  by_cases hno : s.params.enabled = false ∨ height < s.round.endHeight
  · rw [EndBlock_noop s height hno] at h
    cases h
    exact hinv
  · have hen : s.params.enabled = true := by
      cases he : s.params.enabled with
      | true => rfl
      | false => exact absurd (Or.inl he) hno
    have hh : s.round.endHeight ≤ height := by
      by_contra hc
      exact hno (Or.inr (by omega))
    cases hbid : s.round.highestBid with
    | none =>
      rw [EndBlock_none_eq s height hen hh hbid] at h
      cases h
      intro d
      have := hinv d
      rw [highestBidAmount_none s d hbid] at this
      simpa [highestBidAmount] using this
    | some hb =>
      obtain ⟨l1, l2, h1, h2, h3⟩ := EndBlock_some_ok s height hb hinv hen hh hbid
      rw [h3] at h
      cases h
      obtain ⟨_, hsrc, _, _⟩ := TransferCoins_inv .escrow (.user hb.bidder) (by simp) _ _ _ h1
      obtain ⟨_, hb2, _⟩ := Dispose_inv _ _ _ _ _ h2
      intro d
      have h1' := hsrc d
      have h2' := hinv d
      rw [highestBidAmount_some s hb _ hbid] at h2'
      simp only [highestBidAmount, amountOf, hb2, setBal_apply]
      by_cases hd : d = s.bidDenom
      · subst hd
        simp at h2' ⊢
        omega
      · simp [hd] at h2' ⊢
        omega

theorem escrowBacked_step (s : AuctionState) (m : Msg) (hinv : EscrowBacked s) :
    EscrowBacked (step s m) := by
  unfold step
  cases hr : run s m with
  | error e => exact hinv
  | ok s' =>
    cases m with
    | bid b a => exact escrowBacked_PlaceBid s s' b a hinv hr
    | deposit dp c => exact escrowBacked_DepositCoin s s' dp c hinv hr
    | updateParams c p => exact escrowBacked_UpdateParams s s' c p hinv hr
    | endBlock ht => exact escrowBacked_EndBlock s s' ht hinv hr

theorem escrowBacked_of_reachable (s : AuctionState) (h : Reachable s) : EscrowBacked s := by
  induction h with
  | init params authority bidDenom height userBalance =>
    exact escrowBacked_genesis params authority bidDenom height userBalance
  | next s m _ ih => exact escrowBacked_step s m ih

theorem step_of_error (s : AuctionState) (m : Msg) (e : AuctionError)
    (h : run s m = .error e) : step s m = s := by
  simp [step, h]

theorem step_of_ok (s s' : AuctionState) (m : Msg)
    (h : run s m = .ok s') : step s m = s' := by
  simp [step, h]

/-- An enabled engine accepts a well-denominated, strictly raising, funded bid. -/
theorem PlaceBid_ok_of_valid (s : AuctionState) (bidder : Account) (amount : Coin)
    (hen : s.params.enabled = true)
    (hfunds : amount.amount ≤ (s.ledger.balance (.user bidder) s.bidDenom : Int))
    (hden : amount.denom = s.bidDenom) (hraise : raises s amount.amount) :
    ∃ s', PlaceBid s bidder amount = .ok s' := by
  unfold raises at hraise
  unfold PlaceBid
  rw [if_neg (by simp [hen])]
  cases hprev : s.round.highestBid with
  | none =>
    rw [hprev] at hraise
    simp only at hraise
    rw [if_neg (by simp [hden]; omega)]
    simp only
    rw [Transfer_ok_of_le _ _ _ _ _ (by omega)]
    exact ⟨_, rfl⟩
  | some hb =>
    rw [hprev] at hraise
    simp only at hraise
    rw [if_neg (by simp [hden]; omega)]
    simp only
    rw [if_neg (by omega), Transfer_ok_of_le _ _ _ _ _ (by omega)]
    simp only
    rw [Transfer_ok_of_le _ _ _ _ _ (by simp [moveBal_apply]; omega)]
    exact ⟨_, rfl⟩

theorem reachable_sampleAfterBid : Reachable sampleAfterBid :=
  Reachable.next _ _ (Reachable.next _ _ (Reachable.init _ _ _ _ _))

/-- C2: in every state reachable from module activation through bids, deposits,
settlements (and parameter updates), accepted or rejected, the amount the
escrow account holds beyond the pot equals the current highest bid amount in
the bid asset when a highest bid exists, and zero otherwise. -/
theorem lockedForBids_eq_highestBid (s : AuctionState) (h : Reachable s) (d : Denom) :
    lockedForBids s d = (highestBidAmount s d : Int) := by
  have := escrowBacked_of_reachable s h d
  unfold lockedForBids
  omega

/-- Witness for C2: after a bid of 50 and a deposit, 50 of the bid asset is locked. -/
theorem lockedForBids_eq_highestBid_witness :
    Reachable sampleAfterBid ∧
    lockedForBids sampleAfterBid 0 = (highestBidAmount sampleAfterBid 0 : Int) ∧
    highestBidAmount sampleAfterBid 0 = 50 :=
  ⟨reachable_sampleAfterBid,
    lockedForBids_eq_highestBid sampleAfterBid reachable_sampleAfterBid 0, by decide⟩

/-- C3: an accepted bid placed while a previous highest bid exists credits the
previous highest bidder with exactly the amount they had locked, debits the new
bidder by the new amount, which becomes the recorded highest bid, and changes
the escrow balance of the bid asset by the new amount minus the refunded one;
no other denomination and no other account moves, and the pot is untouched. -/
theorem PlaceBid_refunds_previous (s s' : AuctionState) (bidder : Account) (amount : Coin)
    (hb : Bid) (hprev : s.round.highestBid = some hb)
    (h : PlaceBid s bidder amount = .ok s') :
    s'.round.highestBid = some ⟨amount.amount.toNat, bidder⟩ ∧
    (amount.amount.toNat : Int) = amount.amount ∧
    (∀ a, (s'.ledger.balance (.user a) s.bidDenom : Int) =
      s.ledger.balance (.user a) s.bidDenom - (if a = bidder then amount.amount else 0)
        + (if a = hb.bidder then (hb.amount : Int) else 0)) ∧
    (s'.ledger.balance .escrow s.bidDenom : Int) =
      s.ledger.balance .escrow s.bidDenom + amount.amount - hb.amount ∧
    (∀ x d, d ≠ s.bidDenom → s'.ledger.balance x d = s.ledger.balance x d) ∧
    s'.round.pot = s.round.pot := by
  obtain ⟨_, _, hgt, l1, l2, h1, h2, rfl⟩ := PlaceBid_some_inv s s' bidder amount hb hprev h
  obtain ⟨hamt, hbdr⟩ := hb
  simp only at hgt h2
  obtain ⟨hle1, _, hb1⟩ := Transfer_inv _ _ _ _ _ _ h1
  obtain ⟨hle2, _, hb2⟩ := Transfer_inv _ _ _ _ _ _ h2
  have hnat : (amount.amount.toNat : Int) = amount.amount := Int.toNat_of_nonneg (by omega)
  rw [hb1, moveBal_apply] at hle2
  simp only [if_true, and_self, reduceCtorEq, if_false] at hle2
  refine ⟨rfl, hnat, ?_, ?_, ?_, rfl⟩
  · intro a
    simp only [hb2, hb1, moveBal_apply]
    by_cases ha : a = bidder
    · subst ha
      by_cases ha' : a = hbdr
      · subst ha'
        simp
        omega
      · simp [ha', Ne.symm ha']
        omega
    · by_cases ha' : a = hbdr
      · subst ha'
        simp [ha, Ne.symm ha]
      · simp [ha, ha']
  · simp only [hb2, hb1, moveBal_apply]
    simp
    omega
  · intro x d hd
    simp only [hb2, hb1, moveBal_apply]
    simp [hd]

/-- Witness for C3: account 2 outbids account 1 (50) with 60; account 1 gets 50 back. -/
theorem PlaceBid_refunds_previous_witness :
    sampleAfterBid.round.highestBid = some ⟨50, 1⟩ ∧
    PlaceBid sampleAfterBid 2 ⟨0, 60⟩ = .ok (step sampleAfterBid (.bid 2 ⟨0, 60⟩)) ∧
    ((step sampleAfterBid (.bid 2 ⟨0, 60⟩)).ledger.balance (.user 1) 0 : Int) =
      sampleAfterBid.ledger.balance (.user 1) 0 - 0 + 50 := by
  have hok : PlaceBid sampleAfterBid 2 ⟨0, 60⟩ = .ok (step sampleAfterBid (.bid 2 ⟨0, 60⟩)) := by
    obtain ⟨s', hs'⟩ := PlaceBid_ok_of_valid sampleAfterBid 2 ⟨0, 60⟩ (by decide) (by decide)
      (by decide) (by simp [raises, show sampleAfterBid.round.highestBid = some ⟨50, 1⟩ by decide])
    rw [step_of_ok sampleAfterBid s' (.bid 2 ⟨0, 60⟩) hs']
    exact hs'
  refine ⟨by decide, hok, ?_⟩
  have := (PlaceBid_refunds_previous sampleAfterBid _ 2 ⟨0, 60⟩ ⟨50, 1⟩ (by decide) hok).2.2.1 1
  simpa using this

/-- C4: a successful `DepositCoin` of coins `c` adds exactly `c` to the pot, in
every denomination, and leaves the highest bid (amount and bidder) unchanged. -/
theorem DepositCoin_adds_to_pot (s s' : AuctionState) (depositor : Account) (coins : Coins)
    (h : DepositCoin s depositor coins = .ok s') :
    (∀ d, (amountOf s'.round.pot d : Int) = amountOf s.round.pot d + coinsAmount coins d) ∧
    s'.round.highestBid = s.round.highestBid := by
  obtain ⟨_, hval, l1, h1, rfl⟩ := DepositCoin_inv s s' depositor coins h
  refine ⟨?_, rfl⟩
  intro d
  simp only [validCoins, Bool.and_eq_true] at hval
  simp only [amountOf_append]
  push_cast
  rw [amountOf_toEntries coins hval.2 d]

/-- Witness for C4: account 3 deposits 700 of denomination 1 after a bid of 50. -/
theorem DepositCoin_adds_to_pot_witness :
    DepositCoin (step sampleGenesis (.bid 1 ⟨0, 50⟩)) 3 [⟨1, 700⟩] = .ok sampleAfterBid ∧
    (amountOf sampleAfterBid.round.pot 1 : Int) =
      amountOf (step sampleGenesis (.bid 1 ⟨0, 50⟩)).round.pot 1 + coinsAmount [⟨1, 700⟩] 1 ∧
    sampleAfterBid.round.highestBid = some ⟨50, 1⟩ := by
  have hok : DepositCoin (step sampleGenesis (.bid 1 ⟨0, 50⟩)) 3 [⟨1, 700⟩] =
      .ok sampleAfterBid := by
    cases hd : DepositCoin (step sampleGenesis (.bid 1 ⟨0, 50⟩)) 3 [⟨1, 700⟩] with
    | ok s' =>
      have : sampleAfterBid = s' := step_of_ok _ s' (.deposit 3 [⟨1, 700⟩]) hd
      rw [this]
    | error e =>
      exfalso
      have h1 : sampleAfterBid = step sampleGenesis (.bid 1 ⟨0, 50⟩) :=
        step_of_error _ (.deposit 3 [⟨1, 700⟩]) e hd
      have h2 : sampleAfterBid.round.pot = [(1, 700)] := by decide
      rw [h1] at h2
      revert h2
      decide
  exact ⟨hok, (DepositCoin_adds_to_pot _ _ 3 [⟨1, 700⟩] hok).1 1, by decide⟩

/-- C5: settlement of a round that has a highest bid (reachable state, auctions
enabled, end height reached) succeeds; the whole pre-settlement pot is credited
to the highest bidder, no other account receives anything, the bid amount
leaves escrow into the disposed supply, the escrow account is left empty, and
the new round starts with an empty pot and no highest bid. -/
theorem EndBlock_settles_with_bid (s : AuctionState) (hr : Reachable s) (height : Nat)
    (hb : Bid) (hen : s.params.enabled = true) (hh : s.round.endHeight ≤ height)
    (hbid : s.round.highestBid = some hb) :
    ∃ s', EndBlock s height = .ok s' ∧
      (∀ d, s'.ledger.balance (.user hb.bidder) d =
        s.ledger.balance (.user hb.bidder) d + amountOf s.round.pot d) ∧
      (∀ a d, a ≠ hb.bidder → s'.ledger.balance (.user a) d = s.ledger.balance (.user a) d) ∧
      (∀ d, s'.ledger.disposed d =
        s.ledger.disposed d + (if d = s.bidDenom then hb.amount else 0)) ∧
      (∀ d, s'.ledger.balance .escrow d = 0) ∧
      s'.round.pot = [] ∧ s'.round.highestBid = none ∧
      s'.round.number = s.round.number + 1 ∧
      s'.round.endHeight = height + s.params.roundDuration := by
  have hinv := escrowBacked_of_reachable s hr
  obtain ⟨l1, l2, h1, h2, h3⟩ := EndBlock_some_ok s height hb hinv hen hh hbid
  obtain ⟨hd1, hsrc, hdst, hoth⟩ :=
    TransferCoins_inv .escrow (.user hb.bidder) (by simp) _ _ _ h1
  obtain ⟨_, hb2, hd2⟩ := Dispose_inv _ _ _ _ _ h2
  refine ⟨_, h3, ?_, ?_, ?_, ?_, rfl, rfl, rfl, rfl⟩
  · intro d
    simp only [hb2, setBal_apply]
    simp [hdst d]
  · intro a d ha
    simp only [hb2, setBal_apply]
    simp [hoth (.user a) d (by simp) (by simpa using ha)]
  · intro d
    simp only [hd2, hd1]
    by_cases hd : d = s.bidDenom <;> simp [hd]
  · intro d
    have e1 := hsrc d
    have e2 := hinv d
    rw [highestBidAmount_some s hb d hbid] at e2
    simp only [hb2, setBal_apply]
    by_cases hd : d = s.bidDenom
    · subst hd
      simp at e2 ⊢
      omega
    · simp [hd] at e2 ⊢
      omega

/-- Witness for C5: the sample round (bid 50 by account 1, pot 700 of
denomination 1) settles at its end height 1100. -/
theorem EndBlock_settles_with_bid_witness :
    Reachable sampleAfterBid ∧ sampleAfterBid.params.enabled = true ∧
    sampleAfterBid.round.endHeight ≤ 1100 ∧
    sampleAfterBid.round.highestBid = some ⟨50, 1⟩ ∧
    ∃ s', EndBlock sampleAfterBid 1100 = .ok s' ∧
      s'.ledger.balance (.user 1) 1 = sampleAfterBid.ledger.balance (.user 1) 1 + 700 ∧
      s'.round.pot = [] ∧ s'.round.highestBid = none := by
  obtain ⟨s', h, hpot, _, _, _, hp, hn, _⟩ :=
    EndBlock_settles_with_bid sampleAfterBid reachable_sampleAfterBid 1100 ⟨50, 1⟩
      (by decide) (by decide) (by decide)
  exact ⟨reachable_sampleAfterBid, by decide, by decide, by decide, s', h, hpot 1, hp, hn⟩

/-- C6: settlement of a round that has no highest bid (auctions enabled, end
height reached) distributes nothing, the ledger is unchanged, and the pot of the
new round is exactly the pot of the old one; the new round has no highest bid. -/
theorem EndBlock_rolls_pot_over (s : AuctionState) (height : Nat)
    (hen : s.params.enabled = true) (hh : s.round.endHeight ≤ height)
    (hbid : s.round.highestBid = none) :
    ∃ s', EndBlock s height = .ok s' ∧
      s'.ledger = s.ledger ∧ s'.round.pot = s.round.pot ∧ s'.round.highestBid = none ∧
      s'.round.number = s.round.number + 1 ∧
      s'.round.endHeight = height + s.params.roundDuration :=
  ⟨_, EndBlock_none_eq s height hen hh hbid, rfl, rfl, rfl, rfl, rfl⟩

/-- Witness for C6: a round with a pot of 500 and no bid settles at height 1100
and the next round starts with that pot. -/
theorem EndBlock_rolls_pot_over_witness :
    (step sampleGenesis (.deposit 3 [⟨1, 500⟩])).params.enabled = true ∧
    (step sampleGenesis (.deposit 3 [⟨1, 500⟩])).round.endHeight ≤ 1100 ∧
    (step sampleGenesis (.deposit 3 [⟨1, 500⟩])).round.highestBid = none ∧
    ∃ s', EndBlock (step sampleGenesis (.deposit 3 [⟨1, 500⟩])) 1100 = .ok s' ∧
      s'.round.pot = [(1, 500)] := by
  obtain ⟨s', h, _, hpot, _⟩ :=
    EndBlock_rolls_pot_over (step sampleGenesis (.deposit 3 [⟨1, 500⟩])) 1100
      (by decide) (by decide) (by decide)
  exact ⟨by decide, by decide, by decide, s', h, by rw [hpot]; decide⟩

/-- C7: `UpdateParams` called by anyone but the configured authority is rejected
with `Unauthorized` and leaves the state, stored parameters included, as it was;
called by the authority it succeeds and stores exactly the new parameters,
changing nothing else. -/
theorem UpdateParams_authority (s : AuctionState) (caller : Account) (newParams : Params) :
    (caller ≠ s.authority →
      UpdateParams s caller newParams = .error .Unauthorized ∧
      step s (.updateParams caller newParams) = s) ∧
    (caller = s.authority →
      UpdateParams s caller newParams = .ok { s with params := newParams } ∧
      (step s (.updateParams caller newParams)).params = newParams) := by
  constructor
  · intro hne
    have h : UpdateParams s caller newParams = .error .Unauthorized := by
      unfold UpdateParams
      rw [if_pos hne]
    exact ⟨h, step_of_error s (.updateParams caller newParams) _ h⟩
  · intro heq
    have h : UpdateParams s caller newParams = .ok { s with params := newParams } := by
      unfold UpdateParams
      rw [if_neg (by simp [heq])]
    refine ⟨h, ?_⟩
    rw [step_of_ok s _ (.updateParams caller newParams) h]

/-- Witness for C7: account 4 is not the authority (9) of the sample state and is
rejected; the authority disables auctions and sets the round duration to 7. -/
theorem UpdateParams_authority_witness :
    ((4 : Account) ≠ sampleGenesis.authority ∧
      UpdateParams sampleGenesis 4 ⟨false, 7⟩ = .error .Unauthorized ∧
      (step sampleGenesis (.updateParams 4 ⟨false, 7⟩)).params = ⟨true, 100⟩) ∧
    ((9 : Account) = sampleGenesis.authority ∧
      (step sampleGenesis (.updateParams 9 ⟨false, 7⟩)).params = ⟨false, 7⟩) :=
  ⟨⟨by decide,
     ((UpdateParams_authority sampleGenesis 4 ⟨false, 7⟩).1 (by decide)).1,
     by rw [((UpdateParams_authority sampleGenesis 4 ⟨false, 7⟩).1 (by decide)).2]; decide⟩,
   ⟨by decide, ((UpdateParams_authority sampleGenesis 9 ⟨false, 7⟩).2 (by decide)).2⟩⟩

end Auctions

/-! # Theorems: the erc20 genesis codec -/

namespace Erc20Genesis

theorem bind_ok {α β : Type} (a : α) (f : α → Except Err β) :
    (Except.ok a : Except Err α).bind f = f a := rfl

theorem bind_error {α β : Type} (e : Err) (f : α → Except Err β) :
    (Except.error e : Except Err α).bind f = .error e := rfl

theorem toByte_val (n : Nat) : (toByte n).val = n % 256 := rfl

theorem toUint64_natCast (n : Nat) (h : n < 2 ^ 64) : toUint64 (n : Int) = n := by
  unfold toUint64
  have : ((n : Int) % 2 ^ 64) = (n : Int) := Int.emod_eq_of_lt (by omega) (by omega)
  rw [this]
  simp

theorem toInt64_of_lt (n : Nat) (h : n < 2 ^ 63) : toInt64 n = (n : Int) := by
  unfold toInt64
  have h1 : n % 2 ^ 64 = n := Nat.mod_eq_of_lt (by omega)
  rw [h1, if_pos h]

theorem wrapInt64_of_bounds (x : Int) (h0 : 0 ≤ x) (h1 : x < 2 ^ 63) : wrapInt64 x = x := by
  unfold wrapInt64
  have : (x + 2 ^ 63) % 2 ^ 64 = x + 2 ^ 63 := Int.emod_eq_of_lt (by omega) (by omega)
  omega

/-! ### Buffers -/

theorem setByte_append (P S : Bytes) (x b : Byte) :
    setByte (P ++ x :: S) (P.length : Int) b = .ok (P ++ b :: S) := by
  unfold setByte
  rw [if_pos (by simp)]
  simp

theorem copyAt_append (P X S s : Bytes) (h : X.length = s.length) :
    copyAt (P ++ X ++ S) (P.length : Int) s = .ok (P ++ s ++ S) := by
  unfold copyAt
  rw [if_pos (by simp; omega)]
  simp only [Int.toNat_ofNat, List.length_append, List.append_assoc]
  congr 1
  rw [List.take_left']
  · congr 1
    rw [List.take_of_length_le (by omega)]
    congr 1
    have : P.length + min (P.length + (X.length + S.length) - P.length) s.length
        = (P ++ X).length := by
      simp only [List.length_append]
      omega
    rw [this, ← List.append_assoc, List.drop_left']
    rfl
  · rfl

theorem sliceTo_append (P S : Bytes) : sliceTo (P ++ S) (P.length : Int) = .ok P := by
  unfold sliceTo
  rw [if_pos (by simp)]
  simp

theorem slice_append (P X S : Bytes) :
    slice (P ++ X ++ S) (P.length : Int) ((P.length + X.length : Nat) : Int) = .ok X := by
  unfold slice
  rw [if_pos (by simp)]
  simp only [Int.toNat_ofNat, List.append_assoc]
  rw [List.drop_left', Nat.add_sub_cancel_left, List.take_left']
  · rfl
  · rfl

/-! ### Varints -/

theorem varintEnc_lt (v : Nat) (h : v < 128) : varintEnc v = [toByte v] := by
  rw [varintEnc, if_pos h]

theorem varintEnc_ge (v : Nat) (h : 128 ≤ v) :
    varintEnc v = toByte (v % 128 + 128) :: varintEnc (v / 128) := by
  rw [varintEnc, if_neg (by omega)]

theorem and_or_continuation (v : Nat) : v &&& 0x7f ||| 0x80 = v % 128 + 128 := by
  have h1 : v &&& 0x7f = v % 128 := Nat.and_pow_two_sub_one_eq_mod v 7
  have h2 : v % 128 < 2 ^ 7 := Nat.mod_lt _ (by decide)
  have h3 := Nat.mul_add_lt_is_or h2 1
  rw [h1, Nat.lor_comm]
  simp only [Nat.reducePow, Nat.mul_one] at h3
  omega

theorem or_one_eq (v : Nat) : v ||| 1 = if v % 2 = 0 then v + 1 else v := by
  have h1 := Nat.mul_add_lt_is_or (show 1 < 2 ^ 1 by decide) (v / 2)
  simp only [Nat.pow_one] at h1
  by_cases h : v % 2 = 0
  · rw [if_pos h]
    have e : 2 * (v / 2) = v := by omega
    calc v ||| 1 = 2 * (v / 2) ||| 1 := by rw [e]
      _ = 2 * (v / 2) + 1 := h1.symm
      _ = v + 1 := by omega
  · rw [if_neg h]
    have e : 2 * (v / 2) + 1 = v := by omega
    calc v ||| 1 = (2 * (v / 2) ||| 1) ||| 1 := by rw [← h1, e]
      _ = 2 * (v / 2) ||| 1 := by rw [Nat.lor_assoc, Nat.or_self]
      _ = 2 * (v / 2) + 1 := h1.symm
      _ = v := e

theorem le_or_one (v : Nat) : v ≤ v ||| 1 := by
  rw [or_one_eq]
  split <;> omega

theorem or_one_ne_zero (v : Nat) : v ||| 1 ≠ 0 := by
  rw [or_one_eq]
  split <;> omega

theorem log2_or_one (v : Nat) (h : v ≠ 0) : Nat.log2 (v ||| 1) = Nat.log2 v := by
  have hne : v ||| 1 ≠ 0 := or_one_ne_zero v
  have hlo : 2 ^ Nat.log2 v ≤ v ||| 1 :=
    Nat.le_trans (Nat.log2_self_le h) (le_or_one v)
  have hhi : v ||| 1 < 2 ^ (Nat.log2 v + 1) := by
    apply Nat.or_lt_two_pow Nat.lt_log2_self
    exact Nat.one_lt_two_pow (by omega)
  have a := (Nat.le_log2 hne).2 hlo
  have b := (Nat.log2_lt hne).2 hhi
  omega

theorem lenLoop_eq : ∀ (fuel x : Nat), x ≤ fuel →
    lenLoop fuel x = if x = 0 then 0 else Nat.log2 x + 1 := by
  intro fuel
  induction fuel with
  | zero =>
    intro x hx
    have : x = 0 := by omega
    subst this
    rfl
  | succ fuel ih =>
    intro x hx
    unfold lenLoop
    by_cases h0 : x = 0
    · rw [if_pos h0, if_pos h0]
    · rw [if_neg h0, if_neg h0, ih (x / 2) (by omega)]
      by_cases h1 : x / 2 = 0
      · rw [if_pos h1]
        have : x = 1 := by omega
        subst this
        rw [Nat.log2, if_neg (by omega)]
      · rw [if_neg h1]
        have : Nat.log2 x = Nat.log2 (x / 2) + 1 := by
          rw [Nat.log2]
          rw [if_pos (by omega)]
        rw [this]

theorem Len64_eq (x : Nat) : Len64 x = if x = 0 then 0 else Nat.log2 x + 1 :=
  lenLoop_eq x x (Nat.le_refl x)

theorem sovGenesis_lt (v : Nat) (h : v < 128) : sovGenesis v = 1 := by
  unfold sovGenesis
  rw [Len64_eq]
  have hlt : v ||| 1 < 2 ^ 7 := Nat.or_lt_two_pow (by simpa using h) (by decide)
  have hne : v ||| 1 ≠ 0 := or_one_ne_zero v
  rw [if_neg hne]
  have := (Nat.log2_lt hne).2 hlt
  omega

theorem sovGenesis_ge (v : Nat) (h : 128 ≤ v) : sovGenesis v = sovGenesis (v / 128) + 1 := by
  have hv : v ≠ 0 := by omega
  have hq : v / 128 ≠ 0 := by
    have := Nat.div_pos h (by decide : 0 < 128)
    omega
  have hne : ∀ x : Nat, x ||| 1 ≠ 0 := or_one_ne_zero
  unfold sovGenesis
  rw [Len64_eq, Len64_eq, if_neg (hne _), if_neg (hne _), log2_or_one v hv, log2_or_one _ hq]
  have hlog : Nat.log2 v = Nat.log2 (v / 128) + 7 := by
    have lo := Nat.log2_self_le hq
    have hi := Nat.lt_log2_self (n := v / 128)
    have lo' : 2 ^ (Nat.log2 (v / 128) + 7) ≤ v := by
      rw [Nat.pow_add]
      have := (Nat.le_div_iff_mul_le (by decide : 0 < 128)).1 lo
      simpa using this
    have hi' : v < 2 ^ (Nat.log2 (v / 128) + 7 + 1) := by
      have := (Nat.div_lt_iff_lt_mul (by decide : 0 < 128)).1 hi
      have e : 2 ^ (Nat.log2 (v / 128) + 7 + 1) = 2 ^ (Nat.log2 (v / 128) + 1) * 128 := by
        rw [show Nat.log2 (v / 128) + 7 + 1 = (Nat.log2 (v / 128) + 1) + 7 by omega, Nat.pow_add]
      rw [e]
      exact this
    have a := (Nat.le_log2 hv).2 lo'
    have b := (Nat.log2_lt hv).2 hi'
    omega
  rw [hlog]
  omega

theorem varintEnc_length (v : Nat) : (varintEnc v).length = sovGenesis v := by
  induction v using Nat.strong_induction_on with
  | _ v ih =>
    by_cases h : v < 128
    · rw [varintEnc_lt v h, sovGenesis_lt v h]
      rfl
    · rw [varintEnc_ge v (by omega), sovGenesis_ge v (by omega), List.length_cons,
        ih (v / 128) (by omega)]

theorem varintEnc_length_pos (v : Nat) : 0 < (varintEnc v).length := by
  by_cases h : v < 128
  · rw [varintEnc_lt v h]; simp
  · rw [varintEnc_ge v (by omega)]; simp

/-- A value below 2^(7k) has a varint of at most k bytes. -/
theorem varintEnc_length_le (k : Nat) : ∀ v, v < 2 ^ (7 * k) → 0 < k → (varintEnc v).length ≤ k := by
  induction k with
  | zero => intro v _ h; omega
  | succ k ih =>
    intro v hv _
    by_cases h : v < 128
    · rw [varintEnc_lt v h]; simp
    · rw [varintEnc_ge v (by omega), List.length_cons]
      have hk : 0 < k := by
        by_contra hk
        have : k = 0 := by omega
        subst this
        simp at hv
        omega
      have : v / 128 < 2 ^ (7 * k) := by
        apply (Nat.div_lt_iff_lt_mul (by decide : 0 < 128)).2
        have e : 2 ^ (7 * (k + 1)) = 2 ^ (7 * k) * 128 := by
          rw [show 7 * (k + 1) = 7 * k + 7 by omega, Nat.pow_add]
        omega
      have := ih (v / 128) this hk
      omega

theorem varintEnc_length_le_ten (v : Nat) (h : v < 2 ^ 64) : (varintEnc v).length ≤ 10 := by
  apply varintEnc_length_le 10 v _ (by decide)
  have : (2 : Nat) ^ 64 ≤ 2 ^ (7 * 10) := Nat.pow_le_pow_right (by decide) (by decide)
  omega

theorem encodeVarintLoop_append : ∀ (fuel v : Nat) (P X S : Bytes),
    X.length = (varintEnc v).length → (varintEnc v).length ≤ fuel →
    encodeVarintLoop fuel (P ++ X ++ S) (P.length : Int) v = .ok (P ++ varintEnc v ++ S) := by
  intro fuel
  induction fuel with
  | zero =>
    intro v P X S _ hf
    have := varintEnc_length_pos v
    omega
  | succ fuel ih =>
    intro v P X S hX hf
    unfold encodeVarintLoop
    by_cases h : v < 128
    · rw [if_neg (by simp; omega)]
      rw [varintEnc_lt v h] at hX ⊢
      match X, hX with
      | [x], _ =>
        simp only [List.append_assoc, List.singleton_append]
        exact setByte_append P S x (toByte v)
    · rw [if_pos (by simp; omega)]
      rw [varintEnc_ge v (by omega)] at hX hf ⊢
      match X, hX with
      | x :: X', hX' =>
        simp only [List.length_cons, Nat.add_right_cancel_iff] at hX' hf
        rw [and_or_continuation]
        simp only [List.append_assoc, List.cons_append]
        rw [setByte_append, bind_ok]
        have e := ih (v / 128) (P ++ [toByte (v % 128 + 128)]) X' S hX' (by omega)
        simp only [List.append_assoc, List.singleton_append, List.length_append,
          List.length_singleton, Nat.cast_add, Nat.cast_one] at e
        rw [Nat.shiftRight_eq_div_pow]
        exact e

theorem encodeVarintGenesis_append (v : Nat) (hv : v < 2 ^ 64) (P X S : Bytes)
    (hX : X.length = sovGenesis v) :
    encodeVarintGenesis (P ++ X ++ S) ((P.length + X.length : Nat) : Int) v =
      .ok (P ++ varintEnc v ++ S, (P.length : Int)) := by
  unfold encodeVarintGenesis
  have e : (((P.length + X.length : Nat) : Int) - (sovGenesis v : Int)) = (P.length : Int) := by
    rw [hX]; push_cast; omega
  simp only [e]
  rw [encodeVarintLoop_append 10 v P X S (by rw [hX, varintEnc_length])
    (varintEnc_length_le_ten v hv), bind_ok]

/-! ### Marshal of Precompiles -/

theorem exists_split (X : Bytes) (a b : Nat) (h : X.length = a + b) :
    ∃ X1 X2, X = X1 ++ X2 ∧ X1.length = a ∧ X2.length = b :=
  ⟨X.take a, X.drop a, (List.take_append_drop a X).symm,
    by rw [List.length_take]; omega, by rw [List.length_drop]; omega⟩

theorem encField_length (tag : Byte) (s : Bytes) :
    (encField tag s).length = 1 + sovGenesis s.length + s.length := by
  simp only [encField, List.length_cons, List.length_append, varintEnc_length]
  omega

theorem encFields_append (tag : Byte) (a b : List Bytes) :
    encFields tag (a ++ b) = encFields tag a ++ encFields tag b := by
  induction a with
  | nil => rfl
  | cons s rest ih =>
    have e : encFields tag (s :: rest ++ b) = encField tag s ++ encFields tag (rest ++ b) := rfl
    rw [e, ih]
    simp [encFields]

theorem encFields_singleton (tag : Byte) (s : Bytes) : encFields tag [s] = encField tag s := by
  simp [encFields]

/-- One iteration of a string loop of `Precompiles.MarshalToSizedBuffer` fills the
free bytes in front of the written part with the field, front to back. -/
theorem marshalString_step (tag : Byte) (s : Bytes) (hs : s.length < 2 ^ 64) (Q X S : Bytes)
    (hX : X.length = (encField tag s).length)
    (k : Bytes → Int → Except Err (Bytes × Int)) :
    ((copyAt (Q ++ X ++ S) (((Q.length + X.length : Nat) : Int) - (s.length : Int)) s).bind
      fun dAtA1 =>
        (encodeVarintGenesis dAtA1 (((Q.length + X.length : Nat) : Int) - (s.length : Int))
          (toUint64 (s.length : Int))).bind fun r =>
            (setByte r.1 (r.2 - 1) tag).bind fun dAtA2 => k dAtA2 (r.2 - 1))
      = k (Q ++ encField tag s ++ S) (Q.length : Int) := by
  rw [encField_length] at hX
  obtain ⟨X1, Y, rfl, hX1, hY⟩ := exists_split X (1 + sovGenesis s.length) s.length hX
  obtain ⟨T, V, rfl, hT, hV⟩ := exists_split X1 1 (sovGenesis s.length) hX1
  match T, hT with
  | [t], _ =>
    have e1 : (((Q.length + ([t] ++ V ++ Y).length : Nat) : Int) - (s.length : Int))
        = (((Q ++ [t] ++ V).length : Nat) : Int) := by
      simp only [List.length_append, List.length_singleton]
      push_cast
      omega
    have e2 : Q ++ ([t] ++ V ++ Y) ++ S = (Q ++ [t] ++ V) ++ Y ++ S := by
      simp only [List.append_assoc]
    rw [e1, e2, copyAt_append _ Y S s hY, bind_ok, toUint64_natCast _ hs]
    have e3 : (Q ++ [t] ++ V) ++ s ++ S = (Q ++ [t]) ++ V ++ (s ++ S) := by
      simp only [List.append_assoc]
    have e4 : (((Q ++ [t] ++ V).length : Nat) : Int)
        = (((Q ++ [t]).length + V.length : Nat) : Int) := by
      simp only [List.length_append]
    rw [e3, e4, encodeVarintGenesis_append _ hs _ V _ hV, bind_ok]
    have e5 : (((Q ++ [t]).length : Nat) : Int) - 1 = (Q.length : Int) := by
      simp only [List.length_append, List.length_singleton]
      push_cast
      omega
    have e6 : Q ++ [t] ++ varintEnc s.length ++ (s ++ S)
        = Q ++ t :: (varintEnc s.length ++ (s ++ S)) := by
      simp
    simp only [e5]
    rw [e6, setByte_append, bind_ok]
    congr 1
    simp [encField]

theorem marshalStrings_append (tag : Byte) : ∀ (rs : List Bytes) (P X S : Bytes),
    (∀ s ∈ rs, s.length < 2 ^ 64) →
    X.length = (encFields tag rs.reverse).length →
    marshalStrings tag rs (P ++ X ++ S) ((P.length + X.length : Nat) : Int)
      = .ok (P ++ encFields tag rs.reverse ++ S, (P.length : Int)) := by
  intro rs
  induction rs with
  | nil =>
    intro P X S _ hX
    simp only [List.reverse_nil, encFields, List.length_nil, List.length_eq_zero] at hX
    subst hX
    simp [marshalStrings, encFields]
  | cons s rest ih =>
    intro P X S hlen hX
    rw [List.reverse_cons, encFields_append, encFields_singleton, List.length_append] at hX
    obtain ⟨X1, X2, rfl, hX1, hX2⟩ := exists_split X _ _ hX
    have hs : s.length < 2 ^ 64 := hlen s (List.mem_cons_self _ _)
    have e0 : marshalStrings tag (s :: rest) (P ++ (X1 ++ X2) ++ S)
        ((P.length + (X1 ++ X2).length : Nat) : Int)
        = ((copyAt ((P ++ X1) ++ X2 ++ S)
            ((((P ++ X1).length + X2.length : Nat) : Int) - (s.length : Int)) s).bind
          fun dAtA1 =>
            (encodeVarintGenesis dAtA1
              ((((P ++ X1).length + X2.length : Nat) : Int) - (s.length : Int))
              (toUint64 (s.length : Int))).bind fun r =>
                (setByte r.1 (r.2 - 1) tag).bind fun dAtA2 =>
                  marshalStrings tag rest dAtA2 (r.2 - 1)) := by
      have a1 : P ++ (X1 ++ X2) ++ S = (P ++ X1) ++ X2 ++ S := by
        simp only [List.append_assoc]
      have a2 : ((P.length + (X1 ++ X2).length : Nat) : Int)
          = (((P ++ X1).length + X2.length : Nat) : Int) := by
        simp only [List.length_append, Nat.add_assoc]
      rw [a1, a2]
      rfl
    rw [e0, marshalString_step tag s hs (P ++ X1) X2 S hX2]
    have a3 : P ++ X1 ++ encField tag s ++ S = P ++ X1 ++ (encField tag s ++ S) := by
      simp only [List.append_assoc]
    have a4 : (((P ++ X1).length : Nat) : Int) = ((P.length + X1.length : Nat) : Int) := by
      simp only [List.length_append]
    rw [a3, a4, ih P X1 (encField tag s ++ S)
      (fun x hx => hlen x (List.mem_cons_of_mem _ hx)) hX1]
    simp only [List.reverse_cons, encFields_append, encFields_singleton, List.append_assoc]

theorem marshalStrings_guard (tag : Byte) (l : List Bytes) (dAtA : Bytes) (i : Int) :
    (if l.length > 0 then marshalStrings tag l.reverse dAtA i else .ok (dAtA, i))
      = marshalStrings tag l.reverse dAtA i := by
  cases l with
  | nil => simp [marshalStrings]
  | cons s rest => simp

theorem sizeStrings_eq (tag : Byte) : ∀ (ss : List Bytes) (n : Int),
    (∀ s ∈ ss, s.length < 2 ^ 64) →
    sizeStrings ss n = n + ((encFields tag ss).length : Int) := by
  intro ss
  induction ss with
  | nil => intro n _; simp [sizeStrings, encFields]
  | cons s rest ih =>
    intro n hlen
    have hs : s.length < 2 ^ 64 := hlen s (List.mem_cons_self _ _)
    simp only [sizeStrings, encFields, List.length_append]
    rw [ih _ (fun x hx => hlen x (List.mem_cons_of_mem _ hx)), toUint64_natCast _ hs,
      encField_length]
    push_cast
    omega

theorem sizeStrings_guard (l : List Bytes) (n : Int) :
    (if l.length > 0 then sizeStrings l n else n) = sizeStrings l n := by
  cases l with
  | nil => simp [sizeStrings]
  | cons s rest => simp

theorem sizeStrings_mono : ∀ (ss : List Bytes) (n : Int), n ≤ sizeStrings ss n := by
  intro ss
  induction ss with
  | nil => intro n; simp [sizeStrings]
  | cons s rest ih =>
    intro n
    simp only [sizeStrings]
    have := ih (n + (1 + (s.length : Int) + (sovGenesis (toUint64 (s.length : Int)) : Int)))
    omega

theorem sizeStrings_bound : ∀ (ss : List Bytes) (n : Int), 0 ≤ n →
    ∀ s ∈ ss, (s.length : Int) < sizeStrings ss n := by
  intro ss
  induction ss with
  | nil => intro n _ s hs; cases hs
  | cons a rest ih =>
    intro n hn s hs
    simp only [sizeStrings]
    rcases List.mem_cons.1 hs with rfl | hmem
    · have := sizeStrings_mono rest
        (n + (1 + (s.length : Int) + (sovGenesis (toUint64 (s.length : Int)) : Int)))
      omega
    · exact ih _ (by omega) s hmem

theorem Precompiles_Size_eq (m : Precompiles) :
    m.Size = sizeStrings m.Dynamic (sizeStrings m.Native 0) := by
  simp only [Precompiles.Size, sizeStrings_guard]

/-- Strings of a message whose size fits an `int` are shorter than 2^63. -/
theorem Precompiles_lengths_lt (m : Precompiles) (h : m.Size < 2 ^ 63) :
    (∀ s ∈ m.Native, s.length < 2 ^ 63) ∧ (∀ s ∈ m.Dynamic, s.length < 2 ^ 63) := by
  rw [Precompiles_Size_eq] at h
  have h0 := sizeStrings_mono m.Native 0
  have h1 := sizeStrings_mono m.Dynamic (sizeStrings m.Native 0)
  constructor
  · intro s hs
    have := sizeStrings_bound m.Native 0 (by omega) s hs
    omega
  · intro s hs
    have := sizeStrings_bound m.Dynamic _ h0 s hs
    omega

theorem Precompiles_Size_eq_enc_length (m : Precompiles) (h : m.Size < 2 ^ 63) :
    m.Size = ((m.enc.length : Nat) : Int) := by
  obtain ⟨hn, hd⟩ := Precompiles_lengths_lt m h
  have hn' : ∀ s ∈ m.Native, s.length < 2 ^ 64 := fun s hs => by have := hn s hs; omega
  have hd' : ∀ s ∈ m.Dynamic, s.length < 2 ^ 64 := fun s hs => by have := hd s hs; omega
  rw [Precompiles_Size_eq, sizeStrings_eq 0x12 _ _ hd', sizeStrings_eq 0xa _ _ hn']
  simp only [Precompiles.enc, List.length_append]
  push_cast
  omega

/-- `Precompiles.MarshalToSizedBuffer` fills the last `len(enc)` bytes of the
buffer with the wire form and returns that count. -/
theorem Precompiles_MarshalToSizedBuffer_append (m : Precompiles)
    (hn : ∀ s ∈ m.Native, s.length < 2 ^ 64) (hd : ∀ s ∈ m.Dynamic, s.length < 2 ^ 64)
    (P X : Bytes) (hX : X.length = m.enc.length) :
    m.MarshalToSizedBuffer (P ++ X) = .ok (P ++ m.enc, ((m.enc.length : Nat) : Int)) := by
  simp only [Precompiles.enc, List.length_append] at hX
  obtain ⟨X1, X2, rfl, hX1, hX2⟩ := exists_split X _ _ hX
  unfold Precompiles.MarshalToSizedBuffer
  simp only [marshalStrings_guard]
  have e1 : P ++ (X1 ++ X2) = (P ++ X1) ++ X2 ++ [] := by simp
  have e2 : (((P ++ (X1 ++ X2)).length : Nat) : Int)
      = (((P ++ X1).length + X2.length : Nat) : Int) := by
    simp only [List.length_append, Nat.add_assoc]
  rw [e2, e1, marshalStrings_append 0x12 m.Dynamic.reverse (P ++ X1) X2 []
    (fun s hs => hd s (List.mem_reverse.1 hs)) (by rw [List.reverse_reverse]; exact hX2),
    bind_ok]
  simp only [marshalStrings_guard, List.reverse_reverse]
  have e3 : P ++ X1 ++ encFields 0x12 m.Dynamic ++ [] = P ++ X1 ++ encFields 0x12 m.Dynamic := by
    simp
  have e4 : (((P ++ X1).length : Nat) : Int) = ((P.length + X1.length : Nat) : Int) := by
    simp only [List.length_append]
  rw [e3, e4, marshalStrings_append 0xa m.Native.reverse P X1 (encFields 0x12 m.Dynamic)
    (fun s hs => hn s (List.mem_reverse.1 hs)) (by rw [List.reverse_reverse]; exact hX1),
    bind_ok]
  simp only [List.reverse_reverse, Precompiles.enc, List.length_append, List.append_assoc]
  congr 2
  push_cast
  omega

theorem sliceTo_replicate (n : Nat) :
    sliceTo (List.replicate n (0 : Byte)) (n : Int) = .ok (List.replicate n 0) := by
  have := sliceTo_append (List.replicate n (0 : Byte)) []
  simpa using this

/-- `Precompiles.Marshal` returns the wire form. -/
theorem Precompiles_Marshal_eq (m : Precompiles) (h : m.Size < 2 ^ 63) :
    m.Marshal = .ok m.enc := by
  obtain ⟨hn, hd⟩ := Precompiles_lengths_lt m h
  have hn' : ∀ s ∈ m.Native, s.length < 2 ^ 64 := fun s hs => by have := hn s hs; omega
  have hd' : ∀ s ∈ m.Dynamic, s.length < 2 ^ 64 := fun s hs => by have := hd s hs; omega
  have hsz := Precompiles_Size_eq_enc_length m h
  unfold Precompiles.Marshal
  simp only [hsz, Int.toNat_ofNat]
  rw [sliceTo_replicate, bind_ok]
  have := Precompiles_MarshalToSizedBuffer_append m hn' hd' [] (List.replicate m.enc.length 0)
    (by simp)
  simp only [List.nil_append] at this
  rw [this, bind_ok]
  simp only [List.drop_replicate, Nat.sub_self, List.replicate_zero, List.append_nil]
  have := sliceTo_append m.enc []
  simpa using this

/-! ### Reading varints back -/

theorem or_shiftLeft_eq_add (acc x shift : Nat) (h : acc < 2 ^ shift) :
    acc ||| (x <<< shift) = acc + x * 2 ^ shift := by
  rw [Nat.shiftLeft_eq, Nat.lor_comm, Nat.mul_comm x, ← Nat.mul_add_lt_is_or h x]
  omega

theorem readVarint_step (dAtA : Bytes) (fuel shift iNdEx acc : Nat) (b : Byte)
    (hs : shift < 64) (hb : dAtA[iNdEx]? = some b) :
    readVarint dAtA (fuel + 1) shift iNdEx acc =
      if b.val < 0x80 then .ok ((acc ||| ((b.val &&& 0x7F) <<< shift)) % 2 ^ 64, iNdEx + 1)
      else readVarint dAtA fuel (shift + 7) (iNdEx + 1)
        ((acc ||| ((b.val &&& 0x7F) <<< shift)) % 2 ^ 64) := by
  have hlt : iNdEx < dAtA.length := by
    by_contra hc
    rw [List.getElem?_eq_none (by omega)] at hb
    cases hb
  rw [readVarint, if_neg (by omega), if_neg (by omega), hb]

theorem getElem?_mid (P S : Bytes) (b : Byte) : (P ++ b :: S)[P.length]? = some b := by
  rw [List.getElem?_append_right (Nat.le_refl _)]
  simp

theorem and_0x7F (x : Nat) : x &&& 0x7F = x % 128 := Nat.and_pow_two_sub_one_eq_mod x 7

theorem readVarint_varintEnc : ∀ (fuel shift acc v : Nat) (P S : Bytes),
    shift < 64 → 70 ≤ shift + 7 * fuel → acc < 2 ^ shift → acc + v * 2 ^ shift < 2 ^ 64 →
    readVarint (P ++ varintEnc v ++ S) fuel shift P.length acc
      = .ok (acc + v * 2 ^ shift, P.length + (varintEnc v).length) := by
  intro fuel
  induction fuel with
  | zero => intro shift acc v P S h1 h2; omega
  | succ fuel ih =>
    intro shift acc v P S hs hf hacc hv
    by_cases h : v < 128
    · rw [varintEnc_lt v h]
      have hb : (P ++ [toByte v] ++ S)[P.length]? = some (toByte v) := by
        have := getElem?_mid P S (toByte v)
        simpa using this
      rw [readVarint_step _ _ _ _ _ _ hs hb, toByte_val, and_0x7F]
      have e1 : v % 256 = v := Nat.mod_eq_of_lt (by omega)
      have e2 : v % 128 = v := Nat.mod_eq_of_lt h
      rw [e1, e2, if_pos h, or_shiftLeft_eq_add _ _ _ hacc, Nat.mod_eq_of_lt hv]
      rfl
    · have hge : 128 ≤ v := by omega
      rw [varintEnc_ge v hge]
      have hb : (P ++ toByte (v % 128 + 128) :: varintEnc (v / 128) ++ S)[P.length]?
          = some (toByte (v % 128 + 128)) := by
        have := getElem?_mid P (varintEnc (v / 128) ++ S) (toByte (v % 128 + 128))
        simpa using this
      rw [readVarint_step _ _ _ _ _ _ hs hb, toByte_val, and_0x7F]
      have e1 : (v % 128 + 128) % 256 = v % 128 + 128 := Nat.mod_eq_of_lt (by omega)
      have e2 : (v % 128 + 128) % 128 = v % 128 := by omega
      rw [e1, e2, if_neg (by omega), or_shiftLeft_eq_add _ _ _ hacc]
      have hdecomp : v * 2 ^ shift = (v % 128) * 2 ^ shift + (v / 128) * 2 ^ (shift + 7) := by
        have := Nat.div_add_mod v 128
        calc v * 2 ^ shift = (128 * (v / 128) + v % 128) * 2 ^ shift := by rw [this]
          _ = (v % 128) * 2 ^ shift + (v / 128) * 2 ^ (shift + 7) := by
            rw [Nat.pow_add]; ring
      have hle : acc + (v % 128) * 2 ^ shift < 2 ^ 64 := by omega
      have hs7 : shift + 7 < 64 := by
        have h1 : 2 ^ (shift + 7) ≤ v * 2 ^ shift := by
          rw [Nat.pow_add, Nat.mul_comm]
          exact Nat.mul_le_mul_right _ hge
        have h2 : 2 ^ (shift + 7) < 2 ^ 64 := by omega
        exact (Nat.pow_lt_pow_iff_right (by decide : 1 < 2)).1 h2
      have hacc' : acc + (v % 128) * 2 ^ shift < 2 ^ (shift + 7) := by
        have h1 : (v % 128) * 2 ^ shift ≤ 127 * 2 ^ shift :=
          Nat.mul_le_mul_right _ (by omega)
        have h2 : 2 ^ (shift + 7) = 128 * 2 ^ shift := by rw [Nat.pow_add]; ring
        omega
      rw [Nat.mod_eq_of_lt hle]
      have e3 : P ++ toByte (v % 128 + 128) :: varintEnc (v / 128) ++ S
          = (P ++ [toByte (v % 128 + 128)]) ++ varintEnc (v / 128) ++ S := by simp
      have e4 : P.length + 1 = (P ++ [toByte (v % 128 + 128)]).length := by simp
      rw [e3, e4, ih (shift + 7) _ (v / 128) _ S hs7 (by omega) hacc' (by omega)]
      have ea : acc + v % 128 * 2 ^ shift + v / 128 * 2 ^ (shift + 7) = acc + v * 2 ^ shift := by
        rw [hdecomp, Nat.add_assoc]
      have eb : (P ++ [toByte (v % 128 + 128)]).length + (varintEnc (v / 128)).length
          = P.length + (toByte (v % 128 + 128) :: varintEnc (v / 128)).length := by
        simp only [List.length_append, List.length_cons, List.length_nil]
        omega
      rw [ea, eb]

/-- The varint of a 64-bit value is read back as that value. -/
theorem readVarint_append (v : Nat) (hv : v < 2 ^ 64) (P S : Bytes) :
    readVarint (P ++ varintEnc v ++ S) 10 0 P.length 0
      = .ok (v, P.length + (varintEnc v).length) := by
  have := readVarint_varintEnc 10 0 0 v P S (by decide) (by decide) (by decide) (by simpa using hv)
  simpa using this

/-- A tag of one byte is read back as that byte. -/
theorem readVarint_byte (b : Byte) (hb : b.val < 128) (P S : Bytes) :
    readVarint (P ++ b :: S) 10 0 P.length 0 = .ok (b.val, P.length + 1) := by
  have e : [b] = varintEnc b.val := by
    rw [varintEnc_lt _ hb]
    congr 1
    apply Fin.ext
    rw [toByte_val]
    omega
  have := readVarint_append b.val (by omega) P S
  rw [← e] at this
  simpa using this

theorem readTag_byte (b : Byte) (hb : b.val < 128) (h4 : b.val &&& 0x7 ≠ 4)
    (hf : ¬ toInt32 (b.val >>> 3) ≤ 0) (P S : Bytes) :
    readTag (P ++ b :: S) P.length
      = .ok (toInt32 (b.val >>> 3), b.val &&& 0x7, P.length + 1) := by
  unfold readTag
  rw [readVarint_byte b hb, bind_ok]
  simp only [if_neg h4, if_neg hf]

/-- Length and payload bounds of a length-delimited field are read back. -/
theorem readLength_append (Y P S : Bytes) (hlen : (P ++ varintEnc Y.length ++ Y ++ S).length < 2 ^ 63) :
    readLength (P ++ varintEnc Y.length ++ Y ++ S) P.length
      = .ok (P.length + (varintEnc Y.length).length,
          P.length + (varintEnc Y.length).length + Y.length) := by
  simp only [List.length_append] at hlen
  unfold readLength
  have e : P ++ varintEnc Y.length ++ Y ++ S = P ++ varintEnc Y.length ++ (Y ++ S) := by simp
  rw [e, readVarint_append _ (by omega), bind_ok]
  simp only
  rw [toInt64_of_lt _ (by omega), if_neg (by omega)]
  have hw : wrapInt64 (((P.length + (varintEnc Y.length).length : Nat) : Int) + (Y.length : Int))
      = ((P.length + (varintEnc Y.length).length + Y.length : Nat) : Int) := by
    rw [wrapInt64_of_bounds _ (by omega) (by omega)]
    push_cast
    rfl
  rw [hw, if_neg (by omega), if_neg (by simp only [List.length_append]; omega),
    Int.toNat_ofNat]

/-! ### Unmarshal of Precompiles -/

/-- Reading one length-delimited field with a one-byte tag: the tag, the length
and the payload come back, and the index ends right after the field. -/
theorem field_reads (tag : Byte) (htag : tag.val < 128) (h4 : tag.val &&& 0x7 ≠ 4)
    (hf : ¬ toInt32 (tag.val >>> 3) ≤ 0) (P s S : Bytes)
    (hlen : (P ++ encField tag s ++ S).length < 2 ^ 63) :
    P.length < (P ++ encField tag s ++ S).length ∧
    readTag (P ++ encField tag s ++ S) P.length
      = .ok (toInt32 (tag.val >>> 3), tag.val &&& 0x7, P.length + 1) ∧
    readLength (P ++ encField tag s ++ S) (P.length + 1)
      = .ok (P.length + 1 + (varintEnc s.length).length,
          P.length + (encField tag s).length) ∧
    slice (P ++ encField tag s ++ S) ((P.length + 1 + (varintEnc s.length).length : Nat) : Int)
      ((P.length + (encField tag s).length : Nat) : Int) = .ok s := by
  have hD1 : P ++ encField tag s ++ S = P ++ tag :: (varintEnc s.length ++ s ++ S) := by
    simp [encField]
  have hD2 : P ++ encField tag s ++ S = (P ++ [tag]) ++ varintEnc s.length ++ s ++ S := by
    simp [encField]
  have hD3 : P ++ encField tag s ++ S = (P ++ [tag] ++ varintEnc s.length) ++ s ++ S := by
    simp [encField]
  have hl : (encField tag s).length = 1 + (varintEnc s.length).length + s.length := by
    simp only [encField, List.length_cons, List.length_append]
    omega
  refine ⟨by simp only [List.length_append, hl]; omega, ?_, ?_, ?_⟩
  · rw [hD1]
    exact readTag_byte tag htag h4 hf P _
  · rw [hD2] at hlen ⊢
    have := readLength_append s (P ++ [tag]) S hlen
    simp only [List.length_append, List.length_singleton] at this
    rw [this, hl]
    congr 2
    omega
  · rw [hD3]
    have := slice_append (P ++ [tag] ++ varintEnc s.length) s S
    simp only [List.length_append, List.length_singleton] at this
    rw [hl]
    have e : P.length + (1 + (varintEnc s.length).length + s.length)
        = P.length + 1 + (varintEnc s.length).length + s.length := by omega
    rw [e]
    exact this

theorem tag_0a : (0xa : Byte).val < 128 ∧ (0xa : Byte).val &&& 0x7 = 2 ∧
    toInt32 ((0xa : Byte).val >>> 3) = 1 := by decide

theorem tag_12 : (0x12 : Byte).val < 128 ∧ (0x12 : Byte).val &&& 0x7 = 2 ∧
    toInt32 ((0x12 : Byte).val >>> 3) = 2 := by decide

theorem tag_1a : (0x1a : Byte).val < 128 ∧ (0x1a : Byte).val &&& 0x7 = 2 ∧
    toInt32 ((0x1a : Byte).val >>> 3) = 3 := by decide

theorem Precompiles_unmarshalLoop_native (P s S : Bytes) (fuel : Nat) (m : Precompiles)
    (hlen : (P ++ encField 0xa s ++ S).length < 2 ^ 63) :
    Precompiles.unmarshalLoop (P ++ encField 0xa s ++ S) (fuel + 1) P.length m
      = Precompiles.unmarshalLoop (P ++ encField 0xa s ++ S) fuel
          (P.length + (encField 0xa s).length) { m with Native := m.Native ++ [s] } := by
  obtain ⟨h1, h2, h3, h4⟩ := field_reads 0xa tag_0a.1 (by rw [tag_0a.2.1]; decide)
    (by rw [tag_0a.2.2]; decide) P s S hlen
  rw [tag_0a.2.1, tag_0a.2.2] at h2
  generalize P ++ encField 0xa s ++ S = D at *
  rw [Precompiles.unmarshalLoop, if_pos h1, h2, bind_ok]
  simp only
  rw [if_neg (by decide), h3, bind_ok]
  simp only
  rw [h4, bind_ok]

theorem Precompiles_unmarshalLoop_dynamic (P s S : Bytes) (fuel : Nat) (m : Precompiles)
    (hlen : (P ++ encField 0x12 s ++ S).length < 2 ^ 63) :
    Precompiles.unmarshalLoop (P ++ encField 0x12 s ++ S) (fuel + 1) P.length m
      = Precompiles.unmarshalLoop (P ++ encField 0x12 s ++ S) fuel
          (P.length + (encField 0x12 s).length) { m with Dynamic := m.Dynamic ++ [s] } := by
  obtain ⟨h1, h2, h3, h4⟩ := field_reads 0x12 tag_12.1 (by rw [tag_12.2.1]; decide)
    (by rw [tag_12.2.2]; decide) P s S hlen
  rw [tag_12.2.1, tag_12.2.2] at h2
  generalize P ++ encField 0x12 s ++ S = D at *
  rw [Precompiles.unmarshalLoop, if_pos h1, h2, bind_ok]
  simp only
  rw [if_neg (by decide), h3, bind_ok]
  simp only
  rw [h4, bind_ok]

theorem Precompiles_unmarshalLoop_natives : ∀ (ss : List Bytes) (P S : Bytes) (fuel : Nat)
    (m : Precompiles), (P ++ encFields 0xa ss ++ S).length < 2 ^ 63 →
    Precompiles.unmarshalLoop (P ++ encFields 0xa ss ++ S) (fuel + ss.length) P.length m
      = Precompiles.unmarshalLoop (P ++ encFields 0xa ss ++ S) fuel
          (P.length + (encFields 0xa ss).length) { m with Native := m.Native ++ ss } := by
  intro ss
  induction ss with
  | nil => intro P S fuel m _; simp [encFields]
  | cons s rest ih =>
    intro P S fuel m hlen
    have hD : P ++ encFields 0xa (s :: rest) ++ S
        = P ++ encField 0xa s ++ (encFields 0xa rest ++ S) := by simp [encFields]
    have hD' : P ++ encFields 0xa (s :: rest) ++ S
        = (P ++ encField 0xa s) ++ encFields 0xa rest ++ S := by simp [encFields]
    have e1 : fuel + (s :: rest).length = (fuel + rest.length) + 1 := by simp; omega
    rw [e1]
    have step := Precompiles_unmarshalLoop_native P s (encFields 0xa rest ++ S)
      (fuel + rest.length) m (by rw [← hD]; exact hlen)
    rw [← hD] at step
    rw [step]
    have e2 : P.length + (encField 0xa s).length = (P ++ encField 0xa s).length := by simp
    have next := ih (P ++ encField 0xa s) S fuel { m with Native := m.Native ++ [s] }
      (by rw [← hD']; exact hlen)
    rw [← hD'] at next
    rw [e2, next]
    simp [encFields, Nat.add_assoc]

theorem Precompiles_unmarshalLoop_dynamics : ∀ (ss : List Bytes) (P S : Bytes) (fuel : Nat)
    (m : Precompiles), (P ++ encFields 0x12 ss ++ S).length < 2 ^ 63 →
    Precompiles.unmarshalLoop (P ++ encFields 0x12 ss ++ S) (fuel + ss.length) P.length m
      = Precompiles.unmarshalLoop (P ++ encFields 0x12 ss ++ S) fuel
          (P.length + (encFields 0x12 ss).length) { m with Dynamic := m.Dynamic ++ ss } := by
  intro ss
  induction ss with
  | nil => intro P S fuel m _; simp [encFields]
  | cons s rest ih =>
    intro P S fuel m hlen
    have hD : P ++ encFields 0x12 (s :: rest) ++ S
        = P ++ encField 0x12 s ++ (encFields 0x12 rest ++ S) := by simp [encFields]
    have hD' : P ++ encFields 0x12 (s :: rest) ++ S
        = (P ++ encField 0x12 s) ++ encFields 0x12 rest ++ S := by simp [encFields]
    have e1 : fuel + (s :: rest).length = (fuel + rest.length) + 1 := by simp; omega
    rw [e1]
    have step := Precompiles_unmarshalLoop_dynamic P s (encFields 0x12 rest ++ S)
      (fuel + rest.length) m (by rw [← hD]; exact hlen)
    rw [← hD] at step
    rw [step]
    have e2 : P.length + (encField 0x12 s).length = (P ++ encField 0x12 s).length := by simp
    have next := ih (P ++ encField 0x12 s) S fuel { m with Dynamic := m.Dynamic ++ [s] }
      (by rw [← hD']; exact hlen)
    rw [← hD'] at next
    rw [e2, next]
    simp [encFields, Nat.add_assoc]

theorem Precompiles_unmarshalLoop_end (dAtA : Bytes) (fuel : Nat) (m : Precompiles) :
    Precompiles.unmarshalLoop dAtA fuel dAtA.length m = .ok m := by
  cases fuel with
  | zero => simp [Precompiles.unmarshalLoop, finish]
  | succ n => simp [Precompiles.unmarshalLoop, finish]

theorem encFields_length_ge (tag : Byte) (ss : List Bytes) :
    ss.length ≤ (encFields tag ss).length := by
  induction ss with
  | nil => simp
  | cons s rest ih =>
    simp only [encFields, List.length_append, List.length_cons, encField]
    omega

/-- `Precompiles.Unmarshal` into a receiver `m0` appends the strings of the wire
form to the lists of `m0`. -/
theorem Precompiles_Unmarshal_enc (m m0 : Precompiles) (hlen : m.enc.length < 2 ^ 63) :
    Precompiles.Unmarshal m0 m.enc
      = .ok { Native := m0.Native ++ m.Native, Dynamic := m0.Dynamic ++ m.Dynamic } := by
  unfold Precompiles.Unmarshal
  have hn := encFields_length_ge 0xa m.Native
  have hd := encFields_length_ge 0x12 m.Dynamic
  obtain ⟨k, hk⟩ : ∃ k, m.enc.length = (k + m.Dynamic.length) + m.Native.length :=
    ⟨m.enc.length - m.Dynamic.length - m.Native.length, by
      simp only [Precompiles.enc, List.length_append]; omega⟩
  rw [hk]
  have a := Precompiles_unmarshalLoop_natives m.Native [] (encFields 0x12 m.Dynamic)
    (k + m.Dynamic.length) m0 (by simpa [Precompiles.enc] using hlen)
  simp only [List.nil_append, List.length_nil, Nat.zero_add] at a
  have b := Precompiles_unmarshalLoop_dynamics m.Dynamic (encFields 0xa m.Native) [] k
    { m0 with Native := m0.Native ++ m.Native } (by simpa [Precompiles.enc] using hlen)
  simp only [List.append_nil] at b
  have c := Precompiles_unmarshalLoop_end m.enc k
    { Native := m0.Native ++ m.Native, Dynamic := m0.Dynamic ++ m.Dynamic }
  simp only [Precompiles.enc, List.length_append] at a b c ⊢
  rw [a, b, c]

/-! ### Params -/

theorem Params_MarshalToSizedBuffer_append (m : Params) (P X : Bytes)
    (hX : X.length = m.enc.length) :
    m.MarshalToSizedBuffer (P ++ X) = .ok (P ++ m.enc, ((m.enc.length : Nat) : Int)) := by
  obtain ⟨b⟩ := m
  cases b with
  | false =>
    simp only [Params.enc, Bool.false_eq_true, if_false, List.length_nil,
      List.length_eq_zero] at hX
    subst hX
    simp [Params.MarshalToSizedBuffer, Params.enc]
  | true =>
    simp only [Params.enc, if_true, List.length_cons, List.length_nil] at hX
    match X, hX with
    | [x1, x2], _ =>
      unfold Params.MarshalToSizedBuffer
      simp only [if_true, Params.enc]
      have e1 : (((P ++ [x1, x2]).length : Nat) : Int) - 1 = (((P ++ [x1]).length : Nat) : Int) := by
        simp only [List.length_append, List.length_cons, List.length_nil]
        push_cast
        omega
      have e2 : P ++ [x1, x2] = (P ++ [x1]) ++ x2 :: [] := by simp
      rw [e1, e2, setByte_append, bind_ok]
      have e3 : (((P ++ [x1]).length : Nat) : Int) - 1 = ((P.length : Nat) : Int) := by
        simp only [List.length_append, List.length_cons, List.length_nil]
        push_cast
        omega
      have e4 : P ++ [x1] ++ [(1 : Byte)] = P ++ x1 :: [1] := by simp
      simp only [e3]
      rw [e4, setByte_append, bind_ok]
      simp only [List.length_append, List.length_cons, List.length_nil]
      congr 2
      push_cast
      omega

theorem Params_Size_eq_enc_length (m : Params) : m.Size = ((m.enc.length : Nat) : Int) := by
  obtain ⟨b⟩ := m
  cases b <;> rfl

theorem Params_Marshal_eq (m : Params) : m.Marshal = .ok m.enc := by
  obtain ⟨b⟩ := m
  cases b <;> rfl

theorem Params_Unmarshal_enc (m : Params) : Params.Unmarshal ⟨false⟩ m.enc = .ok m := by
  obtain ⟨b⟩ := m
  cases b <;> rfl

/-! ### Sample encodings -/

theorem Precompiles_Marshal_sample :
    (Precompiles.mk [[0x30, 0x78], []] [[255, 0]]).Marshal
      = .ok [0xa, 2, 0x30, 0x78, 0xa, 0, 0x12, 2, 255, 0] := by decide

theorem Precompiles_Unmarshal_sample :
    Precompiles.Unmarshal ⟨[], []⟩ [0xa, 2, 0x30, 0x78, 0xa, 0, 0x12, 2, 255, 0]
      = .ok (Precompiles.mk [[0x30, 0x78], []] [[255, 0]]) := by decide

theorem Precompiles_Unmarshal_truncated :
    Precompiles.Unmarshal ⟨[], []⟩ [0xa, 2, 0x30] = .error .ErrUnexpectedEOF := by decide

theorem Precompiles_Unmarshal_unknown_field :
    Precompiles.Unmarshal ⟨[], []⟩ [0x20, 0x85, 0x01, 0xa, 0]
      = .ok (Precompiles.mk [[]] []) := by decide

theorem sovGenesis_samples :
    sovGenesis 0 = 1 ∧ sovGenesis 127 = 1 ∧ sovGenesis 128 = 2 ∧ sovGenesis 16384 = 3 ∧
    sovGenesis (2 ^ 64 - 1) = 10 := by decide

/-- C9: for both values of `EnableErc20`, `Marshal` succeeds, giving the empty
byte string when the flag is false and the two bytes 0x08 0x01 when it is true,
and `Unmarshal` of that output into a zero-valued `Params` succeeds and yields
the original message. -/
theorem Params_roundtrip (p : Params) :
    p.Marshal = .ok (if p.EnableErc20 then [0x08, 0x01] else []) ∧
    ∃ bz, p.Marshal = .ok bz ∧ Params.Unmarshal ⟨false⟩ bz = .ok p :=
  ⟨Params_Marshal_eq p, p.enc, Params_Marshal_eq p, Params_Unmarshal_enc p⟩

/-- C8: for every `Precompiles` value whose encoded size fits a Go `int` (as the
size of every value held in memory does), `Marshal` succeeds, and `Unmarshal` of
its output into a zero-valued `Precompiles` succeeds and yields the same
`Native` and `Dynamic` lists, element for element and in the same order. -/
theorem Precompiles_roundtrip (m : Precompiles) (h : m.Size < 2 ^ 63) :
    ∃ bz, m.Marshal = .ok bz ∧ Precompiles.Unmarshal ⟨[], []⟩ bz = .ok m := by
  refine ⟨m.enc, Precompiles_Marshal_eq m h, ?_⟩
  have hlen : m.enc.length < 2 ^ 63 := by
    have := Precompiles_Size_eq_enc_length m h
    omega
  rw [Precompiles_Unmarshal_enc m ⟨[], []⟩ hlen]
  simp

/-- Witness for C8: two native entries (one of them empty) and one dynamic entry
holding the bytes 0xff 0x00. -/
theorem Precompiles_roundtrip_witness :
    (Precompiles.mk [[0x30, 0x78], []] [[255, 0]]).Size < 2 ^ 63 ∧
    ∃ bz, (Precompiles.mk [[0x30, 0x78], []] [[255, 0]]).Marshal = .ok bz ∧
      Precompiles.Unmarshal ⟨[], []⟩ bz = .ok (Precompiles.mk [[0x30, 0x78], []] [[255, 0]]) :=
  ⟨by decide, Precompiles_roundtrip (Precompiles.mk [[0x30, 0x78], []] [[255, 0]]) (by decide)⟩

/-! ### Marshal of GenesisState -/

/-- The block of a nested message fills the free bytes in front of the written
part with tag, length and the bytes the callee writes. -/
theorem marshalNested_append (f : Bytes → Except Err (Bytes × Int)) (tag : Byte) (n : Nat)
    (good : Bytes → Prop) (hn : n < 2 ^ 64)
    (hf : ∀ Q Z : Bytes, Z.length = n →
      ∃ Y : Bytes, Y.length = n ∧ good Y ∧ f (Q ++ Z) = .ok (Q ++ Y, (n : Int)))
    (P X S : Bytes) (hX : X.length = 1 + sovGenesis n + n) :
    ∃ Y : Bytes, Y.length = n ∧ good Y ∧
      marshalNested f tag (P ++ X ++ S) ((P.length + X.length : Nat) : Int)
        = .ok (P ++ encField tag Y ++ S, (P.length : Int)) := by
  obtain ⟨X1, Z, rfl, hX1, hZ⟩ := exists_split X (1 + sovGenesis n) n hX
  obtain ⟨T, V, rfl, hT, hV⟩ := exists_split X1 1 (sovGenesis n) hX1
  obtain ⟨Y, hY, hgood, hfY⟩ := hf (P ++ T ++ V) Z hZ
  refine ⟨Y, hY, hgood, ?_⟩
  match T, hT with
  | [t], _ =>
    unfold marshalNested
    have e0 : ((P.length + ([t] ++ V ++ Z).length : Nat) : Int)
        = (((P ++ ([t] ++ V ++ Z)).length : Nat) : Int) := by
      simp only [List.length_append]
    rw [e0, sliceTo_append, bind_ok]
    have e1 : P ++ ([t] ++ V ++ Z) = (P ++ [t] ++ V) ++ Z := by simp
    rw [e1, hfY, bind_ok]
    simp only [Int.toNat_ofNat]
    rw [List.drop_left']
    swap
    · rfl
    have e2 : (((P ++ [t] ++ V ++ Z).length : Nat) : Int) - (n : Int)
        = (((P ++ [t]).length + V.length : Nat) : Int) := by
      simp only [List.length_append, List.length_singleton]
      push_cast
      omega
    have e3 : P ++ [t] ++ V ++ Y ++ S = (P ++ [t]) ++ V ++ (Y ++ S) := by simp
    rw [e2, e3, toUint64_natCast _ hn, encodeVarintGenesis_append n hn _ V _ hV, bind_ok]
    have e5 : (((P ++ [t]).length : Nat) : Int) - 1 = (P.length : Int) := by
      simp only [List.length_append, List.length_singleton]
      push_cast
      omega
    have e6 : P ++ [t] ++ varintEnc n ++ (Y ++ S) = P ++ t :: (varintEnc n ++ (Y ++ S)) := by
      simp
    simp only [e5]
    rw [e6, setByte_append, bind_ok]
    congr 2
    simp [encField, hY]

theorem tpLen_append {TP : Type} (c : TokenPairCodec TP) (a b : List TP) :
    tpLen c (a ++ b) = tpLen c a + tpLen c b := by
  induction a with
  | nil => simp [tpLen]
  | cons e rest ih =>
    have h : tpLen c (e :: rest ++ b)
        = (1 + sovGenesis (c.Size e).toNat + (c.Size e).toNat) + tpLen c (rest ++ b) := rfl
    rw [h, ih]
    simp only [tpLen]
    omega

theorem tpLen_reverse {TP : Type} (c : TokenPairCodec TP) (a : List TP) :
    tpLen c a.reverse = tpLen c a := by
  induction a with
  | nil => rfl
  | cons e rest ih =>
    rw [List.reverse_cons, tpLen_append, ih]
    simp only [tpLen]
    omega

theorem marshalTokenPairs_append {TP : Type} (c : TokenPairCodec TP) (hc : c.Lawful) :
    ∀ (rs : List TP) (P X S : Bytes),
    (∀ e ∈ rs, c.Size e < 2 ^ 64) →
    X.length = tpLen c rs →
    ∃ Ys : List Bytes, List.Forall₂ (Written c) rs.reverse Ys ∧
      marshalTokenPairs c rs (P ++ X ++ S) ((P.length + X.length : Nat) : Int)
        = .ok (P ++ encFields 0x12 Ys ++ S, (P.length : Int)) := by
  intro rs
  induction rs with
  | nil =>
    intro P X S _ hX
    simp only [tpLen, List.length_eq_zero] at hX
    subst hX
    exact ⟨[], by simp, by simp [marshalTokenPairs, encFields]⟩
  | cons e rest ih =>
    intro P X S hlen hX
    simp only [tpLen] at hX
    rw [Nat.add_comm] at hX
    obtain ⟨X1, X2, rfl, hX1, hX2⟩ := exists_split X _ _ hX
    have he : c.Size e < 2 ^ 64 := hlen e (List.mem_cons_self _ _)
    obtain ⟨h0, hw⟩ := hc e
    have hn : (c.Size e).toNat < 2 ^ 64 := by omega
    have hcast : (((c.Size e).toNat : Nat) : Int) = c.Size e := Int.toNat_of_nonneg h0
    obtain ⟨Y, hY, ⟨hYs, hYu⟩, hres⟩ :=
      marshalNested_append (c.MarshalToSizedBuffer e) 0x12 (c.Size e).toNat
        (fun Y => (Y.length : Int) = c.Size e ∧ c.Unmarshal Y = .ok e) hn
        (by
          intro Q Z hZ
          obtain ⟨Y, hY1, hY2, hY3⟩ := hw Q Z (by rw [hZ, hcast])
          exact ⟨Y, by omega, ⟨by rw [hY1, hZ, hcast], hY3⟩, by rw [hY2, hcast]⟩)
        (P ++ X1) X2 S hX2
    have a1 : P ++ (X1 ++ X2) ++ S = (P ++ X1) ++ X2 ++ S := by simp
    have a2 : ((P.length + (X1 ++ X2).length : Nat) : Int)
        = (((P ++ X1).length + X2.length : Nat) : Int) := by
      simp only [List.length_append, Nat.add_assoc]
    obtain ⟨Ys, hYs2, hrest⟩ := ih P X1 (encField 0x12 Y ++ S)
      (fun x hx => hlen x (List.mem_cons_of_mem _ hx)) hX1
    refine ⟨Ys ++ [Y], ?_, ?_⟩
    · rw [List.reverse_cons]
      exact List.rel_append hYs2 (List.Forall₂.cons ⟨hYs, hYu⟩ List.Forall₂.nil)
    · rw [marshalTokenPairs, a1, a2, hres, bind_ok]
      have a3 : P ++ X1 ++ encField 0x12 Y ++ S = P ++ X1 ++ (encField 0x12 Y ++ S) := by simp
      have a4 : (((P ++ X1).length : Nat) : Int) = ((P.length + X1.length : Nat) : Int) := by
        simp only [List.length_append]
      simp only
      rw [a3, a4, hrest]
      simp [encFields_append, encFields_singleton]

theorem marshalTokenPairs_guard {TP : Type} (c : TokenPairCodec TP) (l : List TP)
    (r : Bytes × Int) :
    (if l.length > 0 then marshalTokenPairs c l.reverse r.1 r.2 else .ok r)
      = marshalTokenPairs c l.reverse r.1 r.2 := by
  cases l with
  | nil => simp [marshalTokenPairs]
  | cons s rest => simp

theorem sizeTokenPairs_eq {TP : Type} (c : TokenPairCodec TP) (hc : c.Lawful) :
    ∀ (es : List TP) (n : Int), (∀ e ∈ es, c.Size e < 2 ^ 64) →
    sizeTokenPairs c es n = n + ((tpLen c es : Nat) : Int) := by
  intro es
  induction es with
  | nil => intro n _; simp [sizeTokenPairs, tpLen]
  | cons e rest ih =>
    intro n hlen
    have he : c.Size e < 2 ^ 64 := hlen e (List.mem_cons_self _ _)
    obtain ⟨h0, _⟩ := hc e
    have hcast : (((c.Size e).toNat : Nat) : Int) = c.Size e := Int.toNat_of_nonneg h0
    have hu : toUint64 (c.Size e) = (c.Size e).toNat := by
      rw [← hcast, toUint64_natCast _ (by omega), hcast]
    simp only [sizeTokenPairs, tpLen]
    rw [ih _ (fun x hx => hlen x (List.mem_cons_of_mem _ hx)), hu]
    push_cast
    omega

theorem sizeTokenPairs_guard {TP : Type} (c : TokenPairCodec TP) (l : List TP) (n : Int) :
    (if l.length > 0 then sizeTokenPairs c l n else n) = sizeTokenPairs c l n := by
  cases l with
  | nil => simp [sizeTokenPairs]
  | cons s rest => simp

theorem sizeTokenPairs_mono {TP : Type} (c : TokenPairCodec TP) (hc : c.Lawful) :
    ∀ (es : List TP) (n : Int), n ≤ sizeTokenPairs c es n := by
  intro es
  induction es with
  | nil => intro n; simp [sizeTokenPairs]
  | cons e rest ih =>
    intro n
    obtain ⟨h0, _⟩ := hc e
    simp only [sizeTokenPairs]
    have := ih (n + (1 + c.Size e + (sovGenesis (toUint64 (c.Size e)) : Int)))
    omega

theorem sizeTokenPairs_bound {TP : Type} (c : TokenPairCodec TP) (hc : c.Lawful) :
    ∀ (es : List TP) (n : Int), 0 ≤ n → ∀ e ∈ es, c.Size e < sizeTokenPairs c es n := by
  intro es
  induction es with
  | nil => intro n _ e he; cases he
  | cons a rest ih =>
    intro n hn e he
    obtain ⟨h0, _⟩ := hc a
    simp only [sizeTokenPairs]
    rcases List.mem_cons.1 he with rfl | hmem
    · have := sizeTokenPairs_mono c hc rest
        (n + (1 + c.Size e + (sovGenesis (toUint64 (c.Size e)) : Int)))
      omega
    · exact ih _ (by omega) e hmem

theorem GenesisState_Size_unfold {TP : Type} (c : TokenPairCodec TP) (m : GenesisState TP) :
    GenesisState.Size c m =
      sizeTokenPairs c m.TokenPairs
        (0 + (1 + m.Params.Size + (sovGenesis (toUint64 m.Params.Size) : Int)))
      + (1 + m.Precompiles.Size + (sovGenesis (toUint64 m.Precompiles.Size) : Int)) := by
  simp only [GenesisState.Size, sizeTokenPairs_guard]

theorem Precompiles_Size_nonneg (m : Precompiles) : 0 ≤ m.Size := by
  rw [Precompiles_Size_eq]
  have h0 := sizeStrings_mono m.Native 0
  have h1 := sizeStrings_mono m.Dynamic (sizeStrings m.Native 0)
  omega

theorem Params_Size_nonneg (m : Params) : 0 ≤ m.Size := by
  rw [Params_Size_eq_enc_length]
  omega

/-- Consequences of a size that fits an `int`: the parts fit too, and the size
is the number of bytes of the wire form. -/
theorem GenesisState_Size_facts {TP : Type} (c : TokenPairCodec TP) (hc : c.Lawful)
    (m : GenesisState TP) (h : GenesisState.Size c m < 2 ^ 63) :
    m.Precompiles.Size < 2 ^ 63 ∧ (∀ e ∈ m.TokenPairs, c.Size e < 2 ^ 63) ∧
    GenesisState.Size c m =
      (((encField 0xa m.Params.enc).length + tpLen c m.TokenPairs
        + (encField 0x1a m.Precompiles.enc).length : Nat) : Int) := by
  rw [GenesisState_Size_unfold] at h ⊢
  have hp0 := Params_Size_nonneg m.Params
  have hq0 := Precompiles_Size_nonneg m.Precompiles
  have hmono := sizeTokenPairs_mono c hc m.TokenPairs
    (0 + (1 + m.Params.Size + (sovGenesis (toUint64 m.Params.Size) : Int)))
  have hpre : m.Precompiles.Size < 2 ^ 63 := by omega
  have htp : ∀ e ∈ m.TokenPairs, c.Size e < 2 ^ 63 := by
    intro e he
    have := sizeTokenPairs_bound c hc m.TokenPairs
      (0 + (1 + m.Params.Size + (sovGenesis (toUint64 m.Params.Size) : Int))) (by omega) e he
    omega
  refine ⟨hpre, htp, ?_⟩
  have e1 := Precompiles_Size_eq_enc_length m.Precompiles hpre
  have e2 := Params_Size_eq_enc_length m.Params
  have hl1 : m.Params.enc.length < 2 ^ 64 := by omega
  have hl2 : m.Precompiles.enc.length < 2 ^ 64 := by omega
  rw [sizeTokenPairs_eq c hc _ _ (fun e he => by have := htp e he; omega), e1, e2,
    toUint64_natCast _ hl1, toUint64_natCast _ hl2, encField_length, encField_length]
  push_cast
  omega

theorem Params_enc_length_le (m : Params) : m.enc.length ≤ 2 := by
  obtain ⟨b⟩ := m
  cases b <;> simp [Params.enc]

theorem encFields_length_written {TP : Type} (c : TokenPairCodec TP) (Ys : List Bytes)
    (es : List TP) (h : List.Forall₂ (Written c) es Ys) :
    (encFields 0x12 Ys).length = tpLen c es := by
  induction h with
  | nil => rfl
  | @cons e Y es' Ys' hw _ ih =>
    obtain ⟨hlen, _⟩ := hw
    have : (c.Size e).toNat = Y.length := by omega
    simp only [encFields, tpLen, List.length_append, encField_length, ih, this]

/-- `GenesisState.MarshalToSizedBuffer` fills the last `Size()` bytes of the
buffer with the wire form and returns that count. -/
theorem GenesisState_MarshalToSizedBuffer_append {TP : Type} (c : TokenPairCodec TP)
    (hc : c.Lawful) (m : GenesisState TP) (h : GenesisState.Size c m < 2 ^ 63)
    (P X : Bytes) (hX : (X.length : Int) = GenesisState.Size c m) :
    ∃ Ys : List Bytes, List.Forall₂ (Written c) m.TokenPairs Ys ∧
      GenesisState.MarshalToSizedBuffer c m (P ++ X)
        = .ok (P ++ m.enc Ys, ((m.enc Ys).length : Int)) ∧
      (m.enc Ys).length = X.length := by
  obtain ⟨hpre, htp, hsz⟩ := GenesisState_Size_facts c hc m h
  obtain ⟨hn, hd⟩ := Precompiles_lengths_lt m.Precompiles hpre
  have hn' : ∀ s ∈ m.Precompiles.Native, s.length < 2 ^ 64 :=
    fun s hs => by have := hn s hs; omega
  have hd' : ∀ s ∈ m.Precompiles.Dynamic, s.length < 2 ^ 64 :=
    fun s hs => by have := hd s hs; omega
  have e1 := Precompiles_Size_eq_enc_length m.Precompiles hpre
  have e2 := Params_Size_eq_enc_length m.Params
  have hp0 := Params_Size_nonneg m.Params
  have hXn : X.length = ((encField 0xa m.Params.enc).length + tpLen c m.TokenPairs)
      + (encField 0x1a m.Precompiles.enc).length := by
    rw [hsz] at hX
    exact_mod_cast hX
  have hl1 : m.Params.enc.length < 2 ^ 64 := by
    have := Params_enc_length_le m.Params
    omega
  obtain ⟨X12, X3, rfl, hX12, hX3⟩ := exists_split X _ _ hXn
  obtain ⟨X1, X2, rfl, hX1, hX2⟩ := exists_split X12 _ _ hX12
  rw [encField_length] at hX3 hX1
  -- the precompiles block
  obtain ⟨Y3, _, hY3, hres3⟩ :=
    marshalNested_append m.Precompiles.MarshalToSizedBuffer 0x1a m.Precompiles.enc.length
      (fun Y => Y = m.Precompiles.enc) (by omega)
      (fun Q Z hZ => ⟨m.Precompiles.enc, rfl, rfl,
        Precompiles_MarshalToSizedBuffer_append m.Precompiles hn' hd' Q Z hZ⟩)
      (P ++ (X1 ++ X2)) X3 [] hX3
  subst hY3
  -- the token pairs
  obtain ⟨Ys, hYs, hres2⟩ := marshalTokenPairs_append c hc m.TokenPairs.reverse (P ++ X1) X2
    (encField 0x1a m.Precompiles.enc)
    (fun e he => by have := htp e (List.mem_reverse.1 he); omega)
    (by rw [tpLen_reverse]; exact hX2)
  rw [List.reverse_reverse] at hYs
  -- the params block
  obtain ⟨Y1, _, hY1, hres1⟩ :=
    marshalNested_append m.Params.MarshalToSizedBuffer 0xa m.Params.enc.length
      (fun Y => Y = m.Params.enc) (by omega)
      (fun Q Z hZ => ⟨m.Params.enc, rfl, rfl,
        Params_MarshalToSizedBuffer_append m.Params Q Z hZ⟩)
      P X1 (encFields 0x12 Ys ++ encField 0x1a m.Precompiles.enc) hX1
  subst hY1
  have hYlen : (encFields 0x12 Ys).length = X2.length := by
    rw [hX2]
    exact encFields_length_written c Ys m.TokenPairs hYs
  refine ⟨Ys, hYs, ?_, ?_⟩
  · unfold GenesisState.MarshalToSizedBuffer
    have b1 : P ++ (X1 ++ X2 ++ X3) = (P ++ (X1 ++ X2)) ++ X3 ++ [] := by simp
    have b2 : (((P ++ (X1 ++ X2 ++ X3)).length : Nat) : Int)
        = (((P ++ (X1 ++ X2)).length + X3.length : Nat) : Int) := by
      simp only [List.length_append, Nat.add_assoc]
    simp only [marshalTokenPairs_guard]
    rw [b2, b1, hres3, bind_ok]
    simp only
    have b3 : P ++ (X1 ++ X2) ++ encField 0x1a m.Precompiles.enc ++ []
        = (P ++ X1) ++ X2 ++ encField 0x1a m.Precompiles.enc := by simp
    have b4 : (((P ++ (X1 ++ X2)).length : Nat) : Int)
        = (((P ++ X1).length + X2.length : Nat) : Int) := by
      simp only [List.length_append, Nat.add_assoc]
    rw [b3, b4, hres2, bind_ok]
    simp only
    have b5 : P ++ X1 ++ encFields 0x12 Ys ++ encField 0x1a m.Precompiles.enc
        = P ++ X1 ++ (encFields 0x12 Ys ++ encField 0x1a m.Precompiles.enc) := by simp
    have b6 : (((P ++ X1).length : Nat) : Int) = ((P.length + X1.length : Nat) : Int) := by
      simp only [List.length_append]
    rw [b5, b6, hres1, bind_ok]
    simp only [GenesisState.enc, List.length_append, List.append_assoc]
    congr 2
    push_cast
    omega
  · simp only [GenesisState.enc, List.length_append, hYlen, encField_length]
    omega

/-- `GenesisState.Marshal` returns the wire form, for some bytes written for the
token pairs that decode back to them. -/
theorem GenesisState_Marshal_eq {TP : Type} (c : TokenPairCodec TP) (hc : c.Lawful)
    (m : GenesisState TP) (h : GenesisState.Size c m < 2 ^ 63) :
    ∃ Ys : List Bytes, List.Forall₂ (Written c) m.TokenPairs Ys ∧
      GenesisState.Marshal c m = .ok (m.enc Ys) ∧ (m.enc Ys).length < 2 ^ 63 := by
  obtain ⟨_, _, hsz⟩ := GenesisState_Size_facts c hc m h
  have h0 : 0 ≤ GenesisState.Size c m := by rw [hsz]; omega
  have hcast : (((GenesisState.Size c m).toNat : Nat) : Int) = GenesisState.Size c m :=
    Int.toNat_of_nonneg h0
  obtain ⟨Ys, hYs, hres, hl⟩ := GenesisState_MarshalToSizedBuffer_append c hc m h []
    (List.replicate (GenesisState.Size c m).toNat 0) (by simp [hcast])
  refine ⟨Ys, hYs, ?_, ?_⟩
  · unfold GenesisState.Marshal
    simp only
    have s1 := sliceTo_replicate (GenesisState.Size c m).toNat
    rw [hcast] at s1
    rw [s1, bind_ok]
    simp only [List.nil_append] at hres
    rw [hres, bind_ok]
    simp only [List.drop_replicate, Nat.sub_self, List.replicate_zero, List.append_nil]
    have := sliceTo_append (m.enc Ys) []
    simpa using this
  · simp only [List.length_replicate] at hl
    omega

/-! ### Unmarshal of GenesisState -/

theorem GenesisState_unmarshalLoop_params {TP : Type} (c : TokenPairCodec TP) (P Y S : Bytes)
    (fuel : Nat) (m : GenesisState TP) (p : Erc20Genesis.Params) (hY : m.Params.Unmarshal Y = .ok p)
    (hlen : (P ++ encField 0xa Y ++ S).length < 2 ^ 63) :
    GenesisState.unmarshalLoop c (P ++ encField 0xa Y ++ S) (fuel + 1) P.length m
      = GenesisState.unmarshalLoop c (P ++ encField 0xa Y ++ S) fuel
          (P.length + (encField 0xa Y).length) { m with Params := p } := by
  obtain ⟨h1, h2, h3, h4⟩ := field_reads 0xa tag_0a.1 (by rw [tag_0a.2.1]; decide)
    (by rw [tag_0a.2.2]; decide) P Y S hlen
  rw [tag_0a.2.1, tag_0a.2.2] at h2
  generalize P ++ encField 0xa Y ++ S = D at *
  rw [GenesisState.unmarshalLoop, if_pos h1, h2, bind_ok]
  simp only
  rw [if_neg (by decide), h3, bind_ok]
  simp only
  rw [h4, bind_ok, hY, bind_ok]

theorem GenesisState_unmarshalLoop_tokenPair {TP : Type} (c : TokenPairCodec TP)
    (P Y S : Bytes) (fuel : Nat) (m : GenesisState TP) (e : TP) (hY : c.Unmarshal Y = .ok e)
    (hlen : (P ++ encField 0x12 Y ++ S).length < 2 ^ 63) :
    GenesisState.unmarshalLoop c (P ++ encField 0x12 Y ++ S) (fuel + 1) P.length m
      = GenesisState.unmarshalLoop c (P ++ encField 0x12 Y ++ S) fuel
          (P.length + (encField 0x12 Y).length) { m with TokenPairs := m.TokenPairs ++ [e] } := by
  obtain ⟨h1, h2, h3, h4⟩ := field_reads 0x12 tag_12.1 (by rw [tag_12.2.1]; decide)
    (by rw [tag_12.2.2]; decide) P Y S hlen
  rw [tag_12.2.1, tag_12.2.2] at h2
  generalize P ++ encField 0x12 Y ++ S = D at *
  rw [GenesisState.unmarshalLoop, if_pos h1, h2, bind_ok]
  simp only
  rw [if_neg (by decide), h3, bind_ok]
  simp only
  rw [h4, bind_ok, hY, bind_ok]

theorem GenesisState_unmarshalLoop_precompiles {TP : Type} (c : TokenPairCodec TP)
    (P Y S : Bytes) (fuel : Nat) (m : GenesisState TP) (p : Erc20Genesis.Precompiles)
    (hY : m.Precompiles.Unmarshal Y = .ok p)
    (hlen : (P ++ encField 0x1a Y ++ S).length < 2 ^ 63) :
    GenesisState.unmarshalLoop c (P ++ encField 0x1a Y ++ S) (fuel + 1) P.length m
      = GenesisState.unmarshalLoop c (P ++ encField 0x1a Y ++ S) fuel
          (P.length + (encField 0x1a Y).length) { m with Precompiles := p } := by
  obtain ⟨h1, h2, h3, h4⟩ := field_reads 0x1a tag_1a.1 (by rw [tag_1a.2.1]; decide)
    (by rw [tag_1a.2.2]; decide) P Y S hlen
  rw [tag_1a.2.1, tag_1a.2.2] at h2
  generalize P ++ encField 0x1a Y ++ S = D at *
  rw [GenesisState.unmarshalLoop, if_pos h1, h2, bind_ok]
  simp only
  rw [if_neg (by decide), h3, bind_ok]
  simp only
  rw [h4, bind_ok, hY, bind_ok]

theorem GenesisState_unmarshalLoop_tokenPairs {TP : Type} (c : TokenPairCodec TP)
    (es : List TP) (Ys : List Bytes) (h : List.Forall₂ (Written c) es Ys) :
    ∀ (P S : Bytes) (fuel : Nat) (m : GenesisState TP),
    (P ++ encFields 0x12 Ys ++ S).length < 2 ^ 63 →
    GenesisState.unmarshalLoop c (P ++ encFields 0x12 Ys ++ S) (fuel + Ys.length) P.length m
      = GenesisState.unmarshalLoop c (P ++ encFields 0x12 Ys ++ S) fuel
          (P.length + (encFields 0x12 Ys).length)
          { m with TokenPairs := m.TokenPairs ++ es } := by
  induction h with
  | nil => intro P S fuel m _; simp [encFields]
  | @cons e Y es' Ys' hw _ ih =>
    intro P S fuel m hlen
    have hD : P ++ encFields 0x12 (Y :: Ys') ++ S
        = P ++ encField 0x12 Y ++ (encFields 0x12 Ys' ++ S) := by simp [encFields]
    have hD' : P ++ encFields 0x12 (Y :: Ys') ++ S
        = (P ++ encField 0x12 Y) ++ encFields 0x12 Ys' ++ S := by simp [encFields]
    have e1 : fuel + (Y :: Ys').length = (fuel + Ys'.length) + 1 := by simp; omega
    rw [e1]
    have step := GenesisState_unmarshalLoop_tokenPair c P Y (encFields 0x12 Ys' ++ S)
      (fuel + Ys'.length) m e hw.2 (by rw [← hD]; exact hlen)
    rw [← hD] at step
    rw [step]
    have e2 : P.length + (encField 0x12 Y).length = (P ++ encField 0x12 Y).length := by simp
    have next := ih (P ++ encField 0x12 Y) S fuel { m with TokenPairs := m.TokenPairs ++ [e] }
      (by rw [← hD']; exact hlen)
    rw [← hD'] at next
    rw [e2, next]
    simp [encFields, Nat.add_assoc]

theorem GenesisState_unmarshalLoop_end {TP : Type} (c : TokenPairCodec TP) (dAtA : Bytes)
    (fuel : Nat) (m : GenesisState TP) :
    GenesisState.unmarshalLoop c dAtA fuel dAtA.length m = .ok m := by
  cases fuel with
  | zero => simp [GenesisState.unmarshalLoop, finish]
  | succ n => simp [GenesisState.unmarshalLoop, finish]

/-- `GenesisState.Unmarshal` of the wire form into the zero value yields the
message. -/
theorem GenesisState_Unmarshal_enc {TP : Type} (c : TokenPairCodec TP) (m : GenesisState TP)
    (Ys : List Bytes) (hYs : List.Forall₂ (Written c) m.TokenPairs Ys)
    (hlen : (m.enc Ys).length < 2 ^ 63) :
    GenesisState.Unmarshal c (GenesisState.zero TP) (m.enc Ys) = .ok m := by
  unfold GenesisState.Unmarshal
  have hl : (m.enc Ys).length
      = (encField 0xa m.Params.enc).length + (encFields 0x12 Ys).length
        + (encField 0x1a m.Precompiles.enc).length := by
    simp only [GenesisState.enc, List.length_append]
  have hge := encFields_length_ge 0x12 Ys
  have hpre : m.Precompiles.enc.length < 2 ^ 63 := by
    rw [hl] at hlen
    simp only [encField, List.length_cons, List.length_append] at hlen
    omega
  obtain ⟨k, hk⟩ : ∃ k, (m.enc Ys).length = ((k + 1) + Ys.length) + 1 :=
    ⟨(m.enc Ys).length - Ys.length - 2, by
      rw [hl]
      simp only [encField, List.length_cons, List.length_append]
      omega⟩
  have hfuel : (m.enc Ys).length = ((k + 1) + Ys.length) + 1 := hk
  have hshape : m.enc Ys = [] ++ encField 0xa m.Params.enc
      ++ (encFields 0x12 Ys ++ encField 0x1a m.Precompiles.enc) := by
    simp [GenesisState.enc]
  have a := GenesisState_unmarshalLoop_params c [] m.Params.enc
    (encFields 0x12 Ys ++ encField 0x1a m.Precompiles.enc) ((k + 1) + Ys.length)
    (GenesisState.zero TP) m.Params (Params_Unmarshal_enc m.Params)
    (by rw [← hshape]; exact hlen)
  rw [← hshape] at a
  have hshape2 : m.enc Ys = encField 0xa m.Params.enc ++ encFields 0x12 Ys
      ++ encField 0x1a m.Precompiles.enc := rfl
  have b := GenesisState_unmarshalLoop_tokenPairs c m.TokenPairs Ys hYs
    (encField 0xa m.Params.enc) (encField 0x1a m.Precompiles.enc) (k + 1)
    { GenesisState.zero TP with Params := m.Params } (by rw [← hshape2]; exact hlen)
  rw [← hshape2] at b
  have hshape3 : m.enc Ys = (encField 0xa m.Params.enc ++ encFields 0x12 Ys)
      ++ encField 0x1a m.Precompiles.enc ++ [] := by
    simp [GenesisState.enc]
  have d := GenesisState_unmarshalLoop_precompiles c
    (encField 0xa m.Params.enc ++ encFields 0x12 Ys) m.Precompiles.enc [] k
    { GenesisState.zero TP with Params := m.Params, TokenPairs := [] ++ m.TokenPairs }
    m.Precompiles
    (by
      have := Precompiles_Unmarshal_enc m.Precompiles ⟨[], []⟩ hpre
      simpa [GenesisState.zero] using this)
    (by rw [← hshape3]; exact hlen)
  rw [← hshape3] at d
  have e := GenesisState_unmarshalLoop_end c (m.enc Ys) k m
  rw [hfuel]
  simp only [List.length_nil, Nat.zero_add, List.length_append] at a b d
  rw [a, b]
  simp only [GenesisState.zero] at d ⊢
  rw [d]
  have hl' : (encField 0xa m.Params.enc).length + (encFields 0x12 Ys).length
      + (encField 0x1a m.Precompiles.enc).length = (m.enc Ys).length := hl.symm
  rw [hl']
  simpa using e

theorem paramsCodec_lawful : paramsCodec.Lawful := by
  intro e
  refine ⟨Params_Size_nonneg e, ?_⟩
  intro P X hX
  have hX' : X.length = e.enc.length := by
    have := Params_Size_eq_enc_length e
    simp only [paramsCodec] at hX
    omega
  refine ⟨e.enc, hX'.symm, ?_, Params_Unmarshal_enc e⟩
  simp only [paramsCodec]
  rw [Params_MarshalToSizedBuffer_append e P X hX', Params_Size_eq_enc_length]

/-- C10: assuming the `TokenPair` codec is lawful (its `MarshalToSizedBuffer`
writes exactly `Size()` bytes at the end of the buffer it is given, and
`Unmarshal` of those bytes yields the token pair again), for every
`GenesisState` whose size fits a Go `int`, `Marshal` succeeds and `Unmarshal` of
its output into a zero-valued `GenesisState` succeeds and yields the same
`Params`, the same `TokenPairs` in the same order and the same `Precompiles`. -/
theorem GenesisState_roundtrip {TP : Type} (c : TokenPairCodec TP) (hc : c.Lawful)
    (g : GenesisState TP) (h : GenesisState.Size c g < 2 ^ 63) :
    ∃ bz, GenesisState.Marshal c g = .ok bz ∧
      GenesisState.Unmarshal c (GenesisState.zero TP) bz = .ok g := by
  obtain ⟨Ys, hYs, hm, hlen⟩ := GenesisState_Marshal_eq c hc g h
  exact ⟨g.enc Ys, hm, GenesisState_Unmarshal_enc c g Ys hYs hlen⟩

/-- Witness for C10: nested messages encoded with the codec of `Params` in the
role of the token pair codec. -/
theorem GenesisState_roundtrip_witness :
    paramsCodec.Lawful ∧
    GenesisState.Size paramsCodec ⟨⟨true⟩, [⟨true⟩, ⟨false⟩], ⟨[[1, 2]], [[]]⟩⟩ < 2 ^ 63 ∧
    ∃ bz, GenesisState.Marshal paramsCodec ⟨⟨true⟩, [⟨true⟩, ⟨false⟩], ⟨[[1, 2]], [[]]⟩⟩
        = .ok bz ∧
      GenesisState.Unmarshal paramsCodec (GenesisState.zero Erc20Genesis.Params) bz
        = .ok ⟨⟨true⟩, [⟨true⟩, ⟨false⟩], ⟨[[1, 2]], [[]]⟩⟩ :=
  ⟨paramsCodec_lawful, by decide,
    GenesisState_roundtrip paramsCodec paramsCodec_lawful
      ⟨⟨true⟩, [⟨true⟩, ⟨false⟩], ⟨[[1, 2]], [[]]⟩⟩ (by decide)⟩

/-! ### No panic in Unmarshal -/

theorem NoPanic_ok {α : Type} (a : α) : NoPanic (Except.ok a : Except Err α) := by
  constructor <;> intro h <;> cases h

theorem NoPanic_bind {α β : Type} (x : Except Err α) (f : α → Except Err β)
    (hx : NoPanic x) (hf : ∀ a, x = .ok a → NoPanic (f a)) : NoPanic (x.bind f) := by
  cases x with
  | error e =>
    rw [bind_error]
    obtain ⟨h1, h2⟩ := hx
    constructor
    · intro h
      cases h
      exact h1 rfl
    · intro h
      cases h
      exact h2 rfl
  | ok a => rw [bind_ok]; exact hf a rfl

theorem toInt64_lt (n : Nat) : toInt64 n < 2 ^ 63 := by
  unfold toInt64
  have : n % 2 ^ 64 < 2 ^ 64 := Nat.mod_lt _ (by decide)
  split <;> omega

theorem wrapInt64_of_nonneg (y : Int) (h0 : 0 ≤ y) (h1 : y < 2 ^ 64) (h : 0 ≤ wrapInt64 y) :
    wrapInt64 y = y := by
  unfold wrapInt64 at h ⊢
  omega

theorem wrapInt64_lt (y : Int) : wrapInt64 y < 2 ^ 63 := by
  unfold wrapInt64
  omega

theorem readVarint_safe (dAtA : Bytes) : ∀ (fuel shift i acc : Nat),
    NoPanic (readVarint dAtA fuel shift i acc) ∧
    ∀ v j, readVarint dAtA fuel shift i acc = .ok (v, j) → i < j ∧ j ≤ dAtA.length := by
  intro fuel
  induction fuel with
  | zero =>
    intro shift i acc
    simp [readVarint, NoPanic]
  | succ fuel ih =>
    intro shift i acc
    rw [readVarint]
    by_cases hs : shift ≥ 64
    · rw [if_pos hs]
      simp [NoPanic]
    · rw [if_neg hs]
      by_cases hi : i ≥ dAtA.length
      · rw [if_pos hi]
        simp [NoPanic]
      · rw [if_neg hi]
        have hlt : i < dAtA.length := by omega
        rw [List.getElem?_eq_getElem hlt]
        simp only
        by_cases hb : (dAtA[i]).val < 0x80
        · rw [if_pos hb]
          refine ⟨NoPanic_ok _, ?_⟩
          intro v j h
          simp only [Except.ok.injEq, Prod.mk.injEq] at h
          omega
        · rw [if_neg hb]
          obtain ⟨h1, h2⟩ := ih (shift + 7) (i + 1)
            ((acc ||| ((dAtA[i]).val &&& 0x7F) <<< shift) % 2 ^ 64)
          refine ⟨h1, ?_⟩
          intro v j h
          have := h2 v j h
          omega

theorem skipVarint_safe (dAtA : Bytes) : ∀ (fuel shift i : Nat),
    NoPanic (skipVarint dAtA fuel shift i) ∧
    ∀ j, skipVarint dAtA fuel shift i = .ok j → i < j ∧ j ≤ dAtA.length := by
  intro fuel
  induction fuel with
  | zero =>
    intro shift i
    simp [skipVarint, NoPanic]
  | succ fuel ih =>
    intro shift i
    rw [skipVarint]
    by_cases hs : shift ≥ 64
    · rw [if_pos hs]
      simp [NoPanic]
    · rw [if_neg hs]
      by_cases hi : i ≥ dAtA.length
      · rw [if_pos hi]
        simp [NoPanic]
      · rw [if_neg hi]
        have hlt : i < dAtA.length := by omega
        rw [Nat.add_sub_cancel, List.getElem?_eq_getElem hlt]
        simp only
        by_cases hb : (dAtA[i]).val < 0x80
        · rw [if_pos hb]
          refine ⟨NoPanic_ok _, ?_⟩
          intro j h
          simp only [Except.ok.injEq] at h
          omega
        · rw [if_neg hb]
          obtain ⟨h1, h2⟩ := ih (shift + 7) (i + 1)
          refine ⟨h1, ?_⟩
          intro j h
          have := h2 j h
          omega

/-- Property of the loop of `skipGenesis` from index `i` on. -/
theorem skipAdvance_safe (x : Int) (depth i : Nat) (k : Nat → Except Err Int)
    (hx : 0 ≤ x → (i : Int) < x ∧ x < 2 ^ 63)
    (hk : ∀ j, i < j → NoPanic (k j) ∧ ∀ n, k j = .ok n → (i : Int) < n ∧ n < 2 ^ 63) :
    NoPanic (skipAdvance x depth k) ∧
    ∀ n, skipAdvance x depth k = .ok n → (i : Int) < n ∧ n < 2 ^ 63 := by
  unfold skipAdvance
  by_cases h0 : x < 0
  · rw [if_pos h0]
    simp [NoPanic]
  · rw [if_neg h0]
    have hx' := hx (by omega)
    by_cases hd : depth = 0
    · rw [if_pos hd]
      refine ⟨NoPanic_ok _, ?_⟩
      intro n h
      simp only [Except.ok.injEq] at h
      omega
    · rw [if_neg hd]
      exact hk x.toNat (by omega)

theorem bind_good {α β : Type} (x : Except Err α) (f : α → Except Err β) (Q : β → Prop)
    (hx : NoPanic x) (hf : ∀ a, x = .ok a → NoPanic (f a) ∧ ∀ b, f a = .ok b → Q b) :
    NoPanic (x.bind f) ∧ ∀ b, x.bind f = .ok b → Q b := by
  cases x with
  | error e =>
    rw [bind_error]
    obtain ⟨h1, h2⟩ := hx
    refine ⟨⟨?_, ?_⟩, ?_⟩
    · intro h
      cases h
      exact h1 rfl
    · intro h
      cases h
      exact h2 rfl
    · intro b h
      cases h
  | ok a =>
    rw [bind_ok]
    exact hf a rfl

theorem error_good {β : Type} (e : Err) (Q : β → Prop) (h1 : e ≠ .panic) (h2 : e ≠ .outOfFuel) :
    NoPanic (Except.error e : Except Err β) ∧
    ∀ b, (Except.error e : Except Err β) = .ok b → Q b := by
  refine ⟨⟨?_, ?_⟩, ?_⟩
  · intro h
    cases h
    exact h1 rfl
  · intro h
    cases h
    exact h2 rfl
  · intro b h
    cases h

theorem skipStep_safe (dAtA : Bytes) (hlen : dAtA.length < 2 ^ 63) (fuel i depth : Nat)
    (r : Nat × Nat) (x8 x4 : Int) (hj1 : i < r.2) (hj2 : r.2 ≤ dAtA.length)
    (h8 : 0 ≤ x8 → (i : Int) < x8 ∧ x8 < 2 ^ 63) (h4 : 0 ≤ x4 → (i : Int) < x4 ∧ x4 < 2 ^ 63)
    (hk : ∀ (d j : Nat), i < j →
      NoPanic (skipGenesisLoop dAtA fuel j d) ∧
      ∀ n, skipGenesisLoop dAtA fuel j d = .ok n → (i : Int) < n ∧ n < 2 ^ 63)
    (wt : Nat) :
    NoPanic (match wt with
      | 0 =>
        (skipVarint dAtA 10 0 r.2).bind fun iNdEx =>
          skipAdvance iNdEx depth (fun i => skipGenesisLoop dAtA fuel i depth)
      | 1 => skipAdvance x8 depth (fun i => skipGenesisLoop dAtA fuel i depth)
      | 2 =>
        (readVarint dAtA 10 0 r.2 0).bind fun r2 =>
          if toInt64 r2.1 < 0 then .error .ErrInvalidLengthGenesis
          else
            skipAdvance (wrapInt64 (r2.2 + toInt64 r2.1)) depth
              (fun i => skipGenesisLoop dAtA fuel i depth)
      | 3 => skipAdvance r.2 (depth + 1) (fun i => skipGenesisLoop dAtA fuel i (depth + 1))
      | 4 =>
        if depth = 0 then .error .ErrUnexpectedEndOfGroupGenesis
        else skipAdvance r.2 (depth - 1) (fun i => skipGenesisLoop dAtA fuel i (depth - 1))
      | 5 => skipAdvance x4 depth (fun i => skipGenesisLoop dAtA fuel i depth)
      | w => .error (.illegalWireType w)) ∧
    ∀ n, (match wt with
      | 0 =>
        (skipVarint dAtA 10 0 r.2).bind fun iNdEx =>
          skipAdvance iNdEx depth (fun i => skipGenesisLoop dAtA fuel i depth)
      | 1 => skipAdvance x8 depth (fun i => skipGenesisLoop dAtA fuel i depth)
      | 2 =>
        (readVarint dAtA 10 0 r.2 0).bind fun r2 =>
          if toInt64 r2.1 < 0 then .error .ErrInvalidLengthGenesis
          else
            skipAdvance (wrapInt64 (r2.2 + toInt64 r2.1)) depth
              (fun i => skipGenesisLoop dAtA fuel i depth)
      | 3 => skipAdvance r.2 (depth + 1) (fun i => skipGenesisLoop dAtA fuel i (depth + 1))
      | 4 =>
        if depth = 0 then .error .ErrUnexpectedEndOfGroupGenesis
        else skipAdvance r.2 (depth - 1) (fun i => skipGenesisLoop dAtA fuel i (depth - 1))
      | 5 => skipAdvance x4 depth (fun i => skipGenesisLoop dAtA fuel i depth)
      | w => .error (.illegalWireType w)) = .ok n → (i : Int) < n ∧ n < 2 ^ 63 := by
  rcases wt with _ | _ | _ | _ | _ | _ | n <;> try dsimp only
  · -- wire type 0
    obtain ⟨hs1, hs2⟩ := skipVarint_safe dAtA 10 0 r.2
    apply bind_good _ _ _ hs1
    intro j hj
    have := hs2 j hj
    exact skipAdvance_safe _ _ i _ (fun _ => by omega) (hk depth)
  · -- wire type 1
    exact skipAdvance_safe _ _ i _ h8 (hk depth)
  · -- wire type 2
    obtain ⟨hq1, hq2⟩ := readVarint_safe dAtA 10 0 r.2 0
    apply bind_good _ _ _ hq1
    intro r2 hr2
    obtain ⟨hl1, hl2⟩ := hq2 r2.1 r2.2 hr2
    by_cases hneg : toInt64 r2.1 < 0
    · rw [if_pos hneg]
      exact error_good _ _ (by decide) (by decide)
    · rw [if_neg hneg]
      apply skipAdvance_safe _ _ i _ _ (hk depth)
      intro h0
      have hb := toInt64_lt r2.1
      have hw := wrapInt64_of_nonneg ((r2.2 : Int) + toInt64 r2.1) (by omega) (by omega) h0
      have := wrapInt64_lt ((r2.2 : Int) + toInt64 r2.1)
      omega
  · -- wire type 3
    exact skipAdvance_safe _ _ i _ (fun _ => by omega) (hk (depth + 1))
  · -- wire type 4
    by_cases hd : depth = 0
    · rw [if_pos hd]
      exact error_good _ _ (by decide) (by decide)
    · rw [if_neg hd]
      exact skipAdvance_safe _ _ i _ (fun _ => by omega) (hk (depth - 1))
  · -- wire type 5
    exact skipAdvance_safe _ _ i _ h4 (hk depth)
  · exact error_good _ _ (by simp) (by simp)

theorem skipGenesisLoop_safe (dAtA : Bytes) (hlen : dAtA.length < 2 ^ 63) :
    ∀ (fuel i depth : Nat), dAtA.length ≤ fuel + i →
    NoPanic (skipGenesisLoop dAtA fuel i depth) ∧
    ∀ n, skipGenesisLoop dAtA fuel i depth = .ok n → (i : Int) < n ∧ n < 2 ^ 63 := by
  intro fuel
  induction fuel with
  | zero =>
    intro i depth hf
    rw [skipGenesisLoop, if_neg (by omega)]
    exact error_good _ _ (by decide) (by decide)
  | succ fuel ih =>
    intro i depth hf
    rw [skipGenesisLoop]
    by_cases hi : i < dAtA.length
    · rw [if_pos hi]
      obtain ⟨hr1, hr2⟩ := readVarint_safe dAtA 10 0 i 0
      apply bind_good _ _ _ hr1
      intro r hr
      obtain ⟨hj1, hj2⟩ := hr2 r.1 r.2 hr
      have hk : ∀ (d j : Nat), i < j →
          NoPanic (skipGenesisLoop dAtA fuel j d) ∧
          ∀ n, skipGenesisLoop dAtA fuel j d = .ok n → (i : Int) < n ∧ n < 2 ^ 63 := by
        intro d j hj
        obtain ⟨a, b⟩ := ih j d (by omega)
        refine ⟨a, ?_⟩
        intro n hn
        have := b n hn
        omega
      have h8 : 0 ≤ wrapInt64 ((r.2 : Int) + 8) →
          (i : Int) < wrapInt64 ((r.2 : Int) + 8) ∧ wrapInt64 ((r.2 : Int) + 8) < 2 ^ 63 := by
        intro h0
        have hw := wrapInt64_of_nonneg ((r.2 : Int) + 8) (by omega) (by omega) h0
        have := wrapInt64_lt ((r.2 : Int) + 8)
        omega
      have h4 : 0 ≤ wrapInt64 ((r.2 : Int) + 4) →
          (i : Int) < wrapInt64 ((r.2 : Int) + 4) ∧ wrapInt64 ((r.2 : Int) + 4) < 2 ^ 63 := by
        intro h0
        have hw := wrapInt64_of_nonneg ((r.2 : Int) + 4) (by omega) (by omega) h0
        have := wrapInt64_lt ((r.2 : Int) + 4)
        omega
      exact skipStep_safe dAtA hlen fuel i depth r _ _ hj1 hj2 h8 h4 hk _
    · rw [if_neg hi]
      exact error_good _ _ (by decide) (by decide)

theorem skipGenesis_safe (dAtA : Bytes) (hlen : dAtA.length < 2 ^ 63) :
    NoPanic (skipGenesis dAtA) ∧
    ∀ n, skipGenesis dAtA = .ok n → 0 < n ∧ n < 2 ^ 63 := by
  obtain ⟨a, b⟩ := skipGenesisLoop_safe dAtA hlen dAtA.length 0 0 (by omega)
  refine ⟨a, ?_⟩
  intro n hn
  have := b n hn
  simpa using this

theorem slice_ok (dAtA : Bytes) (a b : Nat) (hab : a ≤ b) (hb : b ≤ dAtA.length) :
    ∃ s, slice dAtA (a : Int) (b : Int) = .ok s ∧ s.length = b - a := by
  unfold slice
  rw [if_pos (by omega)]
  refine ⟨_, rfl, ?_⟩
  simp only [Int.toNat_ofNat, List.length_take, List.length_drop]
  omega

theorem skipField_safe (dAtA : Bytes) (hlen : dAtA.length < 2 ^ 63) (pre : Nat)
    (hpre : pre ≤ dAtA.length) :
    NoPanic (skipField dAtA pre) ∧
    ∀ j, skipField dAtA pre = .ok j → pre < j ∧ j ≤ dAtA.length := by
  unfold skipField
  obtain ⟨s, hs, hsl⟩ := slice_ok dAtA pre dAtA.length hpre (Nat.le_refl _)
  dsimp only
  rw [hs, bind_ok]
  obtain ⟨g1, g2⟩ := skipGenesis_safe s (by omega)
  apply bind_good _ _ _ g1
  intro skippy hsk
  obtain ⟨p1, p2⟩ := g2 skippy hsk
  by_cases h1 : skippy < 0 ∨ wrapInt64 ((pre : Int) + skippy) < 0
  · rw [if_pos h1]
    exact error_good _ _ (by decide) (by decide)
  · rw [if_neg h1]
    have hw := wrapInt64_of_nonneg ((pre : Int) + skippy) (by omega) (by omega) (by omega)
    by_cases h2 : wrapInt64 ((pre : Int) + skippy) > (dAtA.length : Int)
    · rw [if_pos h2]
      exact error_good _ _ (by decide) (by decide)
    · rw [if_neg h2]
      refine ⟨NoPanic_ok _, ?_⟩
      intro j hj
      simp only [Except.ok.injEq] at hj
      omega

theorem readTag_safe (dAtA : Bytes) (i : Nat) :
    NoPanic (readTag dAtA i) ∧
    ∀ t, readTag dAtA i = .ok t → i < t.2.2 ∧ t.2.2 ≤ dAtA.length := by
  unfold readTag
  obtain ⟨hr1, hr2⟩ := readVarint_safe dAtA 10 0 i 0
  apply bind_good _ _ _ hr1
  intro r hr
  have := hr2 r.1 r.2 hr
  dsimp only
  by_cases h4 : r.1 &&& 0x7 = 4
  · rw [if_pos h4]
    exact error_good _ _ (by decide) (by decide)
  · rw [if_neg h4]
    by_cases hf : toInt32 (r.1 >>> 3) ≤ 0
    · rw [if_pos hf]
      exact error_good _ _ (by simp) (by simp)
    · rw [if_neg hf]
      refine ⟨NoPanic_ok _, ?_⟩
      intro t ht
      simp only [Except.ok.injEq] at ht
      subst ht
      exact this

theorem readLength_safe (dAtA : Bytes) (hlen : dAtA.length < 2 ^ 63) (i : Nat) :
    NoPanic (readLength dAtA i) ∧
    ∀ r, readLength dAtA i = .ok r → i < r.1 ∧ r.1 ≤ r.2 ∧ r.2 ≤ dAtA.length := by
  unfold readLength
  obtain ⟨hr1, hr2⟩ := readVarint_safe dAtA 10 0 i 0
  apply bind_good _ _ _ hr1
  intro r hr
  have hj := hr2 r.1 r.2 hr
  dsimp only
  by_cases hneg : toInt64 r.1 < 0
  · rw [if_pos hneg]
    exact error_good _ _ (by decide) (by decide)
  · rw [if_neg hneg]
    have hb := toInt64_lt r.1
    by_cases h1 : wrapInt64 ((r.2 : Int) + toInt64 r.1) < 0
    · rw [if_pos h1]
      exact error_good _ _ (by decide) (by decide)
    · rw [if_neg h1]
      have hw := wrapInt64_of_nonneg ((r.2 : Int) + toInt64 r.1) (by omega) (by omega)
        (by omega)
      by_cases h2 : wrapInt64 ((r.2 : Int) + toInt64 r.1) > (dAtA.length : Int)
      · rw [if_pos h2]
        exact error_good _ _ (by decide) (by decide)
      · rw [if_neg h2]
        refine ⟨NoPanic_ok _, ?_⟩
        intro t ht
        simp only [Except.ok.injEq] at ht
        subst ht
        simp only
        omega

theorem finish_safe {α : Type} (dAtA : Bytes) (i : Nat) (m : α) : NoPanic (finish dAtA i m) := by
  unfold finish
  split
  · constructor <;> intro h <;> cases h
  · exact NoPanic_ok _

theorem NoPanic_error {α : Type} (e : Err) (h1 : e ≠ .panic) (h2 : e ≠ .outOfFuel) :
    NoPanic (Except.error e : Except Err α) := by
  constructor
  · intro h
    cases h
    exact h1 rfl
  · intro h
    cases h
    exact h2 rfl

theorem skipField_NoPanic (dAtA : Bytes) (hlen : dAtA.length < 2 ^ 63) (pre : Nat)
    (hpre : pre ≤ dAtA.length) {α : Type} (k : Nat → Except Err α)
    (hk : ∀ j, pre < j → NoPanic (k j)) : NoPanic ((skipField dAtA pre).bind k) := by
  obtain ⟨a, b⟩ := skipField_safe dAtA hlen pre hpre
  exact NoPanic_bind _ _ a (fun j hj => hk j (b j hj).1)

theorem nested_NoPanic (dAtA : Bytes) (hlen : dAtA.length < 2 ^ 63) (i : Nat)
    {α β : Type} (dec : Bytes → Except Err β) (k : Nat → β → Except Err α)
    (hdec : ∀ sub : Bytes, sub.length < 2 ^ 63 → NoPanic (dec sub))
    (hk : ∀ j b, i < j → NoPanic (k j b)) :
    NoPanic ((readLength dAtA i).bind fun r =>
      (slice dAtA r.1 r.2).bind fun sub => (dec sub).bind fun b => k r.2 b) := by
  obtain ⟨a, b⟩ := readLength_safe dAtA hlen i
  apply NoPanic_bind _ _ a
  intro r hr
  obtain ⟨h1, h2, h3⟩ := b r hr
  obtain ⟨s, hs, hsl⟩ := slice_ok dAtA r.1 r.2 h2 h3
  rw [hs, bind_ok]
  apply NoPanic_bind _ _ (hdec s (by omega))
  intro e _
  exact hk r.2 e (by omega)

theorem sliced_NoPanic (dAtA : Bytes) (hlen : dAtA.length < 2 ^ 63) (i : Nat)
    {α : Type} (k : Nat → Bytes → Except Err α)
    (hk : ∀ j b, i < j → NoPanic (k j b)) :
    NoPanic ((readLength dAtA i).bind fun r => (slice dAtA r.1 r.2).bind fun sub => k r.2 sub) := by
  obtain ⟨a, b⟩ := readLength_safe dAtA hlen i
  apply NoPanic_bind _ _ a
  intro r hr
  obtain ⟨h1, h2, h3⟩ := b r hr
  obtain ⟨s, hs, hsl⟩ := slice_ok dAtA r.1 r.2 h2 h3
  rw [hs, bind_ok]
  exact hk r.2 s (by omega)

theorem Params_unmarshalLoop_safe (dAtA : Bytes) (hlen : dAtA.length < 2 ^ 63) :
    ∀ (fuel i : Nat) (m : Params), dAtA.length ≤ fuel + i →
    NoPanic (Params.unmarshalLoop dAtA fuel i m) := by
  intro fuel
  induction fuel with
  | zero =>
    intro i m hf
    rw [Params.unmarshalLoop, if_neg (by omega)]
    exact finish_safe _ _ _
  | succ fuel ih =>
    intro i m hf
    rw [Params.unmarshalLoop]
    by_cases hi : i < dAtA.length
    · rw [if_pos hi]
      obtain ⟨ht1, ht2⟩ := readTag_safe dAtA i
      dsimp only
      apply NoPanic_bind _ _ ht1
      intro t ht
      obtain ⟨hj1, hj2⟩ := ht2 t ht
      split
      · split
        · exact NoPanic_error _ (by simp) (by simp)
        · obtain ⟨hr1, hr2⟩ := readVarint_safe dAtA 10 0 t.2.2 0
          apply NoPanic_bind _ _ hr1
          intro r hr
          have := hr2 r.1 r.2 hr
          exact ih _ _ (by omega)
      · apply skipField_NoPanic dAtA hlen i (by omega)
        intro j hj
        exact ih _ _ (by omega)
    · rw [if_neg hi]
      exact finish_safe _ _ _

theorem Params_Unmarshal_safe (m : Params) (dAtA : Bytes) (hlen : dAtA.length < 2 ^ 63) :
    NoPanic (Params.Unmarshal m dAtA) :=
  Params_unmarshalLoop_safe dAtA hlen _ _ _ (by omega)

theorem Precompiles_unmarshalLoop_safe (dAtA : Bytes) (hlen : dAtA.length < 2 ^ 63) :
    ∀ (fuel i : Nat) (m : Precompiles), dAtA.length ≤ fuel + i →
    NoPanic (Precompiles.unmarshalLoop dAtA fuel i m) := by
  intro fuel
  induction fuel with
  | zero =>
    intro i m hf
    rw [Precompiles.unmarshalLoop, if_neg (by omega)]
    exact finish_safe _ _ _
  | succ fuel ih =>
    intro i m hf
    rw [Precompiles.unmarshalLoop]
    by_cases hi : i < dAtA.length
    · rw [if_pos hi]
      obtain ⟨ht1, ht2⟩ := readTag_safe dAtA i
      dsimp only
      apply NoPanic_bind _ _ ht1
      intro t ht
      obtain ⟨hj1, hj2⟩ := ht2 t ht
      split
      · split
        · exact NoPanic_error _ (by simp) (by simp)
        · exact sliced_NoPanic dAtA hlen t.2.2
            (fun j s => Precompiles.unmarshalLoop dAtA fuel j { m with Native := m.Native ++ [s] })
            (fun j b hj => ih _ _ (by omega))
      · split
        · exact NoPanic_error _ (by simp) (by simp)
        · exact sliced_NoPanic dAtA hlen t.2.2
            (fun j s => Precompiles.unmarshalLoop dAtA fuel j { m with Dynamic := m.Dynamic ++ [s] })
            (fun j b hj => ih _ _ (by omega))
      · apply skipField_NoPanic dAtA hlen i (by omega)
        intro j hj
        exact ih _ _ (by omega)
    · rw [if_neg hi]
      exact finish_safe _ _ _

theorem Precompiles_Unmarshal_safe (m : Precompiles) (dAtA : Bytes)
    (hlen : dAtA.length < 2 ^ 63) : NoPanic (Precompiles.Unmarshal m dAtA) :=
  Precompiles_unmarshalLoop_safe dAtA hlen _ _ _ (by omega)

theorem GenesisState_unmarshalLoop_safe {TP : Type} (c : TokenPairCodec TP)
    (hc : ∀ sub : Bytes, sub.length < 2 ^ 63 → NoPanic (c.Unmarshal sub))
    (dAtA : Bytes) (hlen : dAtA.length < 2 ^ 63) :
    ∀ (fuel i : Nat) (m : GenesisState TP), dAtA.length ≤ fuel + i →
    NoPanic (GenesisState.unmarshalLoop c dAtA fuel i m) := by
  intro fuel
  induction fuel with
  | zero =>
    intro i m hf
    rw [GenesisState.unmarshalLoop, if_neg (by omega)]
    exact finish_safe _ _ _
  | succ fuel ih =>
    intro i m hf
    rw [GenesisState.unmarshalLoop]
    by_cases hi : i < dAtA.length
    · rw [if_pos hi]
      obtain ⟨ht1, ht2⟩ := readTag_safe dAtA i
      dsimp only
      apply NoPanic_bind _ _ ht1
      intro t ht
      obtain ⟨hj1, hj2⟩ := ht2 t ht
      split
      · split
        · exact NoPanic_error _ (by simp) (by simp)
        · exact nested_NoPanic dAtA hlen t.2.2 (Erc20Genesis.Params.Unmarshal m.Params)
            (fun j p => GenesisState.unmarshalLoop c dAtA fuel j { m with Params := p })
            (fun s hs => Params_Unmarshal_safe _ s hs) (fun j b hj => ih _ _ (by omega))
      · split
        · exact NoPanic_error _ (by simp) (by simp)
        · exact nested_NoPanic dAtA hlen t.2.2 c.Unmarshal
            (fun j e => GenesisState.unmarshalLoop c dAtA fuel j
              { m with TokenPairs := m.TokenPairs ++ [e] })
            hc (fun j b hj => ih _ _ (by omega))
      · split
        · exact NoPanic_error _ (by simp) (by simp)
        · exact nested_NoPanic dAtA hlen t.2.2 (Erc20Genesis.Precompiles.Unmarshal m.Precompiles)
            (fun j p => GenesisState.unmarshalLoop c dAtA fuel j { m with Precompiles := p })
            (fun s hs => Precompiles_Unmarshal_safe _ s hs) (fun j b hj => ih _ _ (by omega))
      · apply skipField_NoPanic dAtA hlen i (by omega)
        intro j hj
        exact ih _ _ (by omega)
    · rw [if_neg hi]
      exact finish_safe _ _ _

theorem GenesisState_Unmarshal_safe {TP : Type} (c : TokenPairCodec TP)
    (hc : ∀ sub : Bytes, sub.length < 2 ^ 63 → NoPanic (c.Unmarshal sub))
    (m : GenesisState TP) (dAtA : Bytes) (hlen : dAtA.length < 2 ^ 63) :
    NoPanic (GenesisState.Unmarshal c m dAtA) :=
  GenesisState_unmarshalLoop_safe c hc dAtA hlen _ _ _ (by omega)

/-! ### Size and the bytes written -/

theorem marshalTokenPairs_append_w {TP : Type} (c : TokenPairCodec TP) (hc : c.WritesSize) :
    ∀ (rs : List TP) (P X S : Bytes),
    (∀ e ∈ rs, c.Size e < 2 ^ 64) →
    X.length = tpLen c rs →
    ∃ Ys : List Bytes, List.Forall₂ (Sized c) rs.reverse Ys ∧
      marshalTokenPairs c rs (P ++ X ++ S) ((P.length + X.length : Nat) : Int)
        = .ok (P ++ encFields 0x12 Ys ++ S, (P.length : Int)) := by
  intro rs
  induction rs with
  | nil =>
    intro P X S _ hX
    simp only [tpLen, List.length_eq_zero] at hX
    subst hX
    exact ⟨[], by simp, by simp [marshalTokenPairs, encFields]⟩
  | cons e rest ih =>
    intro P X S hlen hX
    simp only [tpLen] at hX
    rw [Nat.add_comm] at hX
    obtain ⟨X1, X2, rfl, hX1, hX2⟩ := exists_split X _ _ hX
    have he : c.Size e < 2 ^ 64 := hlen e (List.mem_cons_self _ _)
    obtain ⟨h0, hw⟩ := hc e
    have hn : (c.Size e).toNat < 2 ^ 64 := by omega
    have hcast : (((c.Size e).toNat : Nat) : Int) = c.Size e := Int.toNat_of_nonneg h0
    obtain ⟨Y, hY, hYs, hres⟩ :=
      marshalNested_append (c.MarshalToSizedBuffer e) 0x12 (c.Size e).toNat
        (fun Y => (Y.length : Int) = c.Size e) hn
        (by
          intro Q Z hZ
          obtain ⟨Y, hY1, hY2⟩ := hw Q Z (by rw [hZ, hcast])
          exact ⟨Y, by omega, show (Y.length : Int) = c.Size e by rw [hY1, hZ, hcast],
            by rw [hY2, hcast]⟩)
        (P ++ X1) X2 S hX2
    have a1 : P ++ (X1 ++ X2) ++ S = (P ++ X1) ++ X2 ++ S := by simp
    have a2 : ((P.length + (X1 ++ X2).length : Nat) : Int)
        = (((P ++ X1).length + X2.length : Nat) : Int) := by
      simp only [List.length_append, Nat.add_assoc]
    obtain ⟨Ys, hYs2, hrest⟩ := ih P X1 (encField 0x12 Y ++ S)
      (fun x hx => hlen x (List.mem_cons_of_mem _ hx)) hX1
    refine ⟨Ys ++ [Y], ?_, ?_⟩
    · rw [List.reverse_cons]
      exact List.rel_append hYs2 (List.Forall₂.cons hYs List.Forall₂.nil)
    · rw [marshalTokenPairs, a1, a2, hres, bind_ok]
      have a3 : P ++ X1 ++ encField 0x12 Y ++ S = P ++ X1 ++ (encField 0x12 Y ++ S) := by simp
      have a4 : (((P ++ X1).length : Nat) : Int) = ((P.length + X1.length : Nat) : Int) := by
        simp only [List.length_append]
      simp only
      rw [a3, a4, hrest]
      simp [encFields_append, encFields_singleton]

theorem sizeTokenPairs_eq_w {TP : Type} (c : TokenPairCodec TP) (hc : c.WritesSize) :
    ∀ (es : List TP) (n : Int), (∀ e ∈ es, c.Size e < 2 ^ 64) →
    sizeTokenPairs c es n = n + ((tpLen c es : Nat) : Int) := by
  intro es
  induction es with
  | nil => intro n _; simp [sizeTokenPairs, tpLen]
  | cons e rest ih =>
    intro n hlen
    have he : c.Size e < 2 ^ 64 := hlen e (List.mem_cons_self _ _)
    obtain ⟨h0, _⟩ := hc e
    have hcast : (((c.Size e).toNat : Nat) : Int) = c.Size e := Int.toNat_of_nonneg h0
    have hu : toUint64 (c.Size e) = (c.Size e).toNat := by
      rw [← hcast, toUint64_natCast _ (by omega), hcast]
    simp only [sizeTokenPairs, tpLen]
    rw [ih _ (fun x hx => hlen x (List.mem_cons_of_mem _ hx)), hu]
    push_cast
    omega

theorem sizeTokenPairs_mono_w {TP : Type} (c : TokenPairCodec TP) (hc : c.WritesSize) :
    ∀ (es : List TP) (n : Int), n ≤ sizeTokenPairs c es n := by
  intro es
  induction es with
  | nil => intro n; simp [sizeTokenPairs]
  | cons e rest ih =>
    intro n
    obtain ⟨h0, _⟩ := hc e
    simp only [sizeTokenPairs]
    have := ih (n + (1 + c.Size e + (sovGenesis (toUint64 (c.Size e)) : Int)))
    omega

theorem sizeTokenPairs_bound_w {TP : Type} (c : TokenPairCodec TP) (hc : c.WritesSize) :
    ∀ (es : List TP) (n : Int), 0 ≤ n → ∀ e ∈ es, c.Size e < sizeTokenPairs c es n := by
  intro es
  induction es with
  | nil => intro n _ e he; cases he
  | cons a rest ih =>
    intro n hn e he
    obtain ⟨h0, _⟩ := hc a
    simp only [sizeTokenPairs]
    rcases List.mem_cons.1 he with rfl | hmem
    · have := sizeTokenPairs_mono_w c hc rest
        (n + (1 + c.Size e + (sovGenesis (toUint64 (c.Size e)) : Int)))
      omega
    · exact ih _ (by omega) e hmem

theorem GenesisState_Size_facts_w {TP : Type} (c : TokenPairCodec TP) (hc : c.WritesSize)
    (m : GenesisState TP) (h : GenesisState.Size c m < 2 ^ 63) :
    m.Precompiles.Size < 2 ^ 63 ∧ (∀ e ∈ m.TokenPairs, c.Size e < 2 ^ 63) ∧
    GenesisState.Size c m =
      (((encField 0xa m.Params.enc).length + tpLen c m.TokenPairs
        + (encField 0x1a m.Precompiles.enc).length : Nat) : Int) := by
  rw [GenesisState_Size_unfold] at h ⊢
  have hp0 := Params_Size_nonneg m.Params
  have hq0 := Precompiles_Size_nonneg m.Precompiles
  have hmono := sizeTokenPairs_mono_w c hc m.TokenPairs
    (0 + (1 + m.Params.Size + (sovGenesis (toUint64 m.Params.Size) : Int)))
  have hpre : m.Precompiles.Size < 2 ^ 63 := by omega
  have htp : ∀ e ∈ m.TokenPairs, c.Size e < 2 ^ 63 := by
    intro e he
    have := sizeTokenPairs_bound_w c hc m.TokenPairs
      (0 + (1 + m.Params.Size + (sovGenesis (toUint64 m.Params.Size) : Int))) (by omega) e he
    omega
  refine ⟨hpre, htp, ?_⟩
  have e1 := Precompiles_Size_eq_enc_length m.Precompiles hpre
  have e2 := Params_Size_eq_enc_length m.Params
  have hl1 : m.Params.enc.length < 2 ^ 64 := by omega
  have hl2 : m.Precompiles.enc.length < 2 ^ 64 := by omega
  rw [sizeTokenPairs_eq_w c hc _ _ (fun e he => by have := htp e he; omega), e1, e2,
    toUint64_natCast _ hl1, toUint64_natCast _ hl2, encField_length, encField_length]
  push_cast
  omega

theorem encFields_length_sized {TP : Type} (c : TokenPairCodec TP) (Ys : List Bytes)
    (es : List TP) (h : List.Forall₂ (Sized c) es Ys) :
    (encFields 0x12 Ys).length = tpLen c es := by
  induction h with
  | nil => rfl
  | @cons e Y es' Ys' hw _ ih =>
    have hlen : (Y.length : Int) = c.Size e := hw
    have : (c.Size e).toNat = Y.length := by omega
    simp only [encFields, tpLen, List.length_append, encField_length, ih, this]

theorem GenesisState_MarshalToSizedBuffer_append_w {TP : Type} (c : TokenPairCodec TP)
    (hc : c.WritesSize) (m : GenesisState TP) (h : GenesisState.Size c m < 2 ^ 63)
    (P X : Bytes) (hX : (X.length : Int) = GenesisState.Size c m) :
    ∃ Ys : List Bytes, List.Forall₂ (Sized c) m.TokenPairs Ys ∧
      GenesisState.MarshalToSizedBuffer c m (P ++ X)
        = .ok (P ++ m.enc Ys, ((m.enc Ys).length : Int)) ∧
      (m.enc Ys).length = X.length := by
  obtain ⟨hpre, htp, hsz⟩ := GenesisState_Size_facts_w c hc m h
  obtain ⟨hn, hd⟩ := Precompiles_lengths_lt m.Precompiles hpre
  have hn' : ∀ s ∈ m.Precompiles.Native, s.length < 2 ^ 64 :=
    fun s hs => by have := hn s hs; omega
  have hd' : ∀ s ∈ m.Precompiles.Dynamic, s.length < 2 ^ 64 :=
    fun s hs => by have := hd s hs; omega
  have e1 := Precompiles_Size_eq_enc_length m.Precompiles hpre
  have e2 := Params_Size_eq_enc_length m.Params
  have hp0 := Params_Size_nonneg m.Params
  have hXn : X.length = ((encField 0xa m.Params.enc).length + tpLen c m.TokenPairs)
      + (encField 0x1a m.Precompiles.enc).length := by
    rw [hsz] at hX
    exact_mod_cast hX
  have hl1 : m.Params.enc.length < 2 ^ 64 := by
    have := Params_enc_length_le m.Params
    omega
  obtain ⟨X12, X3, rfl, hX12, hX3⟩ := exists_split X _ _ hXn
  obtain ⟨X1, X2, rfl, hX1, hX2⟩ := exists_split X12 _ _ hX12
  rw [encField_length] at hX3 hX1
  -- the precompiles block
  obtain ⟨Y3, _, hY3, hres3⟩ :=
    marshalNested_append m.Precompiles.MarshalToSizedBuffer 0x1a m.Precompiles.enc.length
      (fun Y => Y = m.Precompiles.enc) (by omega)
      (fun Q Z hZ => ⟨m.Precompiles.enc, rfl, rfl,
        Precompiles_MarshalToSizedBuffer_append m.Precompiles hn' hd' Q Z hZ⟩)
      (P ++ (X1 ++ X2)) X3 [] hX3
  subst hY3
  -- the token pairs
  obtain ⟨Ys, hYs, hres2⟩ := marshalTokenPairs_append_w c hc m.TokenPairs.reverse (P ++ X1) X2
    (encField 0x1a m.Precompiles.enc)
    (fun e he => by have := htp e (List.mem_reverse.1 he); omega)
    (by rw [tpLen_reverse]; exact hX2)
  rw [List.reverse_reverse] at hYs
  -- the params block
  obtain ⟨Y1, _, hY1, hres1⟩ :=
    marshalNested_append m.Params.MarshalToSizedBuffer 0xa m.Params.enc.length
      (fun Y => Y = m.Params.enc) (by omega)
      (fun Q Z hZ => ⟨m.Params.enc, rfl, rfl,
        Params_MarshalToSizedBuffer_append m.Params Q Z hZ⟩)
      P X1 (encFields 0x12 Ys ++ encField 0x1a m.Precompiles.enc) hX1
  subst hY1
  have hYlen : (encFields 0x12 Ys).length = X2.length := by
    rw [hX2]
    exact encFields_length_sized c Ys m.TokenPairs hYs
  refine ⟨Ys, hYs, ?_, ?_⟩
  · unfold GenesisState.MarshalToSizedBuffer
    have b1 : P ++ (X1 ++ X2 ++ X3) = (P ++ (X1 ++ X2)) ++ X3 ++ [] := by simp
    have b2 : (((P ++ (X1 ++ X2 ++ X3)).length : Nat) : Int)
        = (((P ++ (X1 ++ X2)).length + X3.length : Nat) : Int) := by
      simp only [List.length_append, Nat.add_assoc]
    simp only [marshalTokenPairs_guard]
    rw [b2, b1, hres3, bind_ok]
    simp only
    have b3 : P ++ (X1 ++ X2) ++ encField 0x1a m.Precompiles.enc ++ []
        = (P ++ X1) ++ X2 ++ encField 0x1a m.Precompiles.enc := by simp
    have b4 : (((P ++ (X1 ++ X2)).length : Nat) : Int)
        = (((P ++ X1).length + X2.length : Nat) : Int) := by
      simp only [List.length_append, Nat.add_assoc]
    rw [b3, b4, hres2, bind_ok]
    simp only
    have b5 : P ++ X1 ++ encFields 0x12 Ys ++ encField 0x1a m.Precompiles.enc
        = P ++ X1 ++ (encFields 0x12 Ys ++ encField 0x1a m.Precompiles.enc) := by simp
    have b6 : (((P ++ X1).length : Nat) : Int) = ((P.length + X1.length : Nat) : Int) := by
      simp only [List.length_append]
    rw [b5, b6, hres1, bind_ok]
    simp only [GenesisState.enc, List.length_append, List.append_assoc]
    congr 2
    push_cast
    omega
  · simp only [GenesisState.enc, List.length_append, hYlen, encField_length]
    omega

theorem GenesisState_Marshal_eq_w {TP : Type} (c : TokenPairCodec TP) (hc : c.WritesSize)
    (m : GenesisState TP) (h : GenesisState.Size c m < 2 ^ 63) :
    ∃ Ys : List Bytes, List.Forall₂ (Sized c) m.TokenPairs Ys ∧
      GenesisState.Marshal c m = .ok (m.enc Ys) ∧ (m.enc Ys).length < 2 ^ 63 := by
  obtain ⟨_, _, hsz⟩ := GenesisState_Size_facts_w c hc m h
  have h0 : 0 ≤ GenesisState.Size c m := by rw [hsz]; omega
  have hcast : (((GenesisState.Size c m).toNat : Nat) : Int) = GenesisState.Size c m :=
    Int.toNat_of_nonneg h0
  obtain ⟨Ys, hYs, hres, hl⟩ := GenesisState_MarshalToSizedBuffer_append_w c hc m h []
    (List.replicate (GenesisState.Size c m).toNat 0) (by simp [hcast])
  refine ⟨Ys, hYs, ?_, ?_⟩
  · unfold GenesisState.Marshal
    simp only
    have s1 := sliceTo_replicate (GenesisState.Size c m).toNat
    rw [hcast] at s1
    rw [s1, bind_ok]
    simp only [List.nil_append] at hres
    rw [hres, bind_ok]
    simp only [List.drop_replicate, Nat.sub_self, List.replicate_zero, List.append_nil]
    have := sliceTo_append (m.enc Ys) []
    simpa using this
  · simp only [List.length_replicate] at hl
    omega

theorem paramsCodec_writesSize : paramsCodec.WritesSize := by
  intro e
  obtain ⟨h0, h⟩ := paramsCodec_lawful e
  refine ⟨h0, ?_⟩
  intro P X hX
  obtain ⟨Y, hY, hm, _⟩ := h P X hX
  exact ⟨Y, hY, hm⟩

/-- C11: for every `Params`, for every `Precompiles` whose size fits a Go `int`,
and for every `GenesisState` whose size fits a Go `int` and whose token pairs
each write exactly their own `Size()` bytes: on a buffer whose last `Size()`
bytes are free, `MarshalToSizedBuffer` leaves the bytes in front as they were,
fills exactly those last `Size()` bytes with the encoding and returns `Size()`;
and `Marshal` returns a slice of length exactly `Size()` that is that encoding. -/
theorem Size_eq_bytes_written {TP : Type} (c : TokenPairCodec TP) (hc : c.WritesSize)
    (p : Erc20Genesis.Params) (q : Erc20Genesis.Precompiles) (g : GenesisState TP)
    (hq : q.Size < 2 ^ 63) (hg : GenesisState.Size c g < 2 ^ 63) :
    ((p.enc.length : Int) = p.Size ∧ p.Marshal = .ok p.enc ∧
      ∀ P X : Bytes, (X.length : Int) = p.Size →
        p.MarshalToSizedBuffer (P ++ X) = .ok (P ++ p.enc, p.Size)) ∧
    ((q.enc.length : Int) = q.Size ∧ q.Marshal = .ok q.enc ∧
      ∀ P X : Bytes, (X.length : Int) = q.Size →
        q.MarshalToSizedBuffer (P ++ X) = .ok (P ++ q.enc, q.Size)) ∧
    ((∃ Ys : List Bytes, List.Forall₂ (Sized c) g.TokenPairs Ys ∧
        ((g.enc Ys).length : Int) = GenesisState.Size c g ∧
        GenesisState.Marshal c g = .ok (g.enc Ys)) ∧
      ∀ P X : Bytes, (X.length : Int) = GenesisState.Size c g →
        ∃ Ys : List Bytes, List.Forall₂ (Sized c) g.TokenPairs Ys ∧
          ((g.enc Ys).length : Int) = GenesisState.Size c g ∧
          GenesisState.MarshalToSizedBuffer c g (P ++ X)
            = .ok (P ++ g.enc Ys, GenesisState.Size c g)) := by
  have ep := Params_Size_eq_enc_length p
  have eq := Precompiles_Size_eq_enc_length q hq
  obtain ⟨hn, hd⟩ := Precompiles_lengths_lt q hq
  refine ⟨⟨ep.symm, Params_Marshal_eq p, ?_⟩, ⟨eq.symm, Precompiles_Marshal_eq q hq, ?_⟩, ?_, ?_⟩
  · intro P X hX
    rw [Params_MarshalToSizedBuffer_append p P X (by omega), ep]
  · intro P X hX
    rw [Precompiles_MarshalToSizedBuffer_append q
      (fun s hs => by have := hn s hs; omega) (fun s hs => by have := hd s hs; omega)
      P X (by omega), eq]
  · obtain ⟨hpre, htp, hsz⟩ := GenesisState_Size_facts_w c hc g hg
    have h0 : 0 ≤ GenesisState.Size c g := by rw [hsz]; omega
    have hcast : (((GenesisState.Size c g).toNat : Nat) : Int) = GenesisState.Size c g :=
      Int.toNat_of_nonneg h0
    obtain ⟨Ys, hYs, _, hl⟩ := GenesisState_MarshalToSizedBuffer_append_w c hc g hg []
      (List.replicate (GenesisState.Size c g).toNat 0) (by simp [hcast])
    obtain ⟨Ys2, hYs2, hm, _⟩ := GenesisState_Marshal_eq_w c hc g hg
    have hl2 : (encFields 0x12 Ys2).length = tpLen c g.TokenPairs :=
      encFields_length_sized c Ys2 g.TokenPairs hYs2
    refine ⟨Ys2, hYs2, ?_, hm⟩
    rw [hsz]
    simp only [GenesisState.enc, List.length_append, hl2]
  · intro P X hX
    obtain ⟨Ys, hYs, hm, hl⟩ := GenesisState_MarshalToSizedBuffer_append_w c hc g hg P X hX
    refine ⟨Ys, hYs, by omega, ?_⟩
    rw [hm]
    congr 2
    omega

/-- Witness for C11: nested messages encoded with the codec of `Params` in the
role of the token pair codec. -/
theorem Size_eq_bytes_written_witness :
    paramsCodec.WritesSize ∧
    (Precompiles.mk [[0x30, 0x78], []] [[255, 0]]).Size < 2 ^ 63 ∧
    GenesisState.Size paramsCodec ⟨⟨true⟩, [⟨true⟩, ⟨false⟩], ⟨[[1, 2]], [[]]⟩⟩ < 2 ^ 63 ∧
    (Precompiles.mk [[0x30, 0x78], []] [[255, 0]]).Marshal
      = .ok (Precompiles.mk [[0x30, 0x78], []] [[255, 0]]).enc :=
  ⟨paramsCodec_writesSize, by decide, by decide,
    (Size_eq_bytes_written paramsCodec paramsCodec_writesSize ⟨true⟩
      (Precompiles.mk [[0x30, 0x78], []] [[255, 0]])
      ⟨⟨true⟩, [⟨true⟩, ⟨false⟩], ⟨[[1, 2]], [[]]⟩⟩ (by decide) (by decide)).2.1.2.1⟩

/-- C20: for every input whose length a Go slice can have, `GenesisState.Unmarshal`
(given a `TokenPair.Unmarshal` that does not panic), `Params.Unmarshal`,
`Precompiles.Unmarshal` and `skipGenesis` end with a result or with one of the
error values of the package: never with a panic of an index or slice expression
out of range, and never by exhausting the iteration budget of the loop. The
index that the skipping of an unknown field hands back to the `Unmarshal` loops
lies within the input, and a length that `skipGenesis` returns beyond the input
(9 for the single byte 0x21) is rejected by the caller with
`io.ErrUnexpectedEOF`. -/
theorem Unmarshal_never_panics {TP : Type} (c : TokenPairCodec TP)
    (hc : ∀ sub : Bytes, sub.length < 2 ^ 63 → NoPanic (c.Unmarshal sub))
    (dAtA : Bytes) (hlen : dAtA.length < 2 ^ 63)
    (g : GenesisState TP) (p : Erc20Genesis.Params) (q : Erc20Genesis.Precompiles) :
    NoPanic (GenesisState.Unmarshal c g dAtA) ∧
    NoPanic (Params.Unmarshal p dAtA) ∧
    NoPanic (Precompiles.Unmarshal q dAtA) ∧
    NoPanic (skipGenesis dAtA) ∧
    (∀ pre j : Nat, pre ≤ dAtA.length → skipField dAtA pre = .ok j → pre < j ∧ j ≤ dAtA.length) ∧
    skipGenesis [0x21] = .ok 9 ∧
    Params.Unmarshal p [0x21] = .error .ErrUnexpectedEOF :=
  ⟨GenesisState_Unmarshal_safe c hc g dAtA hlen, Params_Unmarshal_safe p dAtA hlen,
    Precompiles_Unmarshal_safe q dAtA hlen, (skipGenesis_safe dAtA hlen).1,
    fun pre j hpre h => (skipField_safe dAtA hlen pre hpre).2 j h,
    by decide, by obtain ⟨b⟩ := p; cases b <;> rfl⟩

/-- Witness for C20: a truncated nested message, decoded with the codec of
`Params` in the role of the token pair codec. -/
theorem Unmarshal_never_panics_witness :
    (∀ sub : Bytes, sub.length < 2 ^ 63 → NoPanic (paramsCodec.Unmarshal sub)) ∧
    ([0x12, 0x05, 0x08] : Bytes).length < 2 ^ 63 ∧
    NoPanic (GenesisState.Unmarshal paramsCodec (GenesisState.zero Erc20Genesis.Params)
      [0x12, 0x05, 0x08]) ∧
    GenesisState.Unmarshal paramsCodec (GenesisState.zero Erc20Genesis.Params) [0x12, 0x05, 0x08]
      = .error .ErrUnexpectedEOF :=
  ⟨fun sub h => Params_Unmarshal_safe ⟨false⟩ sub h, by decide,
    (Unmarshal_never_panics paramsCodec (fun sub h => Params_Unmarshal_safe ⟨false⟩ sub h)
      [0x12, 0x05, 0x08] (by decide) (GenesisState.zero Erc20Genesis.Params) ⟨false⟩ ⟨[], []⟩).1,
    rfl⟩

/-! ### The forward encoding of Precompiles -/

theorem varintValue_varintEnc (v : Nat) : varintValue (varintEnc v) = v := by
  induction v using Nat.strong_induction_on with
  | _ v ih =>
    by_cases h : v < 128
    · rw [varintEnc_lt v h]
      simp only [varintValue, toByte_val]
      omega
    · rw [varintEnc_ge v (by omega)]
      simp only [varintValue, toByte_val, ih (v / 128) (by omega)]
      omega

theorem varintShape_varintEnc (v : Nat) : varintShape (varintEnc v) = true := by
  induction v using Nat.strong_induction_on with
  | _ v ih =>
    by_cases h : v < 128
    · rw [varintEnc_lt v h]
      simp only [varintShape, toByte_val, decide_eq_true_eq]
      omega
    · rw [varintEnc_ge v (by omega)]
      have hne : varintEnc (v / 128) ≠ [] := by
        intro e
        have := varintEnc_length_pos (v / 128)
        rw [e] at this
        exact absurd this (by simp)
      cases hrest : varintEnc (v / 128) with
      | nil => exact absurd hrest hne
      | cons c cs =>
        have := ih (v / 128) (by omega)
        rw [hrest] at this
        simp only [varintShape, toByte_val, Bool.and_eq_true, decide_eq_true_eq]
        exact ⟨by omega, this⟩

theorem encFields_eq_join (tag : Byte) (ss : List Bytes) :
    encFields tag ss = (ss.map fun s => [tag] ++ varintEnc s.length ++ s).flatten := by
  induction ss with
  | nil => rfl
  | cons s rest ih =>
    simp only [encFields, encField, ih, List.map_cons, List.flatten_cons, List.singleton_append,
      List.cons_append, List.append_assoc, List.nil_append]

/-- C21: for every `Precompiles` value whose encoded size fits a Go `int`,
`Marshal`, which fills the buffer from the end backwards, returns the forward
reference encoding: for each `Native` entry in list order the byte 0x0a, the
varint of the byte length of the entry and its bytes, followed by the same for
each `Dynamic` entry in list order with the byte 0x12; where the varint of `n`
is the base-128 form whose value is `n`, with the continuation bit on every byte
but the last. -/
theorem Precompiles_Marshal_forward (m : Precompiles) (h : m.Size < 2 ^ 63) :
    m.Marshal = .ok m.reference ∧
    ∀ n : Nat, varintValue (varintEnc n) = n ∧ varintShape (varintEnc n) = true := by
  refine ⟨?_, fun n => ⟨varintValue_varintEnc n, varintShape_varintEnc n⟩⟩
  rw [Precompiles_Marshal_eq m h]
  simp only [Precompiles.enc, Precompiles.reference, encFields_eq_join]

/-- Witness for C21: two native entries and two dynamic entries, one of them
empty. -/
theorem Precompiles_Marshal_forward_witness :
    (Precompiles.mk [[1, 2], [3]] [[], [4, 5, 6]]).Size < 2 ^ 63 ∧
    (Precompiles.mk [[1, 2], [3]] [[], [4, 5, 6]]).Marshal
      = .ok (Precompiles.mk [[1, 2], [3]] [[], [4, 5, 6]]).reference ∧
    (Precompiles.mk [[1, 2], [3]] [[], [4, 5, 6]]).Marshal
      = .ok [0x0a, 2, 1, 2, 0x0a, 1, 3, 0x12, 0, 0x12, 3, 4, 5, 6] :=
  ⟨by decide,
    (Precompiles_Marshal_forward (Precompiles.mk [[1, 2], [3]] [[], [4, 5, 6]]) (by decide)).1,
    by decide⟩

/-! ### Decoding inside a window of the input -/

theorem bind_eq_ok {α β : Type} (x : Except Err α) (f : α → Except Err β) (b : β)
    (h : x.bind f = .ok b) : ∃ a, x = .ok a ∧ f a = .ok b := by
  cases x with
  | error e =>
    rw [bind_error] at h
    cases h
  | ok a =>
    rw [bind_ok] at h
    exact ⟨a, rfl, h⟩

theorem getElem?_window (P X S : Bytes) (k : Nat) (hk : k < X.length) :
    (P ++ X ++ S)[P.length + k]? = X[k]? := by
  rw [List.append_assoc, List.getElem?_append_right (by omega), Nat.add_sub_cancel_left,
    List.getElem?_append_left hk]

theorem readVarint_ctx (P X S P2 S2 : Bytes) : ∀ (fuel shift k acc v j : Nat),
    readVarint (P ++ X ++ S) fuel shift (P.length + k) acc = .ok (v, j) →
    j ≤ P.length + X.length →
    ∃ k1, j = P.length + k1 ∧ k < k1 ∧ k1 ≤ X.length ∧
      readVarint (P2 ++ X ++ S2) fuel shift (P2.length + k) acc = .ok (v, P2.length + k1) := by
  intro fuel
  induction fuel with
  | zero =>
    intro shift k acc v j h
    simp [readVarint] at h
  | succ fuel ih =>
    intro shift k acc v j h hj
    have hs := (readVarint_safe (P ++ X ++ S) (fuel + 1) shift (P.length + k) acc).2 v j h
    have hk : k < X.length := by omega
    by_cases hsh : shift ≥ 64
    · rw [readVarint, if_pos hsh] at h
      cases h
    · have hsh2 : shift < 64 := by omega
      have hb := List.getElem?_eq_getElem hk
      have g1 : (P ++ X ++ S)[P.length + k]? = some X[k] := by rw [getElem?_window P X S k hk, hb]
      have g2 : (P2 ++ X ++ S2)[P2.length + k]? = some X[k] := by
        rw [getElem?_window P2 X S2 k hk, hb]
      rw [readVarint_step _ _ _ _ _ _ hsh2 g1] at h
      rw [readVarint_step _ _ _ _ _ _ hsh2 g2]
      by_cases hlow : (X[k]).val < 0x80
      · rw [if_pos hlow] at h ⊢
        simp only [Except.ok.injEq, Prod.mk.injEq] at h
        refine ⟨k + 1, by omega, by omega, by omega, ?_⟩
        rw [← h.1]
        rfl
      · rw [if_neg hlow] at h ⊢
        obtain ⟨k1, e1, e2, e3, e4⟩ := ih (shift + 7) (k + 1) _ v j h hj
        exact ⟨k1, e1, by omega, e3, e4⟩

theorem skipVarint_step (dAtA : Bytes) (fuel shift iNdEx : Nat) (b : Byte)
    (hs : shift < 64) (hb : dAtA[iNdEx]? = some b) :
    skipVarint dAtA (fuel + 1) shift iNdEx =
      if b.val < 0x80 then .ok (iNdEx + 1) else skipVarint dAtA fuel (shift + 7) (iNdEx + 1) := by
  have hlt : iNdEx < dAtA.length := by
    by_contra hc
    rw [List.getElem?_eq_none (by omega)] at hb
    cases hb
  rw [skipVarint, if_neg (by omega), if_neg (by omega), Nat.add_sub_cancel, hb]

theorem skipVarint_ctx (P X S P2 S2 : Bytes) : ∀ (fuel shift k j : Nat),
    skipVarint (P ++ X ++ S) fuel shift (P.length + k) = .ok j →
    j ≤ P.length + X.length →
    ∃ k1, j = P.length + k1 ∧ k < k1 ∧ k1 ≤ X.length ∧
      skipVarint (P2 ++ X ++ S2) fuel shift (P2.length + k) = .ok (P2.length + k1) := by
  intro fuel
  induction fuel with
  | zero =>
    intro shift k j h
    simp [skipVarint] at h
  | succ fuel ih =>
    intro shift k j h hj
    have hs := (skipVarint_safe (P ++ X ++ S) (fuel + 1) shift (P.length + k)).2 j h
    have hk : k < X.length := by omega
    by_cases hsh : shift ≥ 64
    · rw [skipVarint, if_pos hsh] at h
      cases h
    · have hsh2 : shift < 64 := by omega
      have hb := List.getElem?_eq_getElem hk
      have g1 : (P ++ X ++ S)[P.length + k]? = some X[k] := by rw [getElem?_window P X S k hk, hb]
      have g2 : (P2 ++ X ++ S2)[P2.length + k]? = some X[k] := by
        rw [getElem?_window P2 X S2 k hk, hb]
      rw [skipVarint_step _ _ _ _ _ hsh2 g1] at h
      rw [skipVarint_step _ _ _ _ _ hsh2 g2]
      by_cases hlow : (X[k]).val < 0x80
      · rw [if_pos hlow] at h ⊢
        simp only [Except.ok.injEq] at h
        exact ⟨k + 1, by omega, by omega, by omega, rfl⟩
      · rw [if_neg hlow] at h ⊢
        obtain ⟨k1, e1, e2, e3, e4⟩ := ih (shift + 7) (k + 1) j h hj
        exact ⟨k1, e1, by omega, e3, e4⟩

theorem readTag_ctx (P X S P2 S2 : Bytes) (k : Nat) (t : Int × Nat × Nat)
    (h : readTag (P ++ X ++ S) (P.length + k) = .ok t) (hj : t.2.2 ≤ P.length + X.length) :
    ∃ k1, t.2.2 = P.length + k1 ∧ k < k1 ∧ k1 ≤ X.length ∧
      readTag (P2 ++ X ++ S2) (P2.length + k) = .ok (t.1, t.2.1, P2.length + k1) := by
  unfold readTag at h ⊢
  obtain ⟨r, hr, hrest⟩ := bind_eq_ok _ _ _ h
  obtain ⟨v, j⟩ := r
  dsimp only at hrest
  by_cases h4 : v &&& 0x7 = 4
  · rw [if_pos h4] at hrest
    cases hrest
  · rw [if_neg h4] at hrest
    by_cases hf : toInt32 (v >>> 3) ≤ 0
    · rw [if_pos hf] at hrest
      cases hrest
    · rw [if_neg hf] at hrest
      simp only [Except.ok.injEq] at hrest
      subst hrest
      obtain ⟨k1, e1, e2, e3, e4⟩ := readVarint_ctx P X S P2 S2 10 0 k 0 v j hr hj
      refine ⟨k1, e1, e2, e3, ?_⟩
      rw [e4, bind_ok]
      simp only [if_neg h4, if_neg hf]

theorem readLength_ctx (P X S P2 S2 : Bytes) (k : Nat) (r : Nat × Nat)
    (hl : (P ++ X ++ S).length < 2 ^ 63) (hl2 : (P2 ++ X ++ S2).length < 2 ^ 63)
    (h : readLength (P ++ X ++ S) (P.length + k) = .ok r) (hj : r.2 ≤ P.length + X.length) :
    ∃ ka kb, r.1 = P.length + ka ∧ r.2 = P.length + kb ∧ k < ka ∧ ka ≤ kb ∧ kb ≤ X.length ∧
      readLength (P2 ++ X ++ S2) (P2.length + k) = .ok (P2.length + ka, P2.length + kb) := by
  have hsafe := (readLength_safe (P ++ X ++ S) hl (P.length + k)).2 r h
  unfold readLength at h ⊢
  obtain ⟨q, hq, hrest⟩ := bind_eq_ok _ _ _ h
  obtain ⟨v, j⟩ := q
  dsimp only at hrest
  have hqs := (readVarint_safe (P ++ X ++ S) 10 0 (P.length + k) 0).2 v j hq
  by_cases hneg : toInt64 v < 0
  · rw [if_pos hneg] at hrest
    cases hrest
  · rw [if_neg hneg] at hrest
    have hb := toInt64_lt v
    by_cases h1 : wrapInt64 ((j : Int) + toInt64 v) < 0
    · rw [if_pos h1] at hrest
      cases hrest
    · rw [if_neg h1] at hrest
      have hw := wrapInt64_of_nonneg ((j : Int) + toInt64 v) (by omega) (by omega) (by omega)
      by_cases h2 : wrapInt64 ((j : Int) + toInt64 v) > ((P ++ X ++ S).length : Int)
      · rw [if_pos h2] at hrest
        cases hrest
      · rw [if_neg h2] at hrest
        simp only [Except.ok.injEq] at hrest
        subst hrest
        simp only at hj hsafe
        have hj' : j ≤ P.length + X.length := by omega
        obtain ⟨k1, e1, e2, e3, e4⟩ := readVarint_ctx P X S P2 S2 10 0 k 0 v j hq hj'
        rw [hw] at hj hsafe ⊢
        have hlen2 : (P2 ++ X ++ S2).length = P2.length + X.length + S2.length := by
          simp only [List.length_append]
        refine ⟨k1, (toInt64 v).toNat + k1, e1, by omega, e2, by omega, by omega, ?_⟩
        rw [e4, bind_ok]
        dsimp only
        have hw2 := wrapInt64_of_bounds (((P2.length + k1 : Nat) : Int) + toInt64 v) (by omega)
          (by omega)
        rw [if_neg hneg, hw2, if_neg (by omega), if_neg (by omega)]
        congr 2
        omega

theorem slice_window (P X S : Bytes) (a b : Nat) (hab : a ≤ b) (hb : b ≤ X.length) :
    slice (P ++ X ++ S) ((P.length + a : Nat) : Int) ((P.length + b : Nat) : Int)
      = .ok ((X.drop a).take (b - a)) := by
  unfold slice
  rw [if_pos (by simp only [List.length_append]; omega)]
  simp only [Int.toNat_ofNat]
  congr 1
  rw [List.append_assoc, List.drop_append_eq_append_drop, List.drop_of_length_le (by omega),
    List.nil_append, Nat.add_sub_cancel_left, List.drop_append_eq_append_drop,
    List.take_append_eq_append_take]
  have e1 : P.length + b - (P.length + a) = b - a := by omega
  have e2 : (X.drop a).length = X.length - a := List.length_drop _ _
  have e3 : b - a - (X.length - a) = 0 := by omega
  rw [e1, e2, e3, List.take_zero, List.append_nil]

theorem readVarint_suffix (X S S2 : Bytes) (fuel shift i acc v j : Nat)
    (h : readVarint (X ++ S) fuel shift i acc = .ok (v, j)) (hj : j ≤ X.length) :
    readVarint (X ++ S2) fuel shift i acc = .ok (v, j) := by
  have := readVarint_ctx [] X S [] S2 fuel shift i acc v j (by simpa using h) (by simpa using hj)
  obtain ⟨k1, e1, _, _, e4⟩ := this
  simp only [List.length_nil, Nat.zero_add, List.nil_append] at e1 e4
  rw [e1]
  exact e4

theorem skipVarint_suffix (X S S2 : Bytes) (fuel shift i j : Nat)
    (h : skipVarint (X ++ S) fuel shift i = .ok j) (hj : j ≤ X.length) :
    skipVarint (X ++ S2) fuel shift i = .ok j := by
  have := skipVarint_ctx [] X S [] S2 fuel shift i j (by simpa using h) (by simpa using hj)
  obtain ⟨k1, e1, _, _, e4⟩ := this
  simp only [List.length_nil, Nat.zero_add, List.nil_append] at e1 e4
  rw [e1]
  exact e4

theorem skipGenesisLoop_succ (dAtA : Bytes) (fuel i depth : Nat) :
    skipGenesisLoop dAtA (fuel + 1) i depth =
      if i < dAtA.length then
        (readVarint dAtA 10 0 i 0).bind fun r =>
          skipBody dAtA fuel depth r.2 (wrapInt64 (r.2 + 8)) (wrapInt64 (r.2 + 4)) (r.1 &&& 0x7)
      else .error .ErrUnexpectedEOF := by
  rw [skipGenesisLoop]
  rfl

theorem skipAdvance_ext (x : Int) (depth : Nat) (k k2 : Nat → Except Err Int) (n lo : Int)
    (hx : 0 ≤ x → lo ≤ x)
    (hk : ∀ i : Nat, lo ≤ i → k i = .ok n → (i : Int) < n ∧ k2 i = .ok n)
    (h : skipAdvance x depth k = .ok n) : lo ≤ n ∧ skipAdvance x depth k2 = .ok n := by
  unfold skipAdvance at h ⊢
  by_cases h0 : x < 0
  · rw [if_pos h0] at h
    cases h
  · rw [if_neg h0] at h ⊢
    have hlo := hx (by omega)
    by_cases hd : depth = 0
    · rw [if_pos hd] at h ⊢
      simp only [Except.ok.injEq] at h
      exact ⟨by omega, by rw [h]⟩
    · rw [if_neg hd] at h ⊢
      have hc : ((x.toNat : Nat) : Int) = x := Int.toNat_of_nonneg (by omega)
      obtain ⟨a, b⟩ := hk x.toNat (by omega) h
      exact ⟨by omega, b⟩

theorem skipBody_ext (X S S2 : Bytes) (hl : (X ++ S).length < 2 ^ 63)
    (fuel g depth j : Nat) (x8 x4 : Int) (wt : Nat) (n : Int)
    (hf : (X ++ S).length ≤ fuel + j) (hg : X.length ≤ g + j)
    (h8 : 0 ≤ x8 → (j : Int) ≤ x8) (h4 : 0 ≤ x4 → (j : Int) ≤ x4)
    (ih : ∀ (i d : Nat) (n : Int), (X ++ S).length ≤ fuel + i → X.length ≤ g + i →
      skipGenesisLoop (X ++ S) fuel i d = .ok n → n ≤ X.length →
      skipGenesisLoop (X ++ S2) g i d = .ok n)
    (h : skipBody (X ++ S) fuel depth j x8 x4 wt = .ok n) (hn : n ≤ X.length) :
    (j : Int) ≤ n ∧ skipBody (X ++ S2) g depth j x8 x4 wt = .ok n := by
  have hk : ∀ (lo : Nat) (d : Nat), j ≤ lo → ∀ i : Nat, (lo : Int) ≤ i →
      skipGenesisLoop (X ++ S) fuel i d = .ok n →
      (i : Int) < n ∧ skipGenesisLoop (X ++ S2) g i d = .ok n := by
    intro lo d hlo i hi hr
    have hs := (skipGenesisLoop_safe (X ++ S) hl fuel i d (by omega)).2 n hr
    exact ⟨hs.1, ih i d n (by omega) (by omega) hr hn⟩
  rcases wt with _ | _ | _ | _ | _ | _ | w
  · -- wire type 0
    simp only [skipBody] at h ⊢
    obtain ⟨j2, hv, hrest⟩ := bind_eq_ok _ _ _ h
    have hv2 := (skipVarint_safe (X ++ S) 10 0 j).2 j2 hv
    obtain ⟨a, b⟩ := skipAdvance_ext (j2 : Int) depth _
      (fun i => skipGenesisLoop (X ++ S2) g i depth) n (j2 : Int) (fun _ => le_refl _)
      (hk j2 depth (by omega)) hrest
    refine ⟨by omega, ?_⟩
    rw [skipVarint_suffix X S S2 10 0 j j2 hv (by omega), bind_ok]
    exact b
  · -- wire type 1
    simp only [skipBody] at h ⊢
    exact skipAdvance_ext x8 depth _ _ n (j : Int) h8 (hk j depth (le_refl _)) h
  · -- wire type 2
    simp only [skipBody] at h ⊢
    obtain ⟨r2, hv, hrest⟩ := bind_eq_ok _ _ _ h
    have hv2 := (readVarint_safe (X ++ S) 10 0 j 0).2 r2.1 r2.2 hv
    by_cases hneg : toInt64 r2.1 < 0
    · rw [if_pos hneg] at hrest
      cases hrest
    · rw [if_neg hneg] at hrest
      have hb := toInt64_lt r2.1
      obtain ⟨a, b⟩ := skipAdvance_ext (wrapInt64 ((r2.2 : Int) + toInt64 r2.1)) depth _
        (fun i => skipGenesisLoop (X ++ S2) g i depth) n (r2.2 : Int)
        (fun h0 => by
          have hw := wrapInt64_of_nonneg ((r2.2 : Int) + toInt64 r2.1) (by omega) (by omega) h0
          omega)
        (hk r2.2 depth (by omega)) hrest
      refine ⟨by omega, ?_⟩
      rw [readVarint_suffix X S S2 10 0 j 0 r2.1 r2.2 hv (by omega), bind_ok]
      simp only [if_neg hneg]
      exact b
  · -- wire type 3
    simp only [skipBody] at h ⊢
    exact skipAdvance_ext (j : Int) (depth + 1) _ _ n (j : Int) (fun _ => le_refl _)
      (hk j (depth + 1) (le_refl _)) h
  · -- wire type 4
    simp only [skipBody] at h ⊢
    by_cases hd : depth = 0
    · rw [if_pos hd] at h
      cases h
    · rw [if_neg hd] at h ⊢
      exact skipAdvance_ext (j : Int) (depth - 1) _ _ n (j : Int) (fun _ => le_refl _)
        (hk j (depth - 1) (le_refl _)) h
  · -- wire type 5
    simp only [skipBody] at h ⊢
    exact skipAdvance_ext x4 depth _ _ n (j : Int) h4 (hk j depth (le_refl _)) h
  · simp only [skipBody] at h
    cases h

/-- A successful run of the loop of `skipGenesis` that ends inside the first
part `X` of the input is the same with other bytes behind `X`. -/
theorem skipGenesisLoop_ext (X S S2 : Bytes) (hl : (X ++ S).length < 2 ^ 63) :
    ∀ (fuel g i depth : Nat) (n : Int), (X ++ S).length ≤ fuel + i → X.length ≤ g + i →
    skipGenesisLoop (X ++ S) fuel i depth = .ok n → n ≤ X.length →
    skipGenesisLoop (X ++ S2) g i depth = .ok n := by
  intro fuel
  induction fuel with
  | zero =>
    intro g i depth n _ _ h _
    rw [skipGenesisLoop] at h
    split at h <;> cases h
  | succ fuel ih =>
    intro g i depth n hf hg h hn
    have hs := (skipGenesisLoop_safe (X ++ S) hl (fuel + 1) i depth hf).2 n h
    have hi : i < X.length := by omega
    cases g with
    | zero => omega
    | succ g =>
      rw [skipGenesisLoop_succ] at h ⊢
      rw [if_pos (by simp only [List.length_append]; omega)] at h
      rw [if_pos (by simp only [List.length_append]; omega)]
      obtain ⟨r, hr, hrest⟩ := bind_eq_ok _ _ _ h
      have hr2 := (readVarint_safe (X ++ S) 10 0 i 0).2 r.1 r.2 hr
      obtain ⟨a, b⟩ := skipBody_ext X S S2 hl fuel g depth r.2
        (wrapInt64 ((r.2 : Int) + 8)) (wrapInt64 ((r.2 : Int) + 4)) (r.1 &&& 0x7) n
        (by omega) (by omega)
        (fun h0 => by
          have hw := wrapInt64_of_nonneg ((r.2 : Int) + 8) (by omega) (by omega) h0
          omega)
        (fun h0 => by
          have hw := wrapInt64_of_nonneg ((r.2 : Int) + 4) (by omega) (by omega) h0
          omega)
        (fun i d n h1 h2 h3 h4 => ih g i d n h1 h2 h3 h4) hrest hn
      rw [readVarint_suffix X S S2 10 0 i 0 r.1 r.2 hr (by omega), bind_ok]
      exact b

theorem slice_to_end (P Y : Bytes) :
    slice (P ++ Y) ((P.length : Nat) : Int) (((P ++ Y).length : Nat) : Int) = .ok Y := by
  have := slice_append P Y []
  simp only [List.append_nil] at this
  rw [← this]
  simp only [List.length_append]

theorem slice_from (P X S : Bytes) (k : Nat) (hk : k ≤ X.length) :
    slice (P ++ X ++ S) ((P.length + k : Nat) : Int) (((P ++ X ++ S).length : Nat) : Int)
      = .ok (X.drop k ++ S) := by
  have e : P ++ X ++ S = (P ++ X.take k) ++ (X.drop k ++ S) := by
    rw [List.append_assoc, List.append_assoc, ← List.append_assoc (X.take k),
      List.take_append_drop]
  have el : (P ++ X.take k).length = P.length + k := by
    rw [List.length_append, List.length_take, Nat.min_eq_left hk]
  have := slice_to_end (P ++ X.take k) (X.drop k ++ S)
  rw [el, ← e] at this
  exact this

/-- What a successful `skipField` has computed. -/
theorem skipField_ok (dAtA : Bytes) (hl : dAtA.length < 2 ^ 63) (pre j : Nat)
    (h : skipField dAtA pre = .ok j) :
    pre ≤ dAtA.length ∧ pre < j ∧ j ≤ dAtA.length ∧
    ∃ rest, slice dAtA (pre : Int) (dAtA.length : Int) = .ok rest ∧
      skipGenesis rest = .ok (((j - pre : Nat) : Int)) := by
  have hpre : pre ≤ dAtA.length := by
    by_contra hc
    unfold skipField slice at h
    dsimp only at h
    rw [if_neg (by omega), bind_error] at h
    cases h
  obtain ⟨s1, s2⟩ := (skipField_safe dAtA hl pre hpre).2 j h
  refine ⟨hpre, s1, s2, ?_⟩
  unfold skipField at h
  obtain ⟨rest, hrest, h2⟩ := bind_eq_ok _ _ _ h
  obtain ⟨skippy, hsk, h3⟩ := bind_eq_ok _ _ _ h2
  refine ⟨rest, hrest, ?_⟩
  rw [hsk]
  by_cases h1 : skippy < 0 ∨ wrapInt64 ((pre : Int) + skippy) < 0
  · rw [if_pos h1] at h3
    cases h3
  · rw [if_neg h1] at h3
    have hlr : rest.length < 2 ^ 63 := by
      unfold slice at hrest
      split at hrest
      · simp only [Except.ok.injEq] at hrest
        rw [← hrest, List.length_take, List.length_drop]
        omega
      · cases hrest
    have hs := (skipGenesis_safe rest hlr).2 skippy hsk
    have hw := wrapInt64_of_nonneg ((pre : Int) + skippy) (by omega) (by omega) (by omega)
    by_cases hgt : wrapInt64 ((pre : Int) + skippy) > (dAtA.length : Int)
    · rw [if_pos hgt] at h3
      cases h3
    · rw [if_neg hgt] at h3
      simp only [Except.ok.injEq] at h3
      congr 1
      omega

/-- The converse: `skipField` from what `skipGenesis` returns. -/
theorem skipField_of_skip (dAtA rest : Bytes) (hl : dAtA.length < 2 ^ 63) (pre n : Nat)
    (hs : slice dAtA (pre : Int) (dAtA.length : Int) = .ok rest)
    (hg : skipGenesis rest = .ok (n : Int)) (hn : pre + n ≤ dAtA.length) :
    skipField dAtA pre = .ok (pre + n) := by
  unfold skipField
  dsimp only
  rw [hs, bind_ok, hg, bind_ok]
  have hw := wrapInt64_of_bounds ((pre : Int) + (n : Int)) (by omega) (by omega)
  rw [hw, if_neg (by omega), if_neg (by omega)]
  congr 1

theorem skipField_ctx (P X S P2 S2 : Bytes) (k j : Nat)
    (hl : (P ++ X ++ S).length < 2 ^ 63) (hl2 : (P2 ++ X ++ S2).length < 2 ^ 63)
    (h : skipField (P ++ X ++ S) (P.length + k) = .ok j) (hj : j ≤ P.length + X.length) :
    ∃ k1, j = P.length + k1 ∧ k < k1 ∧ k1 ≤ X.length ∧
      skipField (P2 ++ X ++ S2) (P2.length + k) = .ok (P2.length + k1) := by
  obtain ⟨hpre, h1, h2, rest, hrest, hsk⟩ := skipField_ok _ hl _ _ h
  have hk : k ≤ X.length := by omega
  rw [slice_from P X S k hk] at hrest
  simp only [Except.ok.injEq] at hrest
  subst hrest
  have hdl : (X.drop k).length = X.length - k := List.length_drop _ _
  have hlr : (X.drop k ++ S).length < 2 ^ 63 := by
    simp only [List.length_append] at hl ⊢
    omega
  have hext := skipGenesisLoop_ext (X.drop k) S S2 hlr (X.drop k ++ S).length
    (X.drop k ++ S2).length 0 0 _ (by omega) (by simp only [List.length_append]; omega) hsk
    (by omega)
  refine ⟨j - P.length, by omega, by omega, by omega, ?_⟩
  have := skipField_of_skip (P2 ++ X ++ S2) (X.drop k ++ S2) hl2 (P2.length + k)
    (j - (P.length + k)) (slice_from P2 X S2 k hk) hext
    (by simp only [List.length_append]; omega)
  rw [this]
  congr 1
  omega

/-- The tag that the loop has read lies inside the field that `skipField`
skips. -/
theorem skipField_tag (dAtA : Bytes) (hl : dAtA.length < 2 ^ 63) (pre j v jt : Nat)
    (h : skipField dAtA pre = .ok j) (ht : readVarint dAtA 10 0 pre 0 = .ok (v, jt)) :
    jt ≤ j := by
  obtain ⟨hpre, h1, h2, rest, hrest, hsk⟩ := skipField_ok _ hl _ _ h
  obtain ⟨P, Y, rfl, hP⟩ : ∃ P Y, dAtA = P ++ Y ∧ P.length = pre :=
    ⟨dAtA.take pre, dAtA.drop pre, (List.take_append_drop _ _).symm,
      by rw [List.length_take]; omega⟩
  subst hP
  rw [slice_to_end] at hrest
  simp only [Except.ok.injEq] at hrest
  subst hrest
  have hlr : Y.length < 2 ^ 63 := by
    simp only [List.length_append] at hl
    omega
  simp only [List.length_append] at h2
  unfold skipGenesis at hsk
  cases hY : Y.length with
  | zero =>
    rw [hY, skipGenesisLoop] at hsk
    split at hsk <;> cases hsk
  | succ f =>
    rw [hY, skipGenesisLoop_succ, if_pos (by omega)] at hsk
    obtain ⟨r, hr, hbody⟩ := bind_eq_ok _ _ _ hsk
    have hr2 := (readVarint_safe Y 10 0 0 0).2 r.1 r.2 hr
    have e0 : Y = Y ++ [] := by simp
    rw [e0] at hbody
    obtain ⟨a, _⟩ := skipBody_ext Y [] [] (by simpa using hlr) f f 0 r.2
      (wrapInt64 ((r.2 : Int) + 8)) (wrapInt64 ((r.2 : Int) + 4)) (r.1 &&& 0x7) _
      (by simp only [List.append_nil]; omega) (by omega)
      (fun h0 => by
        have hw := wrapInt64_of_nonneg ((r.2 : Int) + 8) (by omega) (by omega) h0
        omega)
      (fun h0 => by
        have hw := wrapInt64_of_nonneg ((r.2 : Int) + 4) (by omega) (by omega) h0
        omega)
      (fun _ _ _ _ _ h3 _ => h3) hbody (by omega)
    -- the tag read at `pre` in the whole input is the tag read at 0 in the rest
    have hc := readVarint_ctx [] Y [] P [] 10 0 0 0 r.1 r.2 (by simpa using hr) (by simpa using hr2.2)
    obtain ⟨k1, e1, _, _, e4⟩ := hc
    simp only [List.length_nil, Nat.zero_add, List.append_nil, Nat.add_zero] at e1 e4
    rw [e4] at ht
    simp only [Except.ok.injEq, Prod.mk.injEq] at ht
    omega

/-! ### The decoding loops and their iterations -/

theorem bind_bind {α β γ : Type} (x : Except Err α) (f : α → Except Err β)
    (g : β → Except Err γ) : (x.bind f).bind g = x.bind fun a => (f a).bind g := by
  cases x <;> rfl

theorem Params_loop_succ (d : Bytes) (f i : Nat) (m : Params) :
    Params.unmarshalLoop d (f + 1) i m =
      if i < d.length then (Params.step d i m).bind fun r => Params.unmarshalLoop d f r.1 r.2
      else finish d i m := by
  rw [Params.unmarshalLoop]
  by_cases hi : i < d.length
  · rw [if_pos hi, if_pos hi]
    unfold Params.step
    dsimp only
    rw [bind_bind]
    congr 1
    funext t
    split <;> (try split) <;> first | rfl | simp only [bind_bind, bind_ok]
  · rw [if_neg hi, if_neg hi]

theorem Precompiles_loop_succ (d : Bytes) (f i : Nat) (m : Precompiles) :
    Precompiles.unmarshalLoop d (f + 1) i m =
      if i < d.length then
        (Precompiles.step d i m).bind fun r => Precompiles.unmarshalLoop d f r.1 r.2
      else finish d i m := by
  rw [Precompiles.unmarshalLoop]
  by_cases hi : i < d.length
  · rw [if_pos hi, if_pos hi]
    unfold Precompiles.step
    dsimp only
    rw [bind_bind]
    congr 1
    funext t
    split <;> (try split) <;> first | rfl | simp only [bind_bind, bind_ok]
  · rw [if_neg hi, if_neg hi]

theorem GenesisState_loop_succ {TP : Type} (c : TokenPairCodec TP) (d : Bytes) (f i : Nat)
    (m : GenesisState TP) :
    GenesisState.unmarshalLoop c d (f + 1) i m =
      if i < d.length then
        (GenesisState.step c d i m).bind fun r => GenesisState.unmarshalLoop c d f r.1 r.2
      else finish d i m := by
  rw [GenesisState.unmarshalLoop]
  by_cases hi : i < d.length
  · rw [if_pos hi, if_pos hi]
    unfold GenesisState.step
    dsimp only
    rw [bind_bind]
    congr 1
    funext t
    split <;> (try split) <;> first | rfl | simp only [bind_bind, bind_ok]
  · rw [if_neg hi, if_neg hi]

theorem Params_step_eq (d : Bytes) (i : Nat) (m : Params) :
    Params.step d i m =
      (readTag d i).bind fun t =>
        if t.1 = 1 then
          if t.2.1 ≠ 0 then .error (.wrongWireType t.2.1 1)
          else
            (readVarint d 10 0 t.2.2 0).bind fun r =>
              .ok (r.2, { m with EnableErc20 := decide (toInt64 r.1 ≠ 0) })
        else (skipField d i).bind fun j => .ok (j, m) := by
  unfold Params.step
  dsimp only
  congr 1
  funext t
  split
  · rename_i fn heq
    rw [if_pos heq]
  · rename_i fn hne
    rw [if_neg (fun h => hne h)]

theorem Precompiles_step_eq (d : Bytes) (i : Nat) (m : Precompiles) :
    Precompiles.step d i m =
      (readTag d i).bind fun t =>
        if t.1 = 1 then
          if t.2.1 ≠ 2 then .error (.wrongWireType t.2.1 1)
          else
            (readPayload d t.2.2).bind fun p =>
              (Except.ok { m with Native := m.Native ++ [p.2] } : Except Err Precompiles).bind
                fun q => .ok (p.1, q)
        else if t.1 = 2 then
          if t.2.1 ≠ 2 then .error (.wrongWireType t.2.1 2)
          else
            (readPayload d t.2.2).bind fun p =>
              (Except.ok { m with Dynamic := m.Dynamic ++ [p.2] } : Except Err Precompiles).bind
                fun q => .ok (p.1, q)
        else (skipField d i).bind fun j => .ok (j, m) := by
  unfold Precompiles.step readPayload
  dsimp only
  congr 1
  funext t
  split
  · rename_i fn heq
    rw [if_pos heq]
    simp only [bind_bind, bind_ok]
  · rename_i fn heq
    have h1 : ¬ t.1 = 1 := by omega
    rw [if_neg h1, if_pos heq]
    simp only [bind_bind, bind_ok]
  · rename_i fn hn1 hn2
    rw [if_neg (fun h => hn1 h), if_neg (fun h => hn2 h)]

theorem GenesisState_step_eq {TP : Type} (c : TokenPairCodec TP) (d : Bytes) (i : Nat)
    (m : GenesisState TP) :
    GenesisState.step c d i m =
      (readTag d i).bind fun t =>
        if t.1 = 1 then
          if t.2.1 ≠ 2 then .error (.wrongWireType t.2.1 1)
          else
            (readPayload d t.2.2).bind fun p =>
              ((m.Params.Unmarshal p.2).bind fun q =>
                (Except.ok { m with Params := q } : Except Err (GenesisState TP))).bind
                fun q => .ok (p.1, q)
        else if t.1 = 2 then
          if t.2.1 ≠ 2 then .error (.wrongWireType t.2.1 2)
          else
            (readPayload d t.2.2).bind fun p =>
              ((c.Unmarshal p.2).bind fun e =>
                (Except.ok { m with TokenPairs := m.TokenPairs ++ [e] } :
                  Except Err (GenesisState TP))).bind
                fun q => .ok (p.1, q)
        else if t.1 = 3 then
          if t.2.1 ≠ 2 then .error (.wrongWireType t.2.1 3)
          else
            (readPayload d t.2.2).bind fun p =>
              ((m.Precompiles.Unmarshal p.2).bind fun q =>
                (Except.ok { m with Precompiles := q } : Except Err (GenesisState TP))).bind
                fun q => .ok (p.1, q)
        else (skipField d i).bind fun j => .ok (j, m) := by
  unfold GenesisState.step readPayload
  dsimp only
  congr 1
  funext t
  split
  · rename_i fn heq
    rw [if_pos heq]
    simp only [bind_bind, bind_ok]
  · rename_i fn heq
    have h1 : ¬ t.1 = 1 := by omega
    rw [if_neg h1, if_pos heq]
    simp only [bind_bind, bind_ok]
  · rename_i fn heq
    have h1 : ¬ t.1 = 1 := by omega
    have h2 : ¬ t.1 = 2 := by omega
    rw [if_neg h1, if_neg h2, if_pos heq]
    simp only [bind_bind, bind_ok]
  · rename_i fn hn1 hn2 hn3
    rw [if_neg (fun h => hn1 h), if_neg (fun h => hn2 h), if_neg (fun h => hn3 h)]

theorem readPayload_safe (d : Bytes) (hl : d.length < 2 ^ 63) (i j : Nat) (s : Bytes)
    (h : readPayload d i = .ok (j, s)) : i < j ∧ j ≤ d.length := by
  unfold readPayload at h
  obtain ⟨r, hr, h2⟩ := bind_eq_ok _ _ _ h
  obtain ⟨s1, hs, h3⟩ := bind_eq_ok _ _ _ h2
  simp only [Except.ok.injEq, Prod.mk.injEq] at h3
  have := (readLength_safe d hl i).2 r hr
  omega

theorem readPayload_ctx (P X S P2 S2 : Bytes) (k j : Nat) (s : Bytes)
    (hl : (P ++ X ++ S).length < 2 ^ 63) (hl2 : (P2 ++ X ++ S2).length < 2 ^ 63)
    (h : readPayload (P ++ X ++ S) (P.length + k) = .ok (j, s)) (hj : j ≤ P.length + X.length) :
    ∃ k1, j = P.length + k1 ∧ k < k1 ∧ k1 ≤ X.length ∧
      readPayload (P2 ++ X ++ S2) (P2.length + k) = .ok (P2.length + k1, s) := by
  unfold readPayload at h ⊢
  obtain ⟨r, hr, h2⟩ := bind_eq_ok _ _ _ h
  obtain ⟨s1, hs, h3⟩ := bind_eq_ok _ _ _ h2
  simp only [Except.ok.injEq, Prod.mk.injEq] at h3
  obtain ⟨h3a, h3b⟩ := h3
  subst h3b
  obtain ⟨ka, kb, e1, e2, e3, e4, e5, e6⟩ :=
    readLength_ctx P X S P2 S2 k r hl hl2 hr (by omega)
  rw [e1, e2, slice_window P X S ka kb e4 e5] at hs
  simp only [Except.ok.injEq] at hs
  refine ⟨kb, by omega, by omega, e5, ?_⟩
  rw [e6, bind_ok]
  dsimp only
  rw [slice_window P2 X S2 ka kb e4 e5, bind_ok, hs]

theorem decoded_adv (d : Bytes) (hl : d.length < 2 ^ 63) {M : Type} (g : Bytes → Except Err M)
    (i j : Nat) (m1 : M)
    (h : ((readPayload d i).bind fun p => (g p.2).bind fun q => Except.ok (p.1, q))
      = .ok (j, m1)) : i < j ∧ j ≤ d.length := by
  obtain ⟨p, hp, h2⟩ := bind_eq_ok _ _ _ h
  obtain ⟨q, hq, h3⟩ := bind_eq_ok _ _ _ h2
  simp only [Except.ok.injEq, Prod.mk.injEq] at h3
  have := readPayload_safe d hl i p.1 p.2 hp
  omega

/-- A length-delimited field of the message inside a window of the input. -/
theorem decoded_ctx (P X S P2 S2 : Bytes) {M : Type} (g : Bytes → Except Err M)
    (k j : Nat) (m1 : M) (t : Int × Nat × Nat)
    (hl : (P ++ X ++ S).length < 2 ^ 63) (hl2 : (P2 ++ X ++ S2).length < 2 ^ 63)
    (ht : readTag (P ++ X ++ S) (P.length + k) = .ok t)
    (h : ((readPayload (P ++ X ++ S) t.2.2).bind fun p =>
      (g p.2).bind fun q => Except.ok (p.1, q)) = .ok (j, m1))
    (hj : j ≤ P.length + X.length) :
    ∃ k1, j = P.length + k1 ∧
      readTag (P2 ++ X ++ S2) (P2.length + k) = .ok (t.1, t.2.1, P2.length + (t.2.2 - P.length)) ∧
      ((readPayload (P2 ++ X ++ S2) (P2.length + (t.2.2 - P.length))).bind fun p =>
        (g p.2).bind fun q => Except.ok (p.1, q)) = .ok (P2.length + k1, m1) := by
  obtain ⟨p, hp, h2⟩ := bind_eq_ok _ _ _ h
  obtain ⟨q, hq, h3⟩ := bind_eq_ok _ _ _ h2
  simp only [Except.ok.injEq, Prod.mk.injEq] at h3
  obtain ⟨h3a, h3b⟩ := h3
  have hps := readPayload_safe _ hl _ p.1 p.2 hp
  obtain ⟨kt, e1, _, _, e4⟩ := readTag_ctx P X S P2 S2 k t ht (by omega)
  rw [e1] at hp
  obtain ⟨k1, g1, _, _, g4⟩ := readPayload_ctx P X S P2 S2 kt p.1 p.2 hl hl2 hp (by omega)
  refine ⟨k1, by omega, ?_, ?_⟩
  · rw [e4, e1, Nat.add_sub_cancel_left]
  · rw [e1, Nat.add_sub_cancel_left, g4, bind_ok]
    dsimp only
    rw [hq, bind_ok, h3b]

theorem skipped_adv (d : Bytes) (hl : d.length < 2 ^ 63) {M : Type} (i j : Nat) (m m1 : M)
    (hi : i ≤ d.length)
    (h : ((skipField d i).bind fun j => Except.ok (j, m)) = .ok (j, m1)) :
    i < j ∧ j ≤ d.length := by
  obtain ⟨j1, hj, h2⟩ := bind_eq_ok _ _ _ h
  simp only [Except.ok.injEq, Prod.mk.injEq] at h2
  have := (skipField_safe d hl i hi).2 j1 hj
  omega

/-- The default case of the field switch inside a window of the input. -/
theorem skipped_ctx (P X S P2 S2 : Bytes) {M : Type} (k j : Nat) (m m1 : M) (t : Int × Nat × Nat)
    (hl : (P ++ X ++ S).length < 2 ^ 63) (hl2 : (P2 ++ X ++ S2).length < 2 ^ 63)
    (ht : readTag (P ++ X ++ S) (P.length + k) = .ok t)
    (h : ((skipField (P ++ X ++ S) (P.length + k)).bind fun j => Except.ok (j, m)) = .ok (j, m1))
    (hj : j ≤ P.length + X.length) :
    ∃ k1, j = P.length + k1 ∧
      readTag (P2 ++ X ++ S2) (P2.length + k) = .ok (t.1, t.2.1, P2.length + (t.2.2 - P.length)) ∧
      ((skipField (P2 ++ X ++ S2) (P2.length + k)).bind fun j => Except.ok (j, m))
        = .ok (P2.length + k1, m1) := by
  obtain ⟨j1, hj1, h2⟩ := bind_eq_ok _ _ _ h
  simp only [Except.ok.injEq, Prod.mk.injEq] at h2
  obtain ⟨h2a, h2b⟩ := h2
  subst h2a
  subst h2b
  -- the tag lies inside the skipped field
  have htag : t.2.2 ≤ j1 := by
    unfold readTag at ht
    obtain ⟨r, hr, h3⟩ := bind_eq_ok _ _ _ ht
    have := skipField_tag _ hl _ _ r.1 r.2 hj1 hr
    dsimp only at h3
    split at h3
    · cases h3
    · split at h3
      · cases h3
      · simp only [Except.ok.injEq] at h3
        rw [← h3]
        exact this
  obtain ⟨kt, e1, _, _, e4⟩ := readTag_ctx P X S P2 S2 k t ht (by omega)
  obtain ⟨k1, f1, _, _, f4⟩ := skipField_ctx P X S P2 S2 k j1 hl hl2 hj1 hj
  refine ⟨k1, f1, ?_, ?_⟩
  · rw [e4, e1, Nat.add_sub_cancel_left]
  · rw [f4, bind_ok]

theorem Params_step_adv (d : Bytes) (hl : d.length < 2 ^ 63) (i : Nat) (m : Params) (j : Nat)
    (m1 : Params) (h : Params.step d i m = .ok (j, m1)) : i < j ∧ j ≤ d.length := by
  rw [Params_step_eq] at h
  obtain ⟨t, ht, hb⟩ := bind_eq_ok _ _ _ h
  have hts := (readTag_safe d i).2 t ht
  by_cases h1 : t.1 = 1
  · rw [if_pos h1] at hb
    by_cases hw : t.2.1 ≠ 0
    · rw [if_pos hw] at hb
      cases hb
    · rw [if_neg hw] at hb
      obtain ⟨r, hr, h2⟩ := bind_eq_ok _ _ _ hb
      simp only [Except.ok.injEq, Prod.mk.injEq] at h2
      have := (readVarint_safe d 10 0 t.2.2 0).2 r.1 r.2 hr
      omega
  · rw [if_neg h1] at hb
    exact skipped_adv d hl i j m m1 (by omega) hb

theorem Params_step_ctx (P X S P2 S2 : Bytes) (k : Nat) (m : Params) (j : Nat) (m1 : Params)
    (hl : (P ++ X ++ S).length < 2 ^ 63) (hl2 : (P2 ++ X ++ S2).length < 2 ^ 63)
    (h : Params.step (P ++ X ++ S) (P.length + k) m = .ok (j, m1))
    (hj : j ≤ P.length + X.length) :
    ∃ k1, j = P.length + k1 ∧
      Params.step (P2 ++ X ++ S2) (P2.length + k) m = .ok (P2.length + k1, m1) := by
  rw [Params_step_eq] at h ⊢
  obtain ⟨t, ht, hb⟩ := bind_eq_ok _ _ _ h
  have hts := (readTag_safe _ _).2 t ht
  by_cases h1 : t.1 = 1
  · rw [if_pos h1] at hb
    by_cases hw : t.2.1 ≠ 0
    · rw [if_pos hw] at hb
      cases hb
    · rw [if_neg hw] at hb
      obtain ⟨r, hr, h2⟩ := bind_eq_ok _ _ _ hb
      simp only [Except.ok.injEq, Prod.mk.injEq] at h2
      obtain ⟨h2a, h2b⟩ := h2
      have hrs := (readVarint_safe _ 10 0 t.2.2 0).2 r.1 r.2 hr
      obtain ⟨kt, e1, _, _, e4⟩ := readTag_ctx P X S P2 S2 k t ht (by omega)
      rw [e1] at hr
      obtain ⟨k1, g1, _, _, g4⟩ := readVarint_ctx P X S P2 S2 10 0 kt 0 r.1 r.2 hr (by omega)
      refine ⟨k1, by omega, ?_⟩
      rw [e4, bind_ok]
      dsimp only
      rw [if_pos h1, if_neg hw, g4, bind_ok, ← h2b]
  · rw [if_neg h1] at hb
    obtain ⟨k1, f1, f2, f3⟩ := skipped_ctx P X S P2 S2 k j m m1 t hl hl2 ht hb hj
    refine ⟨k1, f1, ?_⟩
    rw [f2, bind_ok]
    dsimp only
    rw [if_neg h1]
    exact f3

theorem Params_laws : LoopLaws Params.unmarshalLoop Params.step :=
  { loop_zero := fun d i m => by rw [Params.unmarshalLoop]
    loop_succ := Params_loop_succ
    adv := Params_step_adv
    ctx := fun P X S P2 S2 k m j m1 hl hl2 h hj =>
      Params_step_ctx P X S P2 S2 k m j m1 hl hl2 h hj }

theorem Precompiles_step_adv (d : Bytes) (hl : d.length < 2 ^ 63) (i : Nat) (m : Precompiles) (j : Nat)
    (m1 : Precompiles) (h : Precompiles.step d i m = .ok (j, m1)) : i < j ∧ j ≤ d.length := by
  rw [Precompiles_step_eq] at h
  obtain ⟨t, ht, hb⟩ := bind_eq_ok _ _ _ h
  have hts := (readTag_safe d i).2 t ht
  by_cases h1 : t.1 = 1
  · rw [if_pos h1] at hb
    by_cases hw : t.2.1 ≠ 2
    · rw [if_pos hw] at hb
      cases hb
    · rw [if_neg hw] at hb
      have := decoded_adv d hl
        (fun s => (Except.ok { m with Native := m.Native ++ [s] } : Except Err Precompiles))
        t.2.2 j m1 hb
      omega
  · rw [if_neg h1] at hb
    by_cases h2 : t.1 = 2
    · rw [if_pos h2] at hb
      by_cases hw : t.2.1 ≠ 2
      · rw [if_pos hw] at hb
        cases hb
      · rw [if_neg hw] at hb
        have := decoded_adv d hl
          (fun s => (Except.ok { m with Dynamic := m.Dynamic ++ [s] } : Except Err Precompiles))
          t.2.2 j m1 hb
        omega
    · rw [if_neg h2] at hb
      exact skipped_adv d hl i j m m1 (by omega) hb

theorem Precompiles_step_ctx (P X S P2 S2 : Bytes) (k : Nat) (m : Precompiles) (j : Nat)
    (m1 : Precompiles)
    (hl : (P ++ X ++ S).length < 2 ^ 63) (hl2 : (P2 ++ X ++ S2).length < 2 ^ 63)
    (h : Precompiles.step (P ++ X ++ S) (P.length + k) m = .ok (j, m1))
    (hj : j ≤ P.length + X.length) :
    ∃ k1, j = P.length + k1 ∧
      Precompiles.step (P2 ++ X ++ S2) (P2.length + k) m = .ok (P2.length + k1, m1) := by
  rw [Precompiles_step_eq] at h ⊢
  obtain ⟨t, ht, hb⟩ := bind_eq_ok _ _ _ h
  by_cases h1 : t.1 = 1
  · rw [if_pos h1] at hb
    by_cases hw : t.2.1 ≠ 2
    · rw [if_pos hw] at hb
      cases hb
    · rw [if_neg hw] at hb
      obtain ⟨k1, f1, f2, f3⟩ := decoded_ctx P X S P2 S2
        (fun s => (Except.ok { m with Native := m.Native ++ [s] } : Except Err Precompiles))
        k j m1 t hl hl2 ht hb hj
      refine ⟨k1, f1, ?_⟩
      rw [f2, bind_ok]
      dsimp only
      rw [if_pos h1, if_neg hw]
      exact f3
  · rw [if_neg h1] at hb
    by_cases h2 : t.1 = 2
    · rw [if_pos h2] at hb
      by_cases hw : t.2.1 ≠ 2
      · rw [if_pos hw] at hb
        cases hb
      · rw [if_neg hw] at hb
        obtain ⟨k1, f1, f2, f3⟩ := decoded_ctx P X S P2 S2
          (fun s => (Except.ok { m with Dynamic := m.Dynamic ++ [s] } : Except Err Precompiles))
          k j m1 t hl hl2 ht hb hj
        refine ⟨k1, f1, ?_⟩
        rw [f2, bind_ok]
        dsimp only
        rw [if_neg h1, if_pos h2, if_neg hw]
        exact f3
    · rw [if_neg h2] at hb
      obtain ⟨k1, f1, f2, f3⟩ := skipped_ctx P X S P2 S2 k j m m1 t hl hl2 ht hb hj
      refine ⟨k1, f1, ?_⟩
      rw [f2, bind_ok]
      dsimp only
      rw [if_neg h1, if_neg h2]
      exact f3

theorem Precompiles_laws : LoopLaws (Precompiles.unmarshalLoop) (Precompiles.step) :=
  { loop_zero := fun d i m => by rw [Precompiles.unmarshalLoop]
    loop_succ := Precompiles_loop_succ
    adv := Precompiles_step_adv
    ctx := fun P X S P2 S2 k m j m1 hl hl2 h hj =>
      Precompiles_step_ctx P X S P2 S2 k m j m1 hl hl2 h hj }

theorem GenesisState_step_adv {TP : Type} (c : TokenPairCodec TP) (d : Bytes) (hl : d.length < 2 ^ 63) (i : Nat) (m : GenesisState TP) (j : Nat)
    (m1 : GenesisState TP) (h : GenesisState.step c d i m = .ok (j, m1)) : i < j ∧ j ≤ d.length := by
  rw [GenesisState_step_eq] at h
  obtain ⟨t, ht, hb⟩ := bind_eq_ok _ _ _ h
  have hts := (readTag_safe d i).2 t ht
  by_cases h1 : t.1 = 1
  · rw [if_pos h1] at hb
    by_cases hw : t.2.1 ≠ 2
    · rw [if_pos hw] at hb
      cases hb
    · rw [if_neg hw] at hb
      have := decoded_adv d hl
        (fun s => (m.Params.Unmarshal s).bind fun q =>
        (Except.ok { m with Params := q } : Except Err (GenesisState TP)))
        t.2.2 j m1 hb
      omega
  · rw [if_neg h1] at hb
    by_cases h2 : t.1 = 2
    · rw [if_pos h2] at hb
      by_cases hw : t.2.1 ≠ 2
      · rw [if_pos hw] at hb
        cases hb
      · rw [if_neg hw] at hb
        have := decoded_adv d hl
          (fun s => (c.Unmarshal s).bind fun e =>
          (Except.ok { m with TokenPairs := m.TokenPairs ++ [e] } : Except Err (GenesisState TP)))
          t.2.2 j m1 hb
        omega
    · rw [if_neg h2] at hb
      by_cases h3 : t.1 = 3
      · rw [if_pos h3] at hb
        by_cases hw : t.2.1 ≠ 2
        · rw [if_pos hw] at hb
          cases hb
        · rw [if_neg hw] at hb
          have := decoded_adv d hl
            (fun s => (m.Precompiles.Unmarshal s).bind fun q =>
            (Except.ok { m with Precompiles := q } : Except Err (GenesisState TP)))
            t.2.2 j m1 hb
          omega
      · rw [if_neg h3] at hb
        exact skipped_adv d hl i j m m1 (by omega) hb

theorem GenesisState_step_ctx {TP : Type} (c : TokenPairCodec TP) (P X S P2 S2 : Bytes) (k : Nat) (m : GenesisState TP) (j : Nat)
    (m1 : GenesisState TP)
    (hl : (P ++ X ++ S).length < 2 ^ 63) (hl2 : (P2 ++ X ++ S2).length < 2 ^ 63)
    (h : GenesisState.step c (P ++ X ++ S) (P.length + k) m = .ok (j, m1))
    (hj : j ≤ P.length + X.length) :
    ∃ k1, j = P.length + k1 ∧
      GenesisState.step c (P2 ++ X ++ S2) (P2.length + k) m = .ok (P2.length + k1, m1) := by
  rw [GenesisState_step_eq] at h ⊢
  obtain ⟨t, ht, hb⟩ := bind_eq_ok _ _ _ h
  by_cases h1 : t.1 = 1
  · rw [if_pos h1] at hb
    by_cases hw : t.2.1 ≠ 2
    · rw [if_pos hw] at hb
      cases hb
    · rw [if_neg hw] at hb
      obtain ⟨k1, f1, f2, f3⟩ := decoded_ctx P X S P2 S2
        (fun s => (m.Params.Unmarshal s).bind fun q =>
        (Except.ok { m with Params := q } : Except Err (GenesisState TP)))
        k j m1 t hl hl2 ht hb hj
      refine ⟨k1, f1, ?_⟩
      rw [f2, bind_ok]
      dsimp only
      rw [if_pos h1, if_neg hw]
      exact f3
  · rw [if_neg h1] at hb
    by_cases h2 : t.1 = 2
    · rw [if_pos h2] at hb
      by_cases hw : t.2.1 ≠ 2
      · rw [if_pos hw] at hb
        cases hb
      · rw [if_neg hw] at hb
        obtain ⟨k1, f1, f2, f3⟩ := decoded_ctx P X S P2 S2
          (fun s => (c.Unmarshal s).bind fun e =>
          (Except.ok { m with TokenPairs := m.TokenPairs ++ [e] } : Except Err (GenesisState TP)))
          k j m1 t hl hl2 ht hb hj
        refine ⟨k1, f1, ?_⟩
        rw [f2, bind_ok]
        dsimp only
        rw [if_neg h1, if_pos h2, if_neg hw]
        exact f3
    · rw [if_neg h2] at hb
      by_cases h3 : t.1 = 3
      · rw [if_pos h3] at hb
        by_cases hw : t.2.1 ≠ 2
        · rw [if_pos hw] at hb
          cases hb
        · rw [if_neg hw] at hb
          obtain ⟨k1, f1, f2, f3⟩ := decoded_ctx P X S P2 S2
            (fun s => (m.Precompiles.Unmarshal s).bind fun q =>
            (Except.ok { m with Precompiles := q } : Except Err (GenesisState TP)))
            k j m1 t hl hl2 ht hb hj
          refine ⟨k1, f1, ?_⟩
          rw [f2, bind_ok]
          dsimp only
          rw [if_neg h1, if_neg h2, if_pos h3, if_neg hw]
          exact f3
      · rw [if_neg h3] at hb
        obtain ⟨k1, f1, f2, f3⟩ := skipped_ctx P X S P2 S2 k j m m1 t hl hl2 ht hb hj
        refine ⟨k1, f1, ?_⟩
        rw [f2, bind_ok]
        dsimp only
        rw [if_neg h1, if_neg h2, if_neg h3]
        exact f3

theorem GenesisState_laws {TP : Type} (c : TokenPairCodec TP) : LoopLaws (GenesisState.unmarshalLoop c) (GenesisState.step c) :=
  { loop_zero := fun d i m => by rw [GenesisState.unmarshalLoop]
    loop_succ := GenesisState_loop_succ c
    adv := GenesisState_step_adv c
    ctx := fun P X S P2 S2 k m j m1 hl hl2 h hj =>
      GenesisState_step_ctx c P X S P2 S2 k m j m1 hl hl2 h hj }

/-! ### Loops that obey the loop laws -/

theorem finish_ok {M : Type} (d : Bytes) (i : Nat) (m mf : M) (h : finish d i m = .ok mf) :
    i ≤ d.length ∧ mf = m := by
  unfold finish at h
  split at h
  · cases h
  · simp only [Except.ok.injEq] at h
    exact ⟨by omega, h.symm⟩

/-- The result of a loop does not depend on the budget, once the budget covers
the bytes that are left. -/
theorem loop_fuel {M : Type} {loop : Bytes → Nat → Nat → M → Except Err M}
    {step : Bytes → Nat → M → Except Err (Nat × M)} (L : LoopLaws loop step)
    (d : Bytes) (hl : d.length < 2 ^ 63) :
    ∀ (f f2 i : Nat) (m : M), d.length ≤ f + i → d.length ≤ f2 + i →
    loop d f i m = loop d f2 i m := by
  intro f
  induction f with
  | zero =>
    intro f2 i m h1 h2
    rw [L.loop_zero, if_neg (by omega)]
    cases f2 with
    | zero => rw [L.loop_zero, if_neg (by omega)]
    | succ g => rw [L.loop_succ, if_neg (by omega)]
  | succ f ih =>
    intro f2 i m h1 h2
    by_cases hi : i < d.length
    · cases f2 with
      | zero => omega
      | succ g =>
        rw [L.loop_succ, L.loop_succ, if_pos hi, if_pos hi]
        cases hs : step d i m with
        | error e => rfl
        | ok r =>
          obtain ⟨j, m1⟩ := r
          have := L.adv d hl i m j m1 hs
          rw [bind_ok, bind_ok]
          exact ih g j m1 (by omega) (by omega)
    · rw [L.loop_succ, if_neg hi]
      cases f2 with
      | zero => rw [L.loop_zero, if_neg hi]
      | succ g => rw [L.loop_succ, if_neg hi]

theorem iterate_mono {M : Type} {loop : Bytes → Nat → Nat → M → Except Err M}
    {step : Bytes → Nat → M → Except Err (Nat × M)} (L : LoopLaws loop step)
    (d : Bytes) (hl : d.length < 2 ^ 63) :
    ∀ (n i : Nat) (m : M) (j : Nat) (m1 : M), iterate (step d) n i m = .ok (j, m1) →
    i ≤ j ∧ (0 < n → i < j ∧ j ≤ d.length) := by
  intro n
  induction n with
  | zero =>
    intro i m j m1 h
    simp only [iterate, Except.ok.injEq, Prod.mk.injEq] at h
    exact ⟨by omega, fun h0 => absurd h0 (by omega)⟩
  | succ n ih =>
    intro i m j m1 h
    rw [iterate] at h
    obtain ⟨r, hr, h2⟩ := bind_eq_ok _ _ _ h
    have a := L.adv d hl i m r.1 r.2 hr
    obtain ⟨b1, b2⟩ := ih r.1 r.2 j m1 h2
    refine ⟨by omega, fun _ => ⟨by omega, ?_⟩⟩
    cases n with
    | zero =>
      simp only [iterate, Except.ok.injEq, Prod.mk.injEq] at h2
      omega
    | succ n => exact (b2 (by omega)).2

/-- A loop that has made `n` iterations goes on from where they have ended. -/
theorem loop_iterate {M : Type} {loop : Bytes → Nat → Nat → M → Except Err M}
    {step : Bytes → Nat → M → Except Err (Nat × M)} (L : LoopLaws loop step)
    (d : Bytes) (hl : d.length < 2 ^ 63) :
    ∀ (n f f2 i : Nat) (m : M) (j : Nat) (m1 : M), iterate (step d) n i m = .ok (j, m1) →
    d.length ≤ f + i → d.length ≤ f2 + j → loop d f i m = loop d f2 j m1 := by
  intro n
  induction n with
  | zero =>
    intro f f2 i m j m1 h h1 h2
    simp only [iterate, Except.ok.injEq, Prod.mk.injEq] at h
    obtain ⟨rfl, rfl⟩ := h
    exact loop_fuel L d hl f f2 i m h1 h2
  | succ n ih =>
    intro f f2 i m j m1 h h1 h2
    rw [iterate] at h
    obtain ⟨r, hr, h3⟩ := bind_eq_ok _ _ _ h
    have a := L.adv d hl i m r.1 r.2 hr
    cases f with
    | zero => omega
    | succ g =>
      rw [L.loop_succ, if_pos (by omega), hr, bind_ok]
      exact ih g f2 r.1 r.2 j m1 h3 (by omega) h2

/-- Iterations that end inside a window of the input are the same with other
bytes in front of and behind the window. -/
theorem iterate_ctx {M : Type} {loop : Bytes → Nat → Nat → M → Except Err M}
    {step : Bytes → Nat → M → Except Err (Nat × M)} (L : LoopLaws loop step)
    (P X S P2 S2 : Bytes)
    (hl : (P ++ X ++ S).length < 2 ^ 63) (hl2 : (P2 ++ X ++ S2).length < 2 ^ 63) :
    ∀ (n k : Nat) (m : M) (j : Nat) (m1 : M),
    iterate (step (P ++ X ++ S)) n (P.length + k) m = .ok (j, m1) → j ≤ P.length + X.length →
    ∃ k1, j = P.length + k1 ∧
      iterate (step (P2 ++ X ++ S2)) n (P2.length + k) m = .ok (P2.length + k1, m1) := by
  intro n
  induction n with
  | zero =>
    intro k m j m1 h hj
    simp only [iterate, Except.ok.injEq, Prod.mk.injEq] at h
    exact ⟨k, h.1.symm, by rw [iterate, h.2]⟩
  | succ n ih =>
    intro k m j m1 h hj
    rw [iterate] at h
    obtain ⟨r, hr, h3⟩ := bind_eq_ok _ _ _ h
    obtain ⟨j1, m2⟩ := r
    have b := (iterate_mono L _ hl n j1 m2 j m1 h3).1
    obtain ⟨k1, e1, e2⟩ := L.ctx P X S P2 S2 k m j1 m2 hl hl2 hr (by omega)
    rw [e1] at h3
    obtain ⟨k2, g1, g2⟩ := ih k1 m2 j m1 h3 hj
    refine ⟨k2, g1, ?_⟩
    rw [iterate, e2, bind_ok]
    exact g2

/-- A successful run of a loop over the last part `B` of the input is the same
with other bytes in front of `B`. -/
theorem loop_shift {M : Type} {loop : Bytes → Nat → Nat → M → Except Err M}
    {step : Bytes → Nat → M → Except Err (Nat × M)} (L : LoopLaws loop step)
    (P P2 B : Bytes) (hl : (P ++ B).length < 2 ^ 63) (hl2 : (P2 ++ B).length < 2 ^ 63) :
    ∀ (f f2 k : Nat) (m mf : M), (P ++ B).length ≤ f + (P.length + k) →
    (P2 ++ B).length ≤ f2 + (P2.length + k) →
    loop (P ++ B) f (P.length + k) m = .ok mf → loop (P2 ++ B) f2 (P2.length + k) m = .ok mf := by
  have hlen : (P ++ B).length = P.length + B.length := List.length_append _ _
  have hlen2 : (P2 ++ B).length = P2.length + B.length := List.length_append _ _
  intro f
  induction f with
  | zero =>
    intro f2 k m mf h1 h2 h
    rw [L.loop_zero, if_neg (by omega)] at h
    obtain ⟨a, b⟩ := finish_ok _ _ _ _ h
    have hfin : finish (P2 ++ B) (P2.length + k) m = .ok mf := by
      unfold finish
      rw [if_neg (by omega), b]
    cases f2 with
    | zero => rw [L.loop_zero, if_neg (by omega), hfin]
    | succ g => rw [L.loop_succ, if_neg (by omega), hfin]
  | succ f ih =>
    intro f2 k m mf h1 h2 h
    by_cases hk : k < B.length
    · rw [L.loop_succ, if_pos (by omega)] at h
      obtain ⟨r, hr, h3⟩ := bind_eq_ok _ _ _ h
      obtain ⟨j, m1⟩ := r
      have a := L.adv _ hl _ m j m1 hr
      have e0 : P ++ B = P ++ B ++ [] := by simp
      have e2 : P2 ++ B = P2 ++ B ++ [] := by simp
      rw [e0] at hr
      obtain ⟨k1, c1, c2⟩ := L.ctx P B [] P2 [] k m j m1 (by rw [← e0]; exact hl)
        (by rw [← e2]; exact hl2) hr (by omega)
      rw [← e2] at c2
      cases f2 with
      | zero => omega
      | succ g =>
        rw [L.loop_succ, if_pos (by omega), c2, bind_ok]
        dsimp only at h3 ⊢
        rw [c1] at h3
        exact ih g k1 m1 mf (by omega) (by omega) h3
    · rw [L.loop_succ, if_neg (by omega)] at h
      obtain ⟨a, b⟩ := finish_ok _ _ _ _ h
      have hfin : finish (P2 ++ B) (P2.length + k) m = .ok mf := by
        unfold finish
        rw [if_neg (by omega), b]
      cases f2 with
      | zero => rw [L.loop_zero, if_neg (by omega), hfin]
      | succ g => rw [L.loop_succ, if_neg (by omega), hfin]

/-- Insertion of a field that one iteration skips, at a field boundary of an
input that the loop decodes, leaves the result of the loop as it is. -/
theorem loop_insert {M : Type} {loop : Bytes → Nat → Nat → M → Except Err M}
    {step : Bytes → Nat → M → Except Err (Nat × M)} (L : LoopLaws loop step)
    (A F B : Bytes) (m0 m1 mf : M) (hl : (A ++ F ++ B).length < 2 ^ 63)
    (hvalid : loop (A ++ B) (A ++ B).length 0 m0 = .ok mf)
    (hb : IsFieldBoundary (step (A ++ B)) m0 A.length m1)
    (hskip : step (A ++ F ++ B) A.length m1 = .ok (A.length + F.length, m1)) :
    loop (A ++ F ++ B) (A ++ F ++ B).length 0 m0 = .ok mf := by
  obtain ⟨n, hn⟩ := hb
  have hlAB : (A ++ B).length < 2 ^ 63 := by
    simp only [List.length_append] at hl ⊢
    omega
  have hF : 0 < F.length := by
    have := L.adv _ hl _ _ _ _ hskip
    omega
  -- the run over the original input, from the boundary on
  have h1 : loop (A ++ B) (A ++ B).length A.length m1 = .ok mf := by
    rw [← loop_iterate L (A ++ B) hlAB n (A ++ B).length (A ++ B).length 0 m0 A.length m1 hn
      (by omega) (by omega)]
    exact hvalid
  -- the iterations in front of the boundary, over the new input
  have h2 : iterate (step (A ++ F ++ B)) n 0 m0 = .ok (A.length, m1) := by
    have := iterate_ctx L [] A B [] (F ++ B) (by simpa using hlAB) (by simpa using hl) n 0 m0
      A.length m1 (by simpa using hn) (by simp)
    obtain ⟨k1, e1, e2⟩ := this
    simp only [List.length_nil, Nat.zero_add, List.nil_append] at e1 e2
    rw [e1, List.append_assoc]
    exact e2
  have hlen : (A ++ F ++ B).length = A.length + F.length + B.length := by
    simp only [List.length_append]
  rw [loop_iterate L _ hl n _ (F.length + B.length) 0 m0 A.length m1 h2 (by omega) (by omega)]
  obtain ⟨g, hg⟩ : ∃ g, F.length + B.length = g + 1 := ⟨F.length + B.length - 1, by omega⟩
  rw [hg, L.loop_succ, if_pos (by omega), hskip, bind_ok]
  have h3 := loop_shift L A (A ++ F) B hlAB hl (A ++ B).length g 0 m1 mf (by omega)
    (by simp only [List.length_append]; omega) (by simpa using h1)
  simpa using h3

/-- A loop that meets an error in the iteration at a field boundary ends with
that error. -/
theorem loop_error_at {M : Type} {loop : Bytes → Nat → Nat → M → Except Err M}
    {step : Bytes → Nat → M → Except Err (Nat × M)} (L : LoopLaws loop step)
    (d : Bytes) (hl : d.length < 2 ^ 63) (m0 m1 : M) (b : Nat) (e : Err)
    (hb : IsFieldBoundary (step d) m0 b m1) (hlt : b < d.length)
    (hstep : step d b m1 = .error e) :
    loop d d.length 0 m0 = .error e := by
  obtain ⟨n, hn⟩ := hb
  obtain ⟨g, hg⟩ : ∃ g, d.length - b = g + 1 := ⟨d.length - b - 1, by omega⟩
  rw [loop_iterate L d hl n d.length (g + 1) 0 m0 b m1 hn (by omega) (by omega),
    L.loop_succ, if_pos hlt, hstep, bind_error]

/-! ### Fields that the decoders skip -/

theorem varintShape_length_pos (T : Bytes) (h : varintShape T = true) : 0 < T.length := by
  cases T with
  | nil => simp [varintShape] at h
  | cons b rest => simp

theorem readVarint_shape : ∀ (T : Bytes) (fuel shift acc : Nat) (P S : Bytes),
    varintShape T = true → T.length ≤ fuel → shift + 7 * T.length ≤ 70 → acc < 2 ^ shift →
    readVarint (P ++ T ++ S) fuel shift P.length acc
      = .ok ((acc + varintValue T * 2 ^ shift) % 2 ^ 64, P.length + T.length) := by
  intro T
  induction T with
  | nil => intro fuel shift acc P S h; simp [varintShape] at h
  | cons b rest ih =>
    intro fuel shift acc P S hshape hfuel hshift hacc
    cases fuel with
    | zero => simp at hfuel
    | succ fuel =>
      have hs : shift < 64 := by
        simp only [List.length_cons] at hshift
        omega
      have hb : (P ++ b :: rest ++ S)[P.length]? = some b := by
        have := getElem?_mid P (rest ++ S) b
        simpa using this
      rw [readVarint_step _ _ _ _ _ _ hs hb, and_0x7F, or_shiftLeft_eq_add _ _ _ hacc]
      cases rest with
      | nil =>
        simp only [varintShape, decide_eq_true_eq] at hshape
        rw [if_pos hshape]
        simp only [varintValue, Nat.mul_zero, Nat.add_zero, List.length_cons, List.length_nil,
          Nat.zero_add]
      | cons c rest2 =>
        simp only [varintShape, Bool.and_eq_true, decide_eq_true_eq] at hshape
        obtain ⟨hb128, hrest⟩ := hshape
        rw [if_neg (by omega)]
        simp only [List.length_cons] at hshift hfuel
        have h2 : 2 ^ (shift + 7) = 128 * 2 ^ shift := by rw [Nat.pow_add]; ring
        have hacc2 : acc + b.val % 128 * 2 ^ shift < 2 ^ (shift + 7) := by
          have h1 : b.val % 128 * 2 ^ shift ≤ 127 * 2 ^ shift :=
            Nat.mul_le_mul_right _ (by omega)
          omega
        have hlt : acc + b.val % 128 * 2 ^ shift < 2 ^ 64 := by
          have : 2 ^ (shift + 7) ≤ 2 ^ 64 := Nat.pow_le_pow_right (by decide) (by omega)
          omega
        rw [Nat.mod_eq_of_lt hlt]
        have e3 : P ++ b :: (c :: rest2) ++ S = (P ++ [b]) ++ (c :: rest2) ++ S := by simp
        have e4 : P.length + 1 = (P ++ [b]).length := by simp
        rw [e3, e4, ih fuel (shift + 7) _ (P ++ [b]) S hrest
          (by simp only [List.length_cons]; omega) (by simp only [List.length_cons]; omega) hacc2]
        have ea : acc + b.val % 128 * 2 ^ shift + varintValue (c :: rest2) * 2 ^ (shift + 7)
            = acc + varintValue (b :: c :: rest2) * 2 ^ shift := by
          rw [h2]
          simp only [varintValue]
          ring
        have eb : (P ++ [b]).length + (c :: rest2).length = P.length + (b :: c :: rest2).length := by
          simp only [List.length_append, List.length_cons, List.length_nil]
          omega
        rw [ea, eb]

/-- A varint is read as its word, and the index moves behind it. -/
theorem readVarint_isVarint (T : Bytes) (h : IsVarint T) (P S : Bytes) :
    readVarint (P ++ T ++ S) 10 0 P.length 0 = .ok (varintWord T, P.length + T.length) := by
  have := readVarint_shape T 10 0 0 P S h.1 h.2 (by have := h.2; omega) (by decide)
  simpa [varintWord] using this

theorem skipVarint_shape : ∀ (T : Bytes) (fuel shift : Nat) (P S : Bytes),
    varintShape T = true → T.length ≤ fuel → shift + 7 * T.length ≤ 70 →
    skipVarint (P ++ T ++ S) fuel shift P.length = .ok (P.length + T.length) := by
  intro T
  induction T with
  | nil => intro fuel shift P S h; simp [varintShape] at h
  | cons b rest ih =>
    intro fuel shift P S hshape hfuel hshift
    cases fuel with
    | zero => simp at hfuel
    | succ fuel =>
      have hs : shift < 64 := by
        simp only [List.length_cons] at hshift
        omega
      have hb : (P ++ b :: rest ++ S)[P.length]? = some b := by
        have := getElem?_mid P (rest ++ S) b
        simpa using this
      rw [skipVarint_step _ _ _ _ _ hs hb]
      cases rest with
      | nil =>
        simp only [varintShape, decide_eq_true_eq] at hshape
        rw [if_pos hshape]
        simp
      | cons c rest2 =>
        simp only [varintShape, Bool.and_eq_true, decide_eq_true_eq] at hshape
        obtain ⟨hb128, hrest⟩ := hshape
        rw [if_neg (by omega)]
        simp only [List.length_cons] at hshift hfuel
        have e3 : P ++ b :: (c :: rest2) ++ S = (P ++ [b]) ++ (c :: rest2) ++ S := by simp
        have e4 : P.length + 1 = (P ++ [b]).length := by simp
        rw [e3, e4, ih fuel (shift + 7) (P ++ [b]) S hrest
          (by simp only [List.length_cons]; omega) (by simp only [List.length_cons]; omega)]
        congr 1
        simp only [List.length_append, List.length_cons, List.length_nil]
        omega

theorem skipVarint_isVarint (T : Bytes) (h : IsVarint T) (P S : Bytes) :
    skipVarint (P ++ T ++ S) 10 0 P.length = .ok (P.length + T.length) :=
  skipVarint_shape T 10 0 P S h.1 h.2 (by have := h.2; omega)

theorem skipAdvance_zero (x : Int) (hx : 0 ≤ x) (k : Nat → Except Err Int) :
    skipAdvance x 0 k = .ok x := by
  unfold skipAdvance
  rw [if_neg (by omega), if_pos rfl]

theorem skipBody_0 (d : Bytes) (f depth i : Nat) (x8 x4 : Int) :
    skipBody d f depth i x8 x4 0 =
      (skipVarint d 10 0 i).bind fun j =>
        skipAdvance j depth (fun i => skipGenesisLoop d f i depth) := rfl

theorem skipBody_1 (d : Bytes) (f depth i : Nat) (x8 x4 : Int) :
    skipBody d f depth i x8 x4 1 = skipAdvance x8 depth (fun i => skipGenesisLoop d f i depth) :=
  rfl

theorem skipBody_2 (d : Bytes) (f depth i : Nat) (x8 x4 : Int) :
    skipBody d f depth i x8 x4 2 =
      (readVarint d 10 0 i 0).bind fun r2 =>
        if toInt64 r2.1 < 0 then .error .ErrInvalidLengthGenesis
        else
          skipAdvance (wrapInt64 (r2.2 + toInt64 r2.1)) depth
            (fun i => skipGenesisLoop d f i depth) := rfl

theorem skipBody_5 (d : Bytes) (f depth i : Nat) (x8 x4 : Int) :
    skipBody d f depth i x8 x4 5 = skipAdvance x4 depth (fun i => skipGenesisLoop d f i depth) :=
  rfl

/-- On an input that starts with one complete field of wire type 0, 1, 2 or 5,
`skipGenesis` returns the length of the field. -/
theorem skipGenesis_field (fieldNum : Nat) (F B : Bytes) (hF : WellFormedField fieldNum F)
    (hl : (F ++ B).length < 2 ^ 63) : skipGenesis (F ++ B) = .ok (F.length : Int) := by
  obtain ⟨T, rest, rfl, hT, _, hcase⟩ := hF
  have hTpos := varintShape_length_pos T hT.1
  simp only [List.length_append] at hl
  unfold skipGenesis
  obtain ⟨g, hg⟩ : ∃ g, (T ++ rest ++ B).length = g + 1 :=
    ⟨(T ++ rest ++ B).length - 1, by simp only [List.length_append]; omega⟩
  rw [hg, skipGenesisLoop_succ, if_pos (by omega)]
  have hread : readVarint (T ++ rest ++ B) 10 0 0 0 = .ok (varintWord T, T.length) := by
    have := readVarint_isVarint T hT [] (rest ++ B)
    simpa using this
  rw [hread, bind_ok]
  dsimp only
  rcases hcase with ⟨hwt, hV⟩ | ⟨hwt, hlen⟩ | ⟨hwt, L, body, rfl, hL, hbody⟩ | ⟨hwt, hlen⟩
  · rw [hwt, skipBody_0, skipVarint_isVarint rest hV T B, bind_ok,
      skipAdvance_zero _ (by omega)]
    simp only [List.length_append]
  · rw [hwt, skipBody_1, wrapInt64_of_bounds _ (by omega) (by omega),
      skipAdvance_zero _ (by omega)]
    simp only [List.length_append, hlen]
    push_cast
    rfl
  · have hLpos := varintShape_length_pos L hL.1
    simp only [List.length_append] at hl
    have e1 : T ++ (L ++ body) ++ B = T ++ L ++ (body ++ B) := by simp
    have hw : varintWord L < 2 ^ 63 := by omega
    rw [hwt, skipBody_2, e1, readVarint_isVarint L hL T (body ++ B), bind_ok]
    dsimp only
    rw [toInt64_of_lt _ hw, if_neg (by omega), wrapInt64_of_bounds _ (by omega) (by omega),
      skipAdvance_zero _ (by omega)]
    simp only [List.length_append, hbody]
    push_cast
    rw [Int.add_assoc]
  · rw [hwt, skipBody_5, wrapInt64_of_bounds _ (by omega) (by omega),
      skipAdvance_zero _ (by omega)]
    simp only [List.length_append, hlen]
    push_cast
    rfl

/-- At the start of a complete field with a field number of protobuf, the tag is
read with that field number, and `skipField` moves behind the field. -/
theorem field_skipped (A F B : Bytes) (fieldNum : Nat) (hF : WellFormedField fieldNum F)
    (h1 : 0 < fieldNum) (h2 : fieldNum < 2 ^ 29) (hl : (A ++ F ++ B).length < 2 ^ 63) :
    (∃ t : Int × Nat × Nat, readTag (A ++ F ++ B) A.length = .ok t ∧ t.1 = (fieldNum : Int)) ∧
    skipField (A ++ F ++ B) A.length = .ok (A.length + F.length) := by
  have hlen : (A ++ F ++ B).length = A.length + F.length + B.length := by
    simp only [List.length_append]
  constructor
  · obtain ⟨T, rest, rfl, hT, hnum, hcase⟩ := hF
    have hwt : varintWord T &&& 0x7 ≠ 4 := by
      rcases hcase with ⟨h, _⟩ | ⟨h, _⟩ | ⟨h, _⟩ | ⟨h, _⟩ <;> rw [h] <;> decide
    have hf : toInt32 (varintWord T >>> 3) = (fieldNum : Int) := by
      rw [hnum]
      unfold toInt32
      have e : fieldNum % 2 ^ 32 = fieldNum := Nat.mod_eq_of_lt (by omega)
      rw [e, if_pos (by omega)]
    have e1 : A ++ (T ++ rest) ++ B = A ++ T ++ (rest ++ B) := by simp
    refine ⟨(fieldNum, varintWord T &&& 0x7, A.length + T.length), ?_, rfl⟩
    unfold readTag
    rw [e1, readVarint_isVarint T hT A (rest ++ B), bind_ok]
    dsimp only
    rw [if_neg hwt, hf, if_neg (by omega)]
  · have hs : slice (A ++ F ++ B) ((A.length : Nat) : Int) (((A ++ F ++ B).length : Nat) : Int)
        = .ok (F ++ B) := by
      have := slice_to_end A (F ++ B)
      rw [← List.append_assoc] at this
      exact this
    have hg := skipGenesis_field fieldNum F B hF (by simp only [List.length_append]; omega)
    exact skipField_of_skip (A ++ F ++ B) (F ++ B) hl A.length F.length hs hg (by omega)

theorem Params_step_unknown (A F B : Bytes) (fieldNum : Nat) (m : Params)
    (hF : WellFormedField fieldNum F) (h1 : 2 ≤ fieldNum) (h2 : fieldNum < 2 ^ 29)
    (hl : (A ++ F ++ B).length < 2 ^ 63) :
    Params.step (A ++ F ++ B) A.length m = .ok (A.length + F.length, m) := by
  obtain ⟨⟨t, ht, hf⟩, hs⟩ := field_skipped A F B fieldNum hF (by omega) h2 hl
  rw [Params_step_eq, ht, bind_ok]
  rw [if_neg (by omega), hs, bind_ok]

theorem Precompiles_step_unknown (A F B : Bytes) (fieldNum : Nat) (m : Precompiles)
    (hF : WellFormedField fieldNum F) (h1 : 3 ≤ fieldNum) (h2 : fieldNum < 2 ^ 29)
    (hl : (A ++ F ++ B).length < 2 ^ 63) :
    Precompiles.step (A ++ F ++ B) A.length m = .ok (A.length + F.length, m) := by
  obtain ⟨⟨t, ht, hf⟩, hs⟩ := field_skipped A F B fieldNum hF (by omega) h2 hl
  rw [Precompiles_step_eq, ht, bind_ok]
  rw [if_neg (by omega), if_neg (by omega), hs, bind_ok]

theorem GenesisState_step_unknown {TP : Type} (c : TokenPairCodec TP) (A F B : Bytes)
    (fieldNum : Nat) (m : GenesisState TP)
    (hF : WellFormedField fieldNum F) (h1 : 4 ≤ fieldNum) (h2 : fieldNum < 2 ^ 29)
    (hl : (A ++ F ++ B).length < 2 ^ 63) :
    GenesisState.step c (A ++ F ++ B) A.length m = .ok (A.length + F.length, m) := by
  obtain ⟨⟨t, ht, hf⟩, hs⟩ := field_skipped A F B fieldNum hF (by omega) h2 hl
  rw [GenesisState_step_eq, ht, bind_ok]
  rw [if_neg (by omega), if_neg (by omega), if_neg (by omega), hs, bind_ok]

/-- C22: let `A ++ B` be an input that `Unmarshal` decodes into `m`, with a field
boundary between `A` and `B` (the decoding loop starts an iteration there, or
ends there), and let `F` be one complete field of wire type varint, fixed64,
length-delimited or fixed32 whose field number is below 2^29 and above the field
numbers of the message (from 2 on for `Params`, from 3 on for `Precompiles`,
from 4 on for `GenesisState`). Then `Unmarshal` of `A ++ F ++ B` succeeds as
well, and decodes the same message `m`. Inputs have a length that a Go slice can
have. -/
theorem Unmarshal_skips_unknown_field {TP : Type} (c : TokenPairCodec TP) (A F B : Bytes)
    (fieldNum : Nat) (hF : WellFormedField fieldNum F) (hmax : fieldNum < 2 ^ 29)
    (hl : (A ++ F ++ B).length < 2 ^ 63) :
    (∀ m0 m : Erc20Genesis.Params, 2 ≤ fieldNum →
      Params.Unmarshal m0 (A ++ B) = .ok m →
      (∃ m1, IsFieldBoundary (Params.step (A ++ B)) m0 A.length m1) →
      Params.Unmarshal m0 (A ++ F ++ B) = .ok m) ∧
    (∀ m0 m : Erc20Genesis.Precompiles, 3 ≤ fieldNum →
      Precompiles.Unmarshal m0 (A ++ B) = .ok m →
      (∃ m1, IsFieldBoundary (Precompiles.step (A ++ B)) m0 A.length m1) →
      Precompiles.Unmarshal m0 (A ++ F ++ B) = .ok m) ∧
    (∀ m0 m : GenesisState TP, 4 ≤ fieldNum →
      GenesisState.Unmarshal c m0 (A ++ B) = .ok m →
      (∃ m1, IsFieldBoundary (GenesisState.step c (A ++ B)) m0 A.length m1) →
      GenesisState.Unmarshal c m0 (A ++ F ++ B) = .ok m) := by
  refine ⟨?_, ?_, ?_⟩
  · intro m0 m h1 hv hb
    obtain ⟨m1, hb⟩ := hb
    exact loop_insert Params_laws A F B m0 m1 m hl hv hb
      (Params_step_unknown A F B fieldNum m1 hF h1 hmax hl)
  · intro m0 m h1 hv hb
    obtain ⟨m1, hb⟩ := hb
    exact loop_insert Precompiles_laws A F B m0 m1 m hl hv hb
      (Precompiles_step_unknown A F B fieldNum m1 hF h1 hmax hl)
  · intro m0 m h1 hv hb
    obtain ⟨m1, hb⟩ := hb
    exact loop_insert (GenesisState_laws c) A F B m0 m1 m hl hv hb
      (GenesisState_step_unknown c A F B fieldNum m1 hF h1 hmax hl)

/-- Witness for C22: the field 2 with the varint 5 inserted behind the field of
`Params`, and the field 4 with three bytes inserted between the fields of
`Precompiles`. -/
theorem Unmarshal_skips_unknown_field_witness :
    WellFormedField 4 [0x22, 3, 7, 8, 9] ∧
    Precompiles.Unmarshal ⟨[], []⟩ ([0x0a, 1, 65] ++ [0x12, 0]) = .ok ⟨[[65]], [[]]⟩ ∧
    (∃ m1, IsFieldBoundary (Precompiles.step ([0x0a, 1, 65] ++ [0x12, 0])) ⟨[], []⟩
      ([0x0a, 1, 65] : Bytes).length m1) ∧
    Precompiles.Unmarshal ⟨[], []⟩ ([0x0a, 1, 65] ++ [0x22, 3, 7, 8, 9] ++ [0x12, 0])
      = .ok ⟨[[65]], [[]]⟩ :=
  have hF : WellFormedField 4 [0x22, 3, 7, 8, 9] :=
    ⟨[0x22], [3, 7, 8, 9], rfl, ⟨rfl, by decide⟩, by decide,
      Or.inr (Or.inr (Or.inl ⟨by decide, [3], [7, 8, 9], rfl, ⟨rfl, by decide⟩, by decide⟩))⟩
  have hb : ∃ m1, IsFieldBoundary (Precompiles.step ([0x0a, 1, 65] ++ [0x12, 0])) ⟨[], []⟩
      ([0x0a, 1, 65] : Bytes).length m1 := ⟨⟨[[65]], []⟩, 1, by decide⟩
  ⟨hF, by decide, hb,
    (Unmarshal_skips_unknown_field paramsCodec [0x0a, 1, 65] [0x22, 3, 7, 8, 9] [0x12, 0] 4 hF
      (by decide) (by decide)).2.1 ⟨[], []⟩ ⟨[[65]], [[]]⟩ (by decide) (by decide) hb⟩

/-- The varint of a 64-bit value in its shortest form is a varint that the
decoders accept, and its word is the value. -/
theorem isVarint_varintEnc (v : Nat) (hv : v < 2 ^ 64) :
    IsVarint (varintEnc v) ∧ varintWord (varintEnc v) = v :=
  ⟨⟨varintShape_varintEnc v, varintEnc_length_le_ten v hv⟩, by
    rw [varintWord, varintValue_varintEnc, Nat.mod_eq_of_lt hv]⟩

/-- Fields written with varints in their shortest form are well-formed. -/
theorem fieldEnc_wellFormed (fieldNum wireType v : Nat) (bs : Bytes)
    (hf : fieldNum < 2 ^ 29) (hv : v < 2 ^ 64) (hbs : bs.length < 2 ^ 64)
    (hw : wireType = 0 ∨ (wireType = 1 ∧ bs.length = 8) ∨ wireType = 2 ∨
      (wireType = 5 ∧ bs.length = 4)) :
    WellFormedField fieldNum (fieldEnc fieldNum wireType v bs) := by
  have hwlt : wireType < 8 := by omega
  obtain ⟨t1, t2⟩ := isVarint_varintEnc (fieldNum * 8 + wireType) (by omega)
  have e3 : (fieldNum * 8 + wireType) >>> 3 = fieldNum := by
    rw [Nat.shiftRight_eq_div_pow]
    omega
  have e7 : (fieldNum * 8 + wireType) &&& 0x7 = wireType := by
    have := Nat.and_pow_two_sub_one_eq_mod (fieldNum * 8 + wireType) 3
    simp only [Nat.reducePow, Nat.add_one_sub_one] at this
    rw [this]
    omega
  refine ⟨varintEnc (fieldNum * 8 + wireType), _, rfl, t1, by rw [t2, e3], ?_⟩
  rw [t2, e7]
  rcases hw with h | ⟨h, hb⟩ | h | ⟨h, hb⟩
  · subst h
    exact Or.inl ⟨rfl, (isVarint_varintEnc v hv).1⟩
  · subst h
    exact Or.inr (Or.inl ⟨rfl, by simpa using hb⟩)
  · subst h
    obtain ⟨l1, l2⟩ := isVarint_varintEnc bs.length hbs
    exact Or.inr (Or.inr (Or.inl ⟨rfl, varintEnc bs.length, bs, by simp, l1, l2⟩))
  · subst h
    exact Or.inr (Or.inr (Or.inr ⟨rfl, by simpa using hb⟩))

/-! ### Malformed tags -/

theorem Params_step_malformed (d : Bytes) (b wire j : Nat)
    (m : Erc20Genesis.Params) (htag : readVarint d 10 0 b 0 = .ok (wire, j))
    (hm : malformedTag Params.declared wire = true) :
    ∃ e, Params.step d b m = .error e ∧ IsTagError e := by
  rw [Params_step_eq]
  unfold readTag
  rw [htag, bind_ok]
  dsimp only
  by_cases h4 : wire &&& 0x7 = 4
  · rw [if_pos h4, bind_error]
    exact ⟨_, rfl, Or.inl rfl⟩
  · rw [if_neg h4]
    by_cases hf : toInt32 (wire >>> 3) ≤ 0
    · rw [if_pos hf, bind_error]
      exact ⟨_, rfl, Or.inr (Or.inl ⟨_, _, rfl⟩)⟩
    · rw [if_neg hf, bind_ok]
      dsimp only
      unfold malformedTag Params.declared at hm
      simp only [h4, hf, decide_False, Bool.or_self, Bool.false_or] at hm
      by_cases h1 : toInt32 (wire >>> 3) = 1
      · have hw : wire &&& 0x7 ≠ 0 := by
          simpa [h1] using hm
        rw [if_pos h1, if_pos hw]
        exact ⟨_, rfl, Or.inr (Or.inr ⟨_, _, rfl⟩)⟩
      · simp [h1] at hm

theorem Precompiles_step_malformed (d : Bytes) (b wire j : Nat)
    (m : Erc20Genesis.Precompiles) (htag : readVarint d 10 0 b 0 = .ok (wire, j))
    (hm : malformedTag Precompiles.declared wire = true) :
    ∃ e, Precompiles.step d b m = .error e ∧ IsTagError e := by
  rw [Precompiles_step_eq]
  unfold readTag
  rw [htag, bind_ok]
  dsimp only
  by_cases h4 : wire &&& 0x7 = 4
  · rw [if_pos h4, bind_error]
    exact ⟨_, rfl, Or.inl rfl⟩
  · rw [if_neg h4]
    by_cases hf : toInt32 (wire >>> 3) ≤ 0
    · rw [if_pos hf, bind_error]
      exact ⟨_, rfl, Or.inr (Or.inl ⟨_, _, rfl⟩)⟩
    · rw [if_neg hf, bind_ok]
      dsimp only
      unfold malformedTag Precompiles.declared at hm
      simp only [h4, hf, decide_False, Bool.or_self, Bool.false_or] at hm
      by_cases h1 : toInt32 (wire >>> 3) = 1
      · have hw : wire &&& 0x7 ≠ 2 := by
          simpa [h1] using hm
        rw [if_pos h1, if_pos hw]
        exact ⟨_, rfl, Or.inr (Or.inr ⟨_, _, rfl⟩)⟩
      · by_cases h2 : toInt32 (wire >>> 3) = 2
        · have hw : wire &&& 0x7 ≠ 2 := by
            simpa [h2] using hm
          rw [if_neg h1, if_pos h2, if_pos hw]
          exact ⟨_, rfl, Or.inr (Or.inr ⟨_, _, rfl⟩)⟩
        · simp [h1, h2] at hm

theorem GenesisState_step_malformed {TP : Type} (c : TokenPairCodec TP) (d : Bytes) (b wire j : Nat)
    (m : GenesisState TP) (htag : readVarint d 10 0 b 0 = .ok (wire, j))
    (hm : malformedTag GenesisState.declared wire = true) :
    ∃ e, GenesisState.step c d b m = .error e ∧ IsTagError e := by
  rw [GenesisState_step_eq]
  unfold readTag
  rw [htag, bind_ok]
  dsimp only
  by_cases h4 : wire &&& 0x7 = 4
  · rw [if_pos h4, bind_error]
    exact ⟨_, rfl, Or.inl rfl⟩
  · rw [if_neg h4]
    by_cases hf : toInt32 (wire >>> 3) ≤ 0
    · rw [if_pos hf, bind_error]
      exact ⟨_, rfl, Or.inr (Or.inl ⟨_, _, rfl⟩)⟩
    · rw [if_neg hf, bind_ok]
      dsimp only
      unfold malformedTag GenesisState.declared at hm
      simp only [h4, hf, decide_False, Bool.or_self, Bool.false_or] at hm
      by_cases h1 : toInt32 (wire >>> 3) = 1
      · have hw : wire &&& 0x7 ≠ 2 := by
          simpa [h1] using hm
        rw [if_pos h1, if_pos hw]
        exact ⟨_, rfl, Or.inr (Or.inr ⟨_, _, rfl⟩)⟩
      · by_cases h2 : toInt32 (wire >>> 3) = 2
        · have hw : wire &&& 0x7 ≠ 2 := by
            simpa [h2] using hm
          rw [if_neg h1, if_pos h2, if_pos hw]
          exact ⟨_, rfl, Or.inr (Or.inr ⟨_, _, rfl⟩)⟩
        · by_cases h3 : toInt32 (wire >>> 3) = 3
          · have hw : wire &&& 0x7 ≠ 2 := by
              simpa [h3] using hm
            rw [if_neg h1, if_neg h2, if_pos h3, if_pos hw]
            exact ⟨_, rfl, Or.inr (Or.inr ⟨_, _, rfl⟩)⟩
          · simp [h1, h2, h3] at hm

/-- C23: let the decoding loop of `Unmarshal` stand at a field boundary `b` of
the input, where a tag `wire` is read. If the tag is malformed for the message
(wire type 4, a field number that is not positive, or a field of the message
with a wire type other than the declared one: varint for field 1 of `Params`,
length-delimited for fields 1 and 2 of `Precompiles` and fields 1, 2 and 3 of
`GenesisState`), then `Unmarshal` returns an error: the end-group error, the
illegal-tag error or the wrong-wire-type error. Inputs have a length that a Go
slice can have. -/
theorem Unmarshal_rejects_malformed_tag {TP : Type} (c : TokenPairCodec TP) (d : Bytes)
    (b wire j : Nat) (hl : d.length < 2 ^ 63)
    (htag : readVarint d 10 0 b 0 = .ok (wire, j)) :
    (∀ m0 m1 : Erc20Genesis.Params, IsFieldBoundary (Params.step d) m0 b m1 →
      malformedTag Params.declared wire = true →
      ∃ e, Params.Unmarshal m0 d = .error e ∧ IsTagError e) ∧
    (∀ m0 m1 : Erc20Genesis.Precompiles, IsFieldBoundary (Precompiles.step d) m0 b m1 →
      malformedTag Precompiles.declared wire = true →
      ∃ e, Precompiles.Unmarshal m0 d = .error e ∧ IsTagError e) ∧
    (∀ m0 m1 : GenesisState TP, IsFieldBoundary (GenesisState.step c d) m0 b m1 →
      malformedTag GenesisState.declared wire = true →
      ∃ e, GenesisState.Unmarshal c m0 d = .error e ∧ IsTagError e) := by
  have hb : b < d.length := by
    have := (readVarint_safe d 10 0 b 0).2 wire j htag
    omega
  refine ⟨?_, ?_, ?_⟩
  · intro m0 m1 hbd hm
    obtain ⟨e, he, ht⟩ := Params_step_malformed d b wire j m1 htag hm
    exact ⟨e, loop_error_at Params_laws d hl m0 m1 b e hbd hb he, ht⟩
  · intro m0 m1 hbd hm
    obtain ⟨e, he, ht⟩ := Precompiles_step_malformed d b wire j m1 htag hm
    exact ⟨e, loop_error_at Precompiles_laws d hl m0 m1 b e hbd hb he, ht⟩
  · intro m0 m1 hbd hm
    obtain ⟨e, he, ht⟩ := GenesisState_step_malformed c d b wire j m1 htag hm
    exact ⟨e, loop_error_at (GenesisState_laws c) d hl m0 m1 b e hbd hb he, ht⟩

/-- Witness for C23: behind a field of `Precompiles`, the tag 0x11 names field 2
with wire type fixed64. -/
theorem Unmarshal_rejects_malformed_tag_witness :
    ([0x0a, 1, 65, 0x11, 0, 0, 0, 0, 0, 0, 0, 0] : Bytes).length < 2 ^ 63 ∧
    readVarint [0x0a, 1, 65, 0x11, 0, 0, 0, 0, 0, 0, 0, 0] 10 0 3 0 = .ok (0x11, 4) ∧
    IsFieldBoundary (Precompiles.step [0x0a, 1, 65, 0x11, 0, 0, 0, 0, 0, 0, 0, 0]) ⟨[], []⟩ 3
      ⟨[[65]], []⟩ ∧
    malformedTag Precompiles.declared 0x11 = true ∧
    (∃ e, Precompiles.Unmarshal ⟨[], []⟩ [0x0a, 1, 65, 0x11, 0, 0, 0, 0, 0, 0, 0, 0] = .error e ∧
      IsTagError e) ∧
    Precompiles.Unmarshal ⟨[], []⟩ [0x0a, 1, 65, 0x11, 0, 0, 0, 0, 0, 0, 0, 0]
      = .error (.wrongWireType 1 2) :=
  ⟨by decide, by decide, ⟨1, by decide⟩, by decide,
    (Unmarshal_rejects_malformed_tag paramsCodec [0x0a, 1, 65, 0x11, 0, 0, 0, 0, 0, 0, 0, 0]
      3 0x11 4 (by decide) (by decide)).2.1 ⟨[], []⟩ ⟨[[65]], []⟩ ⟨1, by decide⟩ (by decide),
    by decide⟩

end Erc20Genesis

namespace Auctionsv1

/-! # Theorems: the service layer -/

/-- C15: the Msg service descriptor registers exactly the operations Bid,
DepositCoin and UpdateParams, the Query service descriptor exactly AuctionInfo
and Params, neither declares streams, and for every registered method the
full-method-name constant of its handler is "/" + ServiceName + "/" +
MethodName. -/
theorem serviceDesc_methods :
    Msg_ServiceDesc.Methods.map (fun m => m.MethodName) = ["Bid", "DepositCoin", "UpdateParams"] ∧
    Query_ServiceDesc.Methods.map (fun m => m.MethodName) = ["AuctionInfo", "Params"] ∧
    Msg_ServiceDesc.Streams = [] ∧ Query_ServiceDesc.Streams = [] ∧
    (∀ m ∈ Msg_ServiceDesc.Methods,
      fullMethodOf m.Handler = "/" ++ Msg_ServiceDesc.ServiceName ++ "/" ++ m.MethodName) ∧
    (∀ m ∈ Query_ServiceDesc.Methods,
      fullMethodOf m.Handler = "/" ++ Query_ServiceDesc.ServiceName ++ "/" ++ m.MethodName) := by
  decide

theorem dispatch_Bid (σ : Type) :
    IsDispatchAdapter σ _Msg_Bid_Handler ⟨[]⟩ Any.MsgBid Any.MsgBidResponse
      AnyServer.msg MsgServer.Bid Msg_Bid_FullMethodName := by
  intro ctx dec
  refine ⟨?_, ?_⟩
  · intro err h srv ic st
    simp only [_Msg_Bid_Handler, h]
  · intro h s
    refine ⟨fun st => by simp only [_Msg_Bid_Handler, h, callBid], ?_,
      by simp only [_Msg_Bid_Handler, h]⟩
    intro f
    refine ⟨fun c r => match r with
      | .MsgBid p => callBid (.msg s) c p
      | _ => fun st => (.panic, st), ?_, fun _ _ _ => rfl, ?_⟩
    · simp only [_Msg_Bid_Handler, h]
    · intro ctx' a st ha
      cases a <;> first | rfl | exact absurd rfl (ha _)

theorem dispatch_DepositCoin (σ : Type) :
    IsDispatchAdapter σ _Msg_DepositCoin_Handler ⟨[]⟩ Any.MsgDepositCoin
      Any.MsgDepositCoinResponse AnyServer.msg MsgServer.DepositCoin
      Msg_DepositCoin_FullMethodName := by
  intro ctx dec
  refine ⟨?_, ?_⟩
  · intro err h srv ic st
    simp only [_Msg_DepositCoin_Handler, h]
  · intro h s
    refine ⟨fun st => by simp only [_Msg_DepositCoin_Handler, h, callDepositCoin], ?_,
      by simp only [_Msg_DepositCoin_Handler, h]⟩
    intro f
    refine ⟨fun c r => match r with
      | .MsgDepositCoin p => callDepositCoin (.msg s) c p
      | _ => fun st => (.panic, st), ?_, fun _ _ _ => rfl, ?_⟩
    · simp only [_Msg_DepositCoin_Handler, h]
    · intro ctx' a st ha
      cases a <;> first | rfl | exact absurd rfl (ha _)

theorem dispatch_UpdateParams (σ : Type) :
    IsDispatchAdapter σ _Msg_UpdateParams_Handler ⟨[]⟩ Any.MsgUpdateParams
      Any.MsgUpdateParamsResponse AnyServer.msg MsgServer.UpdateParams
      Msg_UpdateParams_FullMethodName := by
  intro ctx dec
  refine ⟨?_, ?_⟩
  · intro err h srv ic st
    simp only [_Msg_UpdateParams_Handler, h]
  · intro h s
    refine ⟨fun st => by simp only [_Msg_UpdateParams_Handler, h, callUpdateParams], ?_,
      by simp only [_Msg_UpdateParams_Handler, h]⟩
    intro f
    refine ⟨fun c r => match r with
      | .MsgUpdateParams p => callUpdateParams (.msg s) c p
      | _ => fun st => (.panic, st), ?_, fun _ _ _ => rfl, ?_⟩
    · simp only [_Msg_UpdateParams_Handler, h]
    · intro ctx' a st ha
      cases a <;> first | rfl | exact absurd rfl (ha _)

theorem dispatch_AuctionInfo (σ : Type) :
    IsDispatchAdapter σ _Query_AuctionInfo_Handler ⟨[]⟩ Any.QueryCurrentAuctionInfoRequest
      Any.QueryCurrentAuctionInfoResponse AnyServer.query QueryServer.AuctionInfo
      Query_AuctionInfo_FullMethodName := by
  intro ctx dec
  refine ⟨?_, ?_⟩
  · intro err h srv ic st
    simp only [_Query_AuctionInfo_Handler, h]
  · intro h s
    refine ⟨fun st => by simp only [_Query_AuctionInfo_Handler, h, callAuctionInfo], ?_,
      by simp only [_Query_AuctionInfo_Handler, h]⟩
    intro f
    refine ⟨fun c r => match r with
      | .QueryCurrentAuctionInfoRequest p => callAuctionInfo (.query s) c p
      | _ => fun st => (.panic, st), ?_, fun _ _ _ => rfl, ?_⟩
    · simp only [_Query_AuctionInfo_Handler, h]
    · intro ctx' a st ha
      cases a <;> first | rfl | exact absurd rfl (ha _)

theorem dispatch_Params (σ : Type) :
    IsDispatchAdapter σ _Query_Params_Handler ⟨[]⟩ Any.QueryParamsRequest
      Any.QueryParamsResponse AnyServer.query QueryServer.Params
      Query_Params_FullMethodName := by
  intro ctx dec
  refine ⟨?_, ?_⟩
  · intro err h srv ic st
    simp only [_Query_Params_Handler, h]
  · intro h s
    refine ⟨fun st => by simp only [_Query_Params_Handler, h, callParams], ?_,
      by simp only [_Query_Params_Handler, h]⟩
    intro f
    refine ⟨fun c r => match r with
      | .QueryParamsRequest p => callParams (.query s) c p
      | _ => fun st => (.panic, st), ?_, fun _ _ _ => rfl, ?_⟩
    · simp only [_Query_Params_Handler, h]
    · intro ctx' a st ha
      cases a <;> first | rfl | exact absurd rfl (ha _)

/-- C16: each of the five generated handlers is a dispatch adapter for the
same-named method of the server it is given (`Bid`, `DepositCoin`,
`UpdateParams` of a `MsgServer`; `AuctionInfo`, `Params` of a `QueryServer`):
a decode error is returned as `(nil, err)` with the state untouched, so without
invoking the server, whatever the interceptor; without interceptor the handler
returns exactly the response and error of that server method on the decoded
request and leaves the state the method leaves; with an interceptor the handler
runs it on the decoded request, an info record carrying the server and that
method's full-name constant, and a continuation that returns the result of that
server method on the request it is given; and an interceptor that merely calls
its continuation gives the result of the call without interceptor. -/
theorem handlers_are_dispatch_adapters (σ : Type) :
    IsDispatchAdapter σ _Msg_Bid_Handler ⟨[]⟩ Any.MsgBid Any.MsgBidResponse
      AnyServer.msg MsgServer.Bid Msg_Bid_FullMethodName ∧
    IsDispatchAdapter σ _Msg_DepositCoin_Handler ⟨[]⟩ Any.MsgDepositCoin
      Any.MsgDepositCoinResponse AnyServer.msg MsgServer.DepositCoin
      Msg_DepositCoin_FullMethodName ∧
    IsDispatchAdapter σ _Msg_UpdateParams_Handler ⟨[]⟩ Any.MsgUpdateParams
      Any.MsgUpdateParamsResponse AnyServer.msg MsgServer.UpdateParams
      Msg_UpdateParams_FullMethodName ∧
    IsDispatchAdapter σ _Query_AuctionInfo_Handler ⟨[]⟩ Any.QueryCurrentAuctionInfoRequest
      Any.QueryCurrentAuctionInfoResponse AnyServer.query QueryServer.AuctionInfo
      Query_AuctionInfo_FullMethodName ∧
    IsDispatchAdapter σ _Query_Params_Handler ⟨[]⟩ Any.QueryParamsRequest
      Any.QueryParamsResponse AnyServer.query QueryServer.Params
      Query_Params_FullMethodName :=
  ⟨dispatch_Bid σ, dispatch_DepositCoin σ, dispatch_UpdateParams σ, dispatch_AuctionInfo σ,
    dispatch_Params σ⟩

/-- Witness for C16, on the sample servers that log their calls. A decoder that
fills in the content `[7, 8]` makes each handler call the same-named method
once, on that content, and return its response; with the sample interceptor the
log shows the method's full name followed by the one call; a decoder that fails
with an error gives back `(nil, err)` and an empty log, with and without
interceptor. -/
theorem handlers_are_dispatch_adapters_witness :
    (_Msg_Bid_Handler (.msg sampleMsgServer) 0 (fun _ => (none, ⟨[7, 8]⟩)) none []
        = (.ret (.MsgBidResponse (some ⟨[1, 7, 8]⟩)) none, [("Bid", [7, 8])]) ∧
      _Msg_Bid_Handler (.msg sampleMsgServer) 0 (fun _ => (none, ⟨[7, 8]⟩))
          (some sampleInterceptor) []
        = (.ret (.MsgBidResponse (some ⟨[1, 7, 8]⟩)) none,
            [("/evmos.auctions.v1.Msg/Bid", []), ("Bid", [7, 8])]) ∧
      (∀ ic, _Msg_Bid_Handler (.msg sampleMsgServer) 0 (fun m => (some (.other 9), m)) ic []
        = (.ret .nil (some (.other 9)), []))) ∧
    (_Msg_DepositCoin_Handler (.msg sampleMsgServer) 0 (fun _ => (none, ⟨[7, 8]⟩)) none []
        = (.ret (.MsgDepositCoinResponse (some ⟨[2, 7, 8]⟩)) none, [("DepositCoin", [7, 8])]) ∧
      (∀ ic, _Msg_DepositCoin_Handler (.msg sampleMsgServer) 0 (fun m => (some (.other 9), m))
          ic []
        = (.ret .nil (some (.other 9)), []))) ∧
    (_Msg_UpdateParams_Handler (.msg sampleMsgServer) 0 (fun _ => (none, ⟨[7, 8]⟩)) none []
        = (.ret (.MsgUpdateParamsResponse (some ⟨[3, 7, 8]⟩)) none,
            [("UpdateParams", [7, 8])]) ∧
      (∀ ic, _Msg_UpdateParams_Handler (.msg sampleMsgServer) 0 (fun m => (some (.other 9), m))
          ic []
        = (.ret .nil (some (.other 9)), []))) ∧
    (_Query_AuctionInfo_Handler (.query sampleQueryServer) 0 (fun _ => (none, ⟨[7, 8]⟩)) none []
        = (.ret (.QueryCurrentAuctionInfoResponse (some ⟨[4, 7, 8]⟩)) none,
            [("AuctionInfo", [7, 8])]) ∧
      (∀ ic, _Query_AuctionInfo_Handler (.query sampleQueryServer) 0
          (fun m => (some (.other 9), m)) ic []
        = (.ret .nil (some (.other 9)), []))) ∧
    (_Query_Params_Handler (.query sampleQueryServer) 0 (fun _ => (none, ⟨[7, 8]⟩)) none []
        = (.ret (.QueryParamsResponse (some ⟨[5, 7, 8]⟩)) none, [("Params", [7, 8])]) ∧
      (∀ ic, _Query_Params_Handler (.query sampleQueryServer) 0
          (fun m => (some (.other 9), m)) ic []
        = (.ret .nil (some (.other 9)), []))) := by
  have h := handlers_are_dispatch_adapters (List (String × Fields))
  refine ⟨⟨?_, ?_, ?_⟩, ⟨?_, ?_⟩, ⟨?_, ?_⟩, ⟨?_, ?_⟩, ⟨?_, ?_⟩⟩
  · exact ((h.1 0 (fun _ => (none, ⟨[7, 8]⟩))).2 rfl sampleMsgServer).1 []
  · obtain ⟨k, hk, hcall, _⟩ :=
      ((h.1 0 (fun _ => (none, ⟨[7, 8]⟩))).2 rfl sampleMsgServer).2.1 sampleInterceptor
    rw [hk]
    exact hcall 0 (some ⟨[7, 8]⟩) [("/evmos.auctions.v1.Msg/Bid", [])]
  · intro ic
    exact (h.1 0 (fun m => (some (.other 9), m))).1 (.other 9) rfl (.msg sampleMsgServer) ic []
  · exact ((h.2.1 0 (fun _ => (none, ⟨[7, 8]⟩))).2 rfl sampleMsgServer).1 []
  · intro ic
    exact (h.2.1 0 (fun m => (some (.other 9), m))).1 (.other 9) rfl (.msg sampleMsgServer) ic []
  · exact ((h.2.2.1 0 (fun _ => (none, ⟨[7, 8]⟩))).2 rfl sampleMsgServer).1 []
  · intro ic
    exact (h.2.2.1 0 (fun m => (some (.other 9), m))).1 (.other 9) rfl (.msg sampleMsgServer)
      ic []
  · exact ((h.2.2.2.1 0 (fun _ => (none, ⟨[7, 8]⟩))).2 rfl sampleQueryServer).1 []
  · intro ic
    exact (h.2.2.2.1 0 (fun m => (some (.other 9), m))).1 (.other 9) rfl
      (.query sampleQueryServer) ic []
  · exact ((h.2.2.2.2 0 (fun _ => (none, ⟨[7, 8]⟩))).2 rfl sampleQueryServer).1 []
  · intro ic
    exact (h.2.2.2.2 0 (fun m => (some (.other 9), m))).1 (.other 9) rfl
      (.query sampleQueryServer) ic []

/-- C17: every method of `UnimplementedMsgServer` and of
`UnimplementedQueryServer` returns, for every context, request and state, a nil
response together with a status error of code `Unimplemented` whose message is
"method " + the method's own name + " not implemented", and leaves the state as
it was. -/
theorem unimplemented_methods (σ : Type) (ctx : Context) (st : σ) :
    (∀ req, (UnimplementedMsgServer σ).Bid ctx req st
      = ((none, some (.status .Unimplemented ("method " ++ "Bid" ++ " not implemented"))), st)) ∧
    (∀ req, (UnimplementedMsgServer σ).DepositCoin ctx req st
      = ((none, some (.status .Unimplemented
          ("method " ++ "DepositCoin" ++ " not implemented"))), st)) ∧
    (∀ req, (UnimplementedMsgServer σ).UpdateParams ctx req st
      = ((none, some (.status .Unimplemented
          ("method " ++ "UpdateParams" ++ " not implemented"))), st)) ∧
    (∀ req, (UnimplementedQueryServer σ).AuctionInfo ctx req st
      = ((none, some (.status .Unimplemented
          ("method " ++ "AuctionInfo" ++ " not implemented"))), st)) ∧
    (∀ req, (UnimplementedQueryServer σ).Params ctx req st
      = ((none, some (.status .Unimplemented
          ("method " ++ "Params" ++ " not implemented"))), st)) := by
  refine ⟨fun _ => ?_, fun _ => ?_, fun _ => ?_, fun _ => ?_, fun _ => ?_⟩ <;>
    simp only [UnimplementedMsgServer, UnimplementedQueryServer, status_Errorf] <;>
    rfl

end Auctionsv1

namespace V16

/-! # Theorems: the upgrade utilities -/

theorem amountOf_of_isZero (coins : Coins) (h : Coins.IsZero coins = true) (d : String) :
    amountOf coins d = 0 := by
  induction coins with
  | nil => rfl
  | cons c rest ih =>
    simp only [Coins.IsZero, List.all_cons, Bool.and_eq_true, decide_eq_true_eq] at h
    have := ih (by simpa [Coins.IsZero] using h.2)
    simp only [amountOf, this, h.1]
    split <;> rfl

/-- C12: once the account iteration has ended in world `w1`, `ConvertERC20Coins`
reads the balances of the erc20 module account; if they are all zero it returns
nil without burning; otherwise it calls `BurnCoins` once, with the module name
and exactly those balances, and returns its result; hence, with a bank keeper
whose successful burn removes the burned coins, after a nil return the module
account holds no coins of any denomination. -/
theorem ConvertERC20Coins_burns_module_balance {σ : Type} (env : Env σ) (w w1 : World σ)
    (hiter : convertAccounts env (wrappedContractAddr env) (env.accounts w.state) w = some w1)
    (hlaw : BurnLaw env) :
    (Coins.IsZero (env.GetAllBalances w1.state (env.NewModuleAddress env.ModuleName)) = true →
      ConvertERC20Coins env w
        = some (none, { state := w1.state,
                        trace := w1.trace ++
                          [.GetAllBalances (env.NewModuleAddress env.ModuleName)] })) ∧
    (Coins.IsZero (env.GetAllBalances w1.state (env.NewModuleAddress env.ModuleName)) = false →
      ConvertERC20Coins env w
        = some ((env.BurnCoins w1.state env.ModuleName
                  (env.GetAllBalances w1.state (env.NewModuleAddress env.ModuleName))).1,
                { state := (env.BurnCoins w1.state env.ModuleName
                    (env.GetAllBalances w1.state (env.NewModuleAddress env.ModuleName))).2,
                  trace := w1.trace ++
                    [.GetAllBalances (env.NewModuleAddress env.ModuleName),
                     .BurnCoins env.ModuleName
                        (env.GetAllBalances w1.state (env.NewModuleAddress env.ModuleName))] })) ∧
    (∀ w', ConvertERC20Coins env w = some (none, w') →
      ∀ d, amountOf (env.GetAllBalances w'.state (env.NewModuleAddress env.ModuleName)) d = 0) := by
  have hz : Coins.IsZero (env.GetAllBalances w1.state (env.NewModuleAddress env.ModuleName)) = true →
      ConvertERC20Coins env w
        = some (none, { state := w1.state,
                        trace := w1.trace ++
                          [.GetAllBalances (env.NewModuleAddress env.ModuleName)] }) := by
    intro h
    simp only [ConvertERC20Coins, hiter, World.log, h, if_true]
  have hnz : Coins.IsZero (env.GetAllBalances w1.state (env.NewModuleAddress env.ModuleName)) = false →
      ConvertERC20Coins env w
        = some ((env.BurnCoins w1.state env.ModuleName
                  (env.GetAllBalances w1.state (env.NewModuleAddress env.ModuleName))).1,
                { state := (env.BurnCoins w1.state env.ModuleName
                    (env.GetAllBalances w1.state (env.NewModuleAddress env.ModuleName))).2,
                  trace := w1.trace ++
                    [.GetAllBalances (env.NewModuleAddress env.ModuleName),
                     .BurnCoins env.ModuleName
                        (env.GetAllBalances w1.state (env.NewModuleAddress env.ModuleName))] }) := by
    intro h
    simp only [ConvertERC20Coins, hiter, World.log, h, Bool.false_eq_true, if_false,
      List.append_assoc, List.singleton_append]
  refine ⟨hz, hnz, ?_⟩
  intro w' hw' d
  cases hzero : Coins.IsZero (env.GetAllBalances w1.state (env.NewModuleAddress env.ModuleName)) with
  | true =>
    rw [hz hzero] at hw'
    cases hw'
    exact amountOf_of_isZero _ hzero d
  | false =>
    rw [hnz hzero] at hw'
    simp only [Option.some.injEq, Prod.mk.injEq] at hw'
    obtain ⟨herr, hw⟩ := hw'
    subst hw
    have := hlaw w1.state _ _ (Prod.ext herr rfl) d
    simp only at this ⊢
    rw [this]
    omega

theorem sampleEnv_burnLaw : BurnLaw sampleEnv := by
  intro s s' amt h d
  simp only [sampleEnv] at h ⊢
  by_cases e : amt = s.moduleCoins
  · rw [if_pos e] at h
    simp only [Prod.mk.injEq, true_and] at h
    subst h
    subst e
    simp [amountOf]
  · rw [if_neg e] at h
    simp at h

/-- Witness for C12: in the sample world the module account holds 9 aevmos, which
are burned, and the call returns nil. -/
theorem ConvertERC20Coins_burns_module_balance_witness :
    (∃ w1, convertAccounts sampleEnv (wrappedContractAddr sampleEnv)
        (sampleEnv.accounts sampleWorld.state) sampleWorld = some w1) ∧
    BurnLaw sampleEnv ∧
    ∃ w', ConvertERC20Coins sampleEnv sampleWorld = some (none, w') ∧
      amountOf (sampleEnv.GetAllBalances w'.state
        (sampleEnv.NewModuleAddress sampleEnv.ModuleName)) "aevmos" = 0 ∧
      Event.BurnCoins "erc20" [⟨"aevmos", 9⟩] ∈ w'.trace := by
  have hiter : ∃ w1, convertAccounts sampleEnv (wrappedContractAddr sampleEnv)
      (sampleEnv.accounts sampleWorld.state) sampleWorld = some w1 := ⟨_, rfl⟩
  obtain ⟨w1, h1⟩ := hiter
  have hok : ∃ w', ConvertERC20Coins sampleEnv sampleWorld = some (none, w') ∧
      Event.BurnCoins "erc20" [⟨"aevmos", 9⟩] ∈ w'.trace := ⟨_, rfl, by decide⟩
  obtain ⟨w', h2, h3⟩ := hok
  exact ⟨⟨w1, h1⟩, sampleEnv_burnLaw, w', h2,
    (ConvertERC20Coins_burns_module_balance sampleEnv sampleWorld w1 h1 sampleEnv_burnLaw).2.2
      w' h2 "aevmos", h3⟩

/-- C13: `WithdrawWEVMOS` first reads the WEVMOS balance of the account. For a
missing (nil) balance it returns a nil balance, a nil response and a non-nil
error, and for a zero or negative balance it returns `(nil, nil, nil)`; in both
cases it makes no EVM call and leaves the state as it is. For a positive balance
it makes exactly one EVM call, from the account to the WEVMOS contract with
commit set, and returns the balance with the response and the error of that
call. -/
theorem WithdrawWEVMOS_cases {σ : Type} (env : Env σ) (w : World σ)
    (sender wevmosContract : Address) :
    (env.BalanceOf w.state wevmosContract sender = none →
      ∃ e, WithdrawWEVMOS env w sender wevmosContract
        = ((none, none, some e),
           { state := w.state, trace := w.trace ++ [.BalanceOf wevmosContract sender] })) ∧
    (∀ b, env.BalanceOf w.state wevmosContract sender = some b → b ≤ 0 →
      WithdrawWEVMOS env w sender wevmosContract
        = ((none, none, none),
           { state := w.state, trace := w.trace ++ [.BalanceOf wevmosContract sender] })) ∧
    (∀ b, env.BalanceOf w.state wevmosContract sender = some b → 0 < b →
      ∃ data,
        WithdrawWEVMOS env w sender wevmosContract
          = ((some b, (env.CallEVMWithData w.state sender wevmosContract data true).1.1,
              (env.CallEVMWithData w.state sender wevmosContract data true).1.2),
             { state := (env.CallEVMWithData w.state sender wevmosContract data true).2,
               trace := w.trace ++ [.BalanceOf wevmosContract sender,
                 .CallEVMWithData sender wevmosContract data true] })) := by
  refine ⟨?_, ?_, ?_⟩
  · intro h
    exact ⟨.failedToGetBalance sender, by simp only [WithdrawWEVMOS, h, World.log]⟩
  · intro b h hb
    simp only [WithdrawWEVMOS, h, World.log, if_pos hb]
  · intro b h hb
    refine ⟨[], ?_⟩
    simp only [WithdrawWEVMOS, h, World.log, if_neg (not_le.2 hb), List.append_assoc,
      List.singleton_append]

/-- Witness for C13: in the sample world the account holds 5 WEVMOS, and one EVM
call is made. -/
theorem WithdrawWEVMOS_cases_witness :
    sampleEnv.BalanceOf sampleWorld.state ⟨[9]⟩ ⟨[1, 2, 3]⟩ = some 5 ∧ (0 : Int) < 5 ∧
    ∃ data, (WithdrawWEVMOS sampleEnv sampleWorld ⟨[1, 2, 3]⟩ ⟨[9]⟩).2.trace
      = [.BalanceOf ⟨[9]⟩ ⟨[1, 2, 3]⟩, .CallEVMWithData ⟨[1, 2, 3]⟩ ⟨[9]⟩ data true] := by
  obtain ⟨data, h⟩ :=
    (WithdrawWEVMOS_cases sampleEnv sampleWorld ⟨[1, 2, 3]⟩ ⟨[9]⟩).2.2 5 rfl (by decide)
  exact ⟨rfl, by decide, data, by rw [h]; rfl⟩

/-- At a positive balance the call data that `WithdrawWEVMOS`
passes to the EVM is empty, whatever the balance; it is not the call data of
`withdraw(uint256)` for the balance, which has 36 bytes. -/
theorem WithdrawWEVMOS_calldata_empty {σ : Type} (env : Env σ) (w : World σ)
    (sender wevmosContract : Address) (b : Int)
    (h : env.BalanceOf w.state wevmosContract sender = some b) (hb : 0 < b) :
    (WithdrawWEVMOS env w sender wevmosContract).2.trace
      = w.trace ++ [.BalanceOf wevmosContract sender,
          .CallEVMWithData sender wevmosContract [] true] ∧
    ([] : List Nat) ≠ withdrawCallData b.toNat := by
  refine ⟨?_, ?_⟩
  · simp only [WithdrawWEVMOS, h, World.log, if_neg (not_le.2 hb), List.append_assoc,
      List.singleton_append]
  · simp [withdrawCallData]

/-- C14, the code evaluated: with a balance of 5 WEVMOS the EVM is called with empty
call data, where `withdraw(5)` is the selector followed by the amount. -/
theorem WithdrawWEVMOS_calldata_sample :
    (WithdrawWEVMOS sampleEnv sampleWorld ⟨[1, 2, 3]⟩ ⟨[9]⟩).2.trace
      = [.BalanceOf ⟨[9]⟩ ⟨[1, 2, 3]⟩, .CallEVMWithData ⟨[1, 2, 3]⟩ ⟨[9]⟩ [] true] ∧
    withdrawCallData 5
      = [0x2e, 0x1a, 0x7d, 0x4d, 0, 0, 0, 0, 0, 0, 0, 0, 0, 0, 0, 0, 0, 0, 0, 0, 0, 0, 0, 0,
         0, 0, 0, 0, 0, 0, 0, 0, 0, 0, 0, 5] := by
  constructor
  · rfl
  · decide

/-! ### The pairs that are converted -/

end V16
